import Mathlib

/-!
# A verification development for the terminal text editor (`src/main.cpp`)

The editor keeps its session in process-wide variables: the row vector
`rows` (pairs of raw text and tab-expanded text), the `cursor` (`r`, `x`, `y`),
the `modified` flag, the scroll offsets and the terminal size.  Here that state
is the record `Editor`, and every function of the source that reads or writes
it becomes a function on `Editor`.

Conventions of the embedding:

* `char` is `Char`, `std::string` is `List Char`, `std::vector<row_t>` is
  `List row_t`.
* `std::size_t` is `Nat`.  Unsigned subtraction is `sz_sub`, which wraps
  modulo `2 ^ 64` when the subtrahend is larger; additions whose operands may
  themselves be wrapped values use `sz_add`.
* An access outside a vector (`rows[i]` with `i >= rows.size()`), an iterator
  outside `[begin, end]`, a dereference of an empty `std::optional` and a
  `std::out_of_range` thrown by `at`, `insert`, `erase`, `substr` have no
  defined continuation: the embedded function returns `none` there.
* The storage of `rows` is part of the state: `capacity` is `rows.capacity()`.
  An insertion into a full vector reallocates it.  A reference
  `auto &row = rows[i]` is the index `i` for as long as the storage is not
  reallocated; a use of the reference after a reallocating `emplace` has no
  defined continuation (`none`).
* Loops are structural recursions on an iteration budget.
-/

namespace TextEditor

/-! ## Machine arithmetic -/

/-- Number of values of a 64-bit `std::size_t`. -/
def size_mod : Nat := 2 ^ 64

/-- Unsigned subtraction `a - b` on `std::size_t`: exact when `b <= a`, wrapping
modulo `2 ^ 64` otherwise. -/
def sz_sub (a b : Nat) : Nat :=
  if b ≤ a then a - b else (a + size_mod - b) % size_mod

/-- Unsigned addition `a + b` on `std::size_t`. -/
def sz_add (a b : Nat) : Nat := (a + b) % size_mod

/-- Bitwise complement `~v` on `std::size_t`. -/
def sz_not (v : Nat) : Nat := size_mod - 1 - v % size_mod

/-- The constant `tab_size`. -/
def tab_size : Nat := 4

/-! ## Data model -/

/-- The pair `row_t`: `first` is the raw text, `second` the rendered text. -/
abbrev row_t := List Char × List Char

/-- The anonymous struct `cursor`. -/
structure Cursor where
  r : Nat
  x : Nat
  y : Nat
deriving DecidableEq

/-- The process-wide variables of the editing core; `capacity` is
`rows.capacity()`, the number of elements the storage of `rows` holds before
an insertion has to reallocate it. -/
structure Editor where
  rows : List row_t
  capacity : Nat
  cursor : Cursor
  modified : Bool
  row_offset : Nat
  col_offset : Nat
  width : Nat
  height : Nat
deriving DecidableEq

/-! ## Coordinate model -/

/-- The loop of `intlen`: `while (num) { num /= 10; digits++; }`. -/
def intlenLoop : Nat → Nat → Nat → Option Nat
  | 0, num, digits => if num = 0 then some digits else none
  | fuel + 1, num, digits =>
    if num = 0 then some digits else intlenLoop fuel (num / 10) (digits + 1)

/-- The function `intlen`; the budget `num` always suffices. -/
def intlen (num : Nat) : Nat := (intlenLoop num num 0).getD 0

/-- The function `max_digits`: `std::max(intlen(rows.size()), 2)`. -/
def max_digits (rows : List row_t) : Nat := max (intlen rows.length) 2

/-- The function `round_down`: `n & ~(a - 1)`. -/
def round_down (n a : Nat) : Nat := n &&& sz_not (sz_sub a 1)

/-- The function `round_up`: `round_down(n + a - 1, a)`. -/
def round_up (n a : Nat) : Nat := round_down (sz_sub (sz_add n a) 1) a

/-- The loop of `x2r`: `iters` iterations remain, `i` is the loop index and
`ret` the accumulator; `rline.at(i)` throws outside the line. -/
def x2rLoop (rline : List Char) : Nat → Nat → Nat → Option Nat
  | 0, _, ret => some ret
  | iters + 1, i, ret =>
    match rline[i]? with
    | none => none
    | some c =>
      let ret1 := if c = '\t' then ret + ((tab_size - 1) - ret % tab_size) else ret
      x2rLoop rline iters (i + 1) (ret1 + 1)

/-- The function `x2r`; it reads the row vector through `max_digits`. -/
def x2r (rows : List row_t) (rline : List Char) (x : Nat) : Option Nat :=
  let mdigits := max_digits rows
  (x2rLoop rline (sz_sub x (mdigits + 1)) 0 0).map (fun ret => ret + mdigits + 1)

/-- Index of the first occurrence of `c` in a string, if any. -/
def find_first (c : Char) : List Char → Option Nat
  | [] => none
  | d :: t => if d = c then some 0 else (find_first c t).map (fun i => i + 1)

/-- The call `rline.find(c, pos)`: first index at or after `pos` holding `c`;
`none` is `npos`. -/
def str_find (rline : List Char) (c : Char) (pos : Nat) : Option Nat :=
  (find_first c (rline.drop pos)).map (fun i => pos + i)

/-- The call `rline.replace(pos, 1, count, c)` for `pos` inside the string. -/
def str_replace1 (rline : List Char) (pos count : Nat) (c : Char) : List Char :=
  rline.take pos ++ List.replicate count c ++ rline.drop (pos + 1)

/-- The loop of `getrline`; `none` only when the iteration budget runs out. -/
def getrlineLoop : Nat → List Char → Nat → Option (List Char)
  | 0, _, _ => none
  | fuel + 1, rline, pos =>
    match str_find rline '\t' pos with
    | none => some rline
    | some p =>
      let numspaces :=
        sz_sub (round_up (if p = 0 ∨ p % tab_size = 0 then p + 1 else p) tab_size) p
      getrlineLoop fuel (str_replace1 rline p numspaces ' ') (p + numspaces)

/-- The function `getrline`.  Each iteration removes one tab, so a budget of
`length + 1` iterations reaches the exit of the loop. -/
def getrline (rline : List Char) : List Char :=
  (getrlineLoop (rline.length + 1) rline 0).getD rline

/-! ## String and vector primitives -/

/-- The call `s.insert(pos, 1, c)`; throws when `pos > s.size()`. -/
def str_insert (s : List Char) (pos : Nat) (c : Char) : Option (List Char) :=
  if pos ≤ s.length then some (s.take pos ++ c :: s.drop pos) else none

/-- The call `s.substr(pos)`; throws when `pos > s.size()`. -/
def str_substr (s : List Char) (pos : Nat) : Option (List Char) :=
  if pos ≤ s.length then some (s.drop pos) else none

/-- The call `s.erase(pos)`, which drops everything from `pos` on; throws when
`pos > s.size()`. -/
def str_erase_from (s : List Char) (pos : Nat) : Option (List Char) :=
  if pos ≤ s.length then some (s.take pos) else none

/-- The call `s.erase(pos, 1)`; throws when `pos > s.size()`. -/
def str_erase1 (s : List Char) (pos : Nat) : Option (List Char) :=
  if pos ≤ s.length then some (s.take pos ++ s.drop (pos + 1)) else none

/-- The conversion `s.c_str()` read back as a string: the characters before the
first NUL. -/
def c_str (s : List Char) : List Char :=
  s.takeWhile (fun c => c != Char.ofNat 0)

/-- The call `rows.emplace(rows.begin() + idx, v)`; the iterator must lie in
`[begin, end]`. -/
def vec_emplace (rows : List row_t) (idx : Nat) (v : row_t) : Option (List row_t) :=
  if idx ≤ rows.length then some (rows.take idx ++ v :: rows.drop idx) else none

/-- Capacity of a vector after one element is inserted (`emplace`,
`emplace_back`) while it holds `size` elements in storage for `capacity`:
unchanged when there is room; a full vector is reallocated, to
`size + max(size, 1)` elements as libstdc++ and libc++ do. -/
def vec_grow (size capacity : Nat) : Nat :=
  if size < capacity then capacity else size + max size 1

/-- Capacity of `rows` after `n` calls of `emplace_back` on the empty vector
`main` starts from (capacity 0). -/
def load_capacity : Nat → Nat
  | 0 => 0
  | n + 1 => vec_grow n (load_capacity n)

/-! ## Edit engine -/

/-- The function `insert(row, pos, c)` with `row` the element `idx` of `rows`. -/
def insert (e : Editor) (idx pos : Nat) (c : Char) : Option Editor :=
  match e.rows[idx]? with
  | none => none
  | some row =>
    match str_insert row.1 pos c with
    | none => none
    | some s => some { e with rows := e.rows.set idx (s, getrline s), modified := true }

/-- The function `append(row, str)` with `row` the element `idx` of `rows`. -/
def append_str (e : Editor) (idx : Nat) (str : List Char) : Option Editor :=
  match e.rows[idx]? with
  | none => none
  | some row =>
    let s := row.1 ++ str
    some { e with rows := e.rows.set idx (s, getrline s), modified := true }

/-- The test `cursor.y == rows.size() && cursor.x == rows[cursor.y - 1].first.length() + (mdigits + 1)`
of `append(char)`; the right operand is evaluated only when the left holds. -/
def at_buffer_end (e : Editor) (mdigits : Nat) : Option Bool :=
  if e.cursor.y = e.rows.length then
    match e.rows[sz_sub e.cursor.y 1]? with
    | none => none
    | some row => some (decide (e.cursor.x = row.1.length + (mdigits + 1)))
  else some false

/-- The row mutations of the newline branch of `append(char)`, before the
cursor is moved: the new rows and the new capacity.  In the split branch the
reference `row` is taken before `rows.emplace`; it still names element
`cursor.y - 1` afterwards only when the `emplace` did not reallocate the
storage, that is when the vector was not full.  On a full vector `row` dangles
and `row.first.erase` has no defined result. -/
def append_newline_rows (e : Editor) (mdigits : Nat) : Option (List row_t × Nat) :=
  if e.cursor.x = mdigits + 1 then
    match vec_emplace e.rows (sz_sub e.cursor.y 1) ([], []) with
    | none => none
    | some rows1 => some (rows1, vec_grow e.rows.length e.capacity)
  else
    match at_buffer_end e mdigits with
    | none => none
    | some true => some (e.rows, e.capacity)
    | some false =>
      match e.rows[sz_sub e.cursor.y 1]? with
      | none => none
      | some row =>
        match str_substr row.1 (sz_sub e.cursor.x (mdigits + 1)) with
        | none => none
        | some tail =>
          match vec_emplace e.rows e.cursor.y (tail, []) with
          | none => none
          | some rows1 =>
            let rows2 := rows1.set e.cursor.y (tail, getrline tail)
            if e.rows.length < e.capacity then
              match str_erase_from row.1 (sz_sub e.cursor.x (mdigits + 1)) with
              | none => none
              | some head =>
                some (rows2.set (sz_sub e.cursor.y 1) (head, getrline head),
                  vec_grow e.rows.length e.capacity)
            else none

/-- The function `append(char c)`. -/
def append (c : Char) (e : Editor) : Option Editor :=
  let mdigits := max_digits e.rows
  if c = '\n' then
    match append_newline_rows e mdigits with
    | none => none
    | some (rows1, capacity1) =>
      some { e with rows := rows1, capacity := capacity1,
                    cursor := { e.cursor with y := e.cursor.y + 1, x := mdigits + 1 } }
  else
    match insert e (sz_sub e.cursor.y 1) (sz_sub e.cursor.x (mdigits + 1)) c with
    | none => none
    | some e1 => some { e1 with cursor := { e1.cursor with x := e1.cursor.x + 1 } }

/-- The function `deleter(idx)`. -/
def deleter (rows : List row_t) (idx : Nat) : List row_t :=
  if idx ≥ rows.length then rows else rows.eraseIdx idx

/-- The function `deletec`. -/
def deletec (e : Editor) : Option Editor :=
  let mdigits := max_digits e.rows
  if sz_sub e.cursor.y 1 = e.rows.length ∨ (e.cursor.x = mdigits + 1 ∧ e.cursor.y = 1) then
    some e
  else if e.cursor.x > mdigits + 1 then
    match e.rows[sz_sub e.cursor.y 1]? with
    | none => none
    | some row =>
      let x1 := sz_sub e.cursor.x 1
      match str_erase1 row.1 (sz_sub x1 (mdigits + 1)) with
      | none => none
      | some s =>
        some { e with rows := e.rows.set (sz_sub e.cursor.y 1) (s, getrline s),
                      cursor := { e.cursor with x := x1 },
                      modified := true }
  else
    match e.rows[sz_sub e.cursor.y 2]? with
    | none => none
    | some row =>
      let x1 := row.1.length + mdigits + 1
      match e.rows[sz_sub e.cursor.y 1]? with
      | none => none
      | some cur =>
        match append_str e (sz_sub e.cursor.y 2) (c_str cur.1) with
        | none => none
        | some e1 =>
          let y1 := sz_sub e.cursor.y 1
          some { e1 with rows := deleter e1.rows y1,
                         cursor := { e1.cursor with x := x1, y := y1 },
                         modified := true }

/-- The function `mem2buffer`: every raw text followed by a newline. -/
def mem2buffer (rows : List row_t) : List Char :=
  (rows.map (fun row => row.1 ++ ['\n'])).flatten

/-! ## Cursor operations -/

/-- The enumeration `operation`. -/
inductive operation where
  | up | down | right | left
  | pg_up | pg_down
  | home | end_
  | backspace | del
deriving DecidableEq

/-- The lambda `update_row` of `handle_ctrl`: the current row seen through
`c_str()`, or `std::nullopt` past the last row. -/
def update_row (e : Editor) : Option (List Char) :=
  if sz_sub e.cursor.y 1 < e.rows.length then
    (e.rows[sz_sub e.cursor.y 1]?).map (fun row => c_str row.1)
  else none

/-- The lambda `is_last_empty` of `handle_ctrl`, for a `row` that holds a value. -/
def is_last_empty (e : Editor) (row : List Char) : Bool :=
  decide (e.cursor.y = e.rows.length) && row.isEmpty

/-- The loop of `operation::pg_up`, returning the final `cursor.y`. -/
def pg_up_loop : Nat → Nat → Nat
  | 0, y => y
  | iters + 1, y => if y ≠ 1 then pg_up_loop iters (sz_sub y 1) else y

/-- The loop of `operation::pg_down`, returning the final `cursor.y`. -/
def pg_down_loop : Nat → Editor → Nat
  | 0, e => e.cursor.y
  | iters + 1, e =>
    match update_row e with
    | none => e.cursor.y
    | some row =>
      if !is_last_empty e row then
        pg_down_loop iters { e with cursor := { e.cursor with y := e.cursor.y + 1 } }
      else e.cursor.y

/-- The second block of `handle_ctrl`: `cursor.x` is cut back to the end of the
current row, measured with the `mdigits` read on entry. -/
def clamp_x (mdigits : Nat) (e : Editor) : Editor :=
  let len := ((update_row e).getD []).length
  if e.cursor.x > len + mdigits + 1 then
    { e with cursor := { e.cursor with x := len + mdigits + 1 } }
  else e

/-- The `switch` of `handle_ctrl` for every operation but `del`. -/
def handle_switch (op : operation) (mdigits : Nat) (e : Editor) : Option Editor :=
  let row := update_row e
  match op with
  | .up =>
    if e.cursor.y ≠ 1 then some { e with cursor := { e.cursor with y := sz_sub e.cursor.y 1 } }
    else some e
  | .down =>
    match row with
    | none => some e
    | some r =>
      if !is_last_empty e r then some { e with cursor := { e.cursor with y := e.cursor.y + 1 } }
      else some e
  | .right =>
    match row with
    | none => some e
    | some r =>
      if e.cursor.x < r.length + mdigits + 1 then
        some { e with cursor := { e.cursor with x := e.cursor.x + 1 } }
      else if e.cursor.x = r.length + mdigits + 1 ∧ !is_last_empty e r then
        some { e with cursor := { e.cursor with y := e.cursor.y + 1, x := mdigits + 1 } }
      else some e
  | .left =>
    if e.cursor.x > mdigits + 1 then
      some { e with cursor := { e.cursor with x := sz_sub e.cursor.x 1 } }
    else if e.cursor.y ≠ 1 then
      let y1 := sz_sub e.cursor.y 1
      match e.rows[sz_sub y1 1]? with
      | none => none
      | some prev =>
        some { e with cursor := { e.cursor with y := y1, x := prev.1.length + mdigits + 1 } }
    else some e
  | .pg_up =>
    some { e with cursor :=
      { e.cursor with y := pg_up_loop (sz_sub e.height 1) (e.row_offset + 1) } }
  | .pg_down =>
    let y0 := min (sz_sub (sz_add e.row_offset e.height) 1) e.rows.length
    some { e with cursor :=
      { e.cursor with y :=
          pg_down_loop (sz_sub e.height 1) { e with cursor := { e.cursor with y := y0 } } } }
  | .home => some { e with cursor := { e.cursor with x := max_digits e.rows + 1 } }
  | .end_ =>
    match row with
    | none => some e
    | some r => some { e with cursor := { e.cursor with x := r.length + mdigits + 1 } }
  | .backspace => deletec e
  | .del => some e

/-- The function `handle_ctrl` for every operation but `del`: the `switch`,
then the final cut of `cursor.x`. -/
def handle_ctrl_plain (op : operation) (e : Editor) : Option Editor :=
  let mdigits := max_digits e.rows
  (handle_switch op mdigits e).map (clamp_x mdigits)

/-- The test `cursor.y != rows.size() || cursor.x != mdigits + 1 + row->length()`
of `operation::del`; `row->` is evaluated only when the left operand fails and
needs `row` to hold a value. -/
def del_guard (e : Editor) (mdigits : Nat) : Option Bool :=
  if e.cursor.y ≠ e.rows.length then some true
  else
    match update_row e with
    | none => none
    | some r => some (decide (e.cursor.x ≠ mdigits + 1 + r.length))

/-- The function `handle_ctrl`.  Its only recursive call is
`handle_ctrl(operation::right)` inside `operation::del`. -/
def handle_ctrl (op : operation) (e : Editor) : Option Editor :=
  let mdigits := max_digits e.rows
  match op with
  | .del =>
    match del_guard e mdigits with
    | none => none
    | some false => some (clamp_x mdigits e)
    | some true =>
      match handle_ctrl_plain .right e with
      | none => none
      | some e1 =>
        match deletec e1 with
        | none => none
        | some e2 => some (clamp_x mdigits e2)
  | _ => handle_ctrl_plain op e

/-! ## Viewport and redraw -/

/-- The function `scroll`. -/
def scroll (e : Editor) : Option Editor :=
  let mdigits := max_digits e.rows
  let r? : Option Nat :=
    if e.cursor.y ≤ e.rows.length then
      match e.rows[sz_sub e.cursor.y 1]? with
      | none => none
      | some row => x2r e.rows row.1 e.cursor.x
    else some (mdigits + 1)
  match r? with
  | none => none
  | some r =>
    let ro1 := if e.cursor.y ≤ e.row_offset then sz_sub e.cursor.y 1 else e.row_offset
    let ro2 :=
      if e.cursor.y ≥ sz_add ro1 (sz_sub e.height 1) then sz_sub e.cursor.y (sz_sub e.height 1)
      else ro1
    let co1 :=
      if r ≤ sz_add e.col_offset mdigits then sz_sub (sz_sub r mdigits) 1 else e.col_offset
    let co2 :=
      if r ≥ sz_add co1 (sz_sub e.width mdigits) then sz_sub r (sz_sub e.width mdigits)
      else co1
    some { e with cursor := { e.cursor with r := r }, row_offset := ro2, col_offset := co2 }

/-- The first loop of `drawscreen`, restricted to what it does to `rows`, to
the capacity of `rows` and to `modified`: `iters` iterations remain and `i` is
the loop index.  Reading `rows[row - 1]` or `rows[row]` outside the vector is
undefined. -/
def drawscreenLoop (top row_offset : Nat) :
    Nat → Nat → List row_t → Nat → Bool → Option (List row_t × Nat × Bool)
  | 0, _, rows, cap, m => some (rows, cap, m)
  | iters + 1, i, rows, cap, m =>
    let row := i + row_offset
    let next (rows1 : List row_t) (cap1 : Nat) (m1 : Bool) :
        Option (List row_t × Nat × Bool) :=
      match rows1[row]? with
      | none => none
      | some _ => drawscreenLoop top row_offset iters (i + 1) rows1 cap1 m1
    if i = sz_sub top 1 ∧ rows.length ≤ row then
      if row ≠ 0 then
        match rows[sz_sub row 1]? with
        | none => none
        | some prev =>
          if prev.1.isEmpty then some (rows, cap, m)
          else next (rows ++ [([], [])]) (vec_grow rows.length cap) true
      else next (rows ++ [([], [])]) (vec_grow rows.length cap) true
    else next rows cap m

/-- The function `drawscreen`, restricted to its effect on the editor state
(the text it prints is not part of the state). -/
def drawscreen (e : Editor) : Option Editor :=
  let top0 := min (sz_sub e.height 1) e.rows.length
  let top := if e.cursor.y = e.rows.length + 1 then top0 + 1 else top0
  match drawscreenLoop top e.row_offset top 0 e.rows e.capacity e.modified with
  | none => none
  | some (rows1, capacity1, m1) =>
    some { e with rows := rows1, capacity := capacity1, modified := m1 }

/-- The function `refresh`: `scroll()` then `drawscreen()`. -/
def refresh (e : Editor) : Option Editor :=
  match scroll e with
  | none => none
  | some e1 => drawscreen e1

/-- The initial row vector built by `main`: one row per line read from the
file, or a single default-constructed row when no file is loaded. -/
def load_rows : Option (List (List Char)) → List row_t
  | some lines => lines.map (fun line => (line, getrline line))
  | none => [([], [])]

/-! ## Properties stated about the model -/

/-- Line invariant of the Row Store: the rendered text of every row is
`getrline` of its raw text. -/
def line_inv (rows : List row_t) : Prop :=
  ∀ row ∈ rows, row.2 = getrline row.1

/-- One state-changing call of the editing core. -/
inductive Step where
  | key (c : Char)
  | ctrl (op : operation)
  | scroll
  | drawscreen
deriving DecidableEq

/-- Effect of one call. -/
def step : Step → Editor → Option Editor
  | .key c, e => append c e
  | .ctrl op, e => handle_ctrl op e
  | .scroll, e => scroll e
  | .drawscreen, e => drawscreen e

/-- Effect of a sequence of calls, left to right. -/
def run : List Step → Editor → Option Editor
  | [], e => some e
  | s :: rest, e =>
    match step s e with
    | none => none
    | some e1 => run rest e1

/-- A small session used to exercise the invariant: the file `a<TAB>b` on an
80 x 24 terminal. -/
def demo_start : Editor :=
  { rows := load_rows (some [['a', '\t', 'b']]), capacity := load_capacity 1,
    cursor := ⟨0, 3, 1⟩, modified := false,
    row_offset := 0, col_offset := 0, width := 80, height := 24 }

/-- Calls of the demo session: type, go to the end, split onto the virtual row,
redraw (the renderer appends the blank row: two rows in storage for two), type,
move, merge (one row in storage for two), delete, split (no reallocation). -/
def demo_steps : List Step :=
  [.key 'x', .ctrl .end_, .key '\n', .scroll, .drawscreen, .key '\t', .key 'y',
   .ctrl .left, .ctrl .left, .ctrl .backspace, .ctrl .del, .ctrl .up, .key '\n']

/-- State at the end of the demo session. -/
def demo_final : Editor :=
  { rows := [(['x', 'a', '\t', 'b'], ['x', 'a', ' ', ' ', 'b']), (['y'], ['y'])],
    capacity := 2, cursor := ⟨3, 3, 2⟩, modified := true,
    row_offset := 0, col_offset := 0, width := 80, height := 24 }

/-- Tab expansion as the specification words it: `p` output characters have
been produced so far; a tab becomes `4 - p % 4` spaces, any other character is
copied. -/
def expand_tabs_from (p : Nat) : List Char → List Char
  | [] => []
  | c :: t =>
    if c = '\t' then
      List.replicate (4 - p % 4) ' ' ++ expand_tabs_from (p + (4 - p % 4)) t
    else c :: expand_tabs_from (p + 1) t

/-- Render-column walk as the specification words it: starting from the
accumulator `acc`, add 1 per ordinary character and `4 - acc % 4` per tab. -/
def walk_columns (acc : Nat) : List Char → Nat
  | [] => acc
  | c :: t => walk_columns (if c = '\t' then acc + (4 - acc % 4) else acc + 1) t

/-- Raw text of the 1-based row `y`; empty for the virtual row past the end. -/
def raw_at (rows : List row_t) (y : Nat) : List Char :=
  ((rows[y - 1]?).map Prod.fst).getD []

/-- The cursor is valid and stands on a real row: `1 ≤ y ≤ row_count` and
`gutter + 1 ≤ x ≤ line_length(y) + gutter + 1`, the gutter width being that of
the current row count. -/
def cursor_on_row (e : Editor) : Prop :=
  1 ≤ e.cursor.y ∧ e.cursor.y ≤ e.rows.length
    ∧ max_digits e.rows + 1 ≤ e.cursor.x
    ∧ e.cursor.x ≤ (raw_at e.rows e.cursor.y).length + max_digits e.rows + 1

instance (e : Editor) : Decidable (cursor_on_row e) := by
  unfold cursor_on_row; infer_instance

/-- An editor state over the given raw lines as `main` loads them (rendered by
`getrline`, one `emplace_back` per line), with the cursor at buffer column `x`
of row `y`, on an 80 x 24 terminal. -/
def editor_of (lines : List (List Char)) (x y : Nat) (modified : Bool) : Editor :=
  { rows := lines.map (fun line => (line, getrline line)),
    capacity := load_capacity lines.length, cursor := ⟨0, x, y⟩,
    modified := modified, row_offset := 0, col_offset := 0, width := 80, height := 24 }

/-- The state of a session started without a file, after the first `resize()`:
`main` has called `rows.emplace_back()` once on the empty vector (one row in
storage for one) and `resize` has put the cursor on the gutter boundary of row
1, on an 80 x 24 terminal. -/
def fresh_start : Editor :=
  { rows := load_rows none, capacity := load_capacity 1, cursor := ⟨3, 3, 1⟩,
    modified := false, row_offset := 0, col_offset := 0, width := 80, height := 24 }

/-- No row of the document holds a NUL character, so `c_str()` shows every
row in full. -/
def nul_free (rows : List row_t) : Prop :=
  ∀ row ∈ rows, Char.ofNat 0 ∉ row.1

/-! ## Loading a file -/

/-- The call `std::getline(file, line)` on a stream whose unread content is `s`:
at end of input it extracts nothing and fails (`none`); otherwise it returns the
characters before the first `'\n'` and leaves the stream after that `'\n'` (or
at end of input when there is none). -/
def getline (s : List Char) : Option (List Char × List Char) :=
  if s = [] then none
  else some (s.takeWhile (fun c => c != '\n'), (s.dropWhile (fun c => c != '\n')).drop 1)

/-- The loop `while (std::getline(file, line)) rows.emplace_back(line, getrline(line))`
of `main`; `none` only when the iteration budget runs out. -/
def load_loop : Nat → List Char → List row_t → Option (List row_t)
  | 0, _, _ => none
  | fuel + 1, s, rows =>
    match getline s with
    | none => some rows
    | some (line, rest) => load_loop fuel rest (rows ++ [(line, getrline line)])

/-- The rows `main` builds from a file whose content is `t`.  Every successful
`getline` consumes at least one character, so `length + 1` iterations reach
the end of input. -/
def load_file (t : List Char) : Option (List row_t) :=
  load_loop (t.length + 1) t []

/-- The cursor is valid: `1 ≤ y ≤ row_count + 1` and
`gutter + 1 ≤ x ≤ line_length(y) + gutter + 1`, where the virtual row
`row_count + 1` has length 0 and the gutter width is that of the current row
count. -/
def cursor_valid (e : Editor) : Prop :=
  1 ≤ e.cursor.y ∧ e.cursor.y ≤ e.rows.length + 1
    ∧ max_digits e.rows + 1 ≤ e.cursor.x
    ∧ e.cursor.x ≤ (raw_at e.rows e.cursor.y).length + max_digits e.rows + 1

instance (e : Editor) : Decidable (cursor_valid e) := by
  unfold cursor_valid; infer_instance

/-- The sums `scroll` forms stay below `2 ^ 64`: cursor row plus terminal
height, column offset plus terminal width plus gutter, and the largest render
column of the current row plus terminal width. -/
def scroll_fits (e : Editor) : Prop :=
  e.cursor.y + e.height < size_mod
    ∧ e.col_offset + e.width + max_digits e.rows < size_mod
    ∧ 4 * (raw_at e.rows e.cursor.y).length + max_digits e.rows + 1 + e.width < size_mod

instance (e : Editor) : Decidable (scroll_fits e) := by
  unfold scroll_fits; infer_instance

/-- The vertical rule of `scroll`: the new `row_offset` from the cursor row, the
old offset and the terminal height. -/
def scroll_row_offset (y ro height : Nat) : Nat :=
  let ro1 := if y ≤ ro then sz_sub y 1 else ro
  if y ≥ sz_add ro1 (sz_sub height 1) then sz_sub y (sz_sub height 1) else ro1

/-- The horizontal rule of `scroll`: the new `col_offset` from the render
column, the old offset, the terminal width and the gutter width. -/
def scroll_col_offset (r co width mdigits : Nat) : Nat :=
  let co1 := if r ≤ sz_add co mdigits then sz_sub (sz_sub r mdigits) 1 else co
  if r ≥ sz_add co1 (sz_sub width mdigits) then sz_sub r (sz_sub width mdigits) else co1

/-- The render column `scroll` computes for a valid cursor: the walk over the
text left of the cursor on a real row, the gutter boundary on the virtual row. -/
def render_col (e : Editor) : Nat :=
  max_digits e.rows + 1
    + walk_columns 0 ((raw_at e.rows e.cursor.y).take (e.cursor.x - (max_digits e.rows + 1)))

/-! ## Input state machine -/

/-- The macro `CTRL(x)` of `<sys/ttydefaults.h>`: `x & 037`. -/
def CTRL (c : Char) : Char := Char.ofNat (c.toNat &&& 31)

/-- The function `std::iscntrl` in the "C" locale: codes 0 to 31 and 127. -/
def iscntrl (c : Char) : Bool := decide (c.toNat < 32) || decide (c.toNat = 127)

/-- The constant `status_help`. -/
def status_help : List Char := "Ctrl-Q - Quit | Ctrl-S - Save".toList

/-- The warning `process_key` shows at the first quit request on a modified
document. -/
def quit_warning : List Char :=
  "Plase press Ctrl-Q one more time to quit without saving.".toList

/-- The prompt `process_key` shows when it enters the save-as mode. -/
def save_as_prompt : List Char := "Save as: ".toList

/-- The process-wide variables `process_key` works on: the editing core, the
status line, the file name, the `save_as` flag and the two function-local
statics `quit_times` and `rdbuf`.  The field `written` is the File Store seen
from the editor: the (name, content) pairs of the successful `save()` calls. -/
structure Session where
  ed : Editor
  status_message : List Char
  filename : List Char
  save_as : Bool
  quit_times : Nat
  rdbuf : List Char
  written : List (List Char × List Char)
deriving DecidableEq

/-- How `process_key` ends: it returns to the loop of `main`, or the process
leaves through `exit(EXIT_SUCCESS)`. -/
inductive Outcome where
  | running (s : Session)
  | exited (s : Session)
deriving DecidableEq

/-- The function `readone`, on the list of results the pending `read` calls will
give: `some c` is one byte read, `none` a read that returned no byte (the
variable `c` keeps its initial 0).  With no result pending the call blocks and
there is no continuation. -/
def readone : List (Option Char) → Option ((Char × Bool) × List (Option Char))
  | [] => none
  | some c :: rest => some ((c, true), rest)
  | none :: rest => some ((Char.ofNat 0, false), rest)

/-- The function `save`.  Opening and writing the file succeed or not as the
environment decides (`io_ok`); inserting an empty buffer with
`file << mem2buffer().rdbuf()` sets the fail bit. -/
def save (io_ok : Bool) (s : Session) : Session × Bool :=
  if s.filename = [] then (s, false)
  else if io_ok = false then (s, false)
  else if mem2buffer s.ed.rows = [] then (s, false)
  else
    ({ s with ed := { s.ed with modified := false },
              written := s.written ++ [(s.filename, mem2buffer s.ed.rows)] }, true)

/-- The first block of `process_key`: any byte other than Ctrl-Q re-arms an
exhausted quit counter and restores the help line. -/
def reset_quit (c : Char) (s : Session) : Session :=
  if s.quit_times = 0 ∧ c ≠ CTRL 'q' then
    { s with quit_times := 1, status_message := status_help }
  else s

/-- Where the escape decoder of `process_key` leaves: a `handle_ctrl` call
followed by `goto exit2refresh`, a bare `goto exit2refresh`, or the label
`jump`. -/
inductive Decoded where
  | ctrl (op : operation)
  | to_refresh
  | to_jump
deriving DecidableEq

/-- The `switch (ncs[1])` of the three-byte sequences `ESC [ letter`. -/
def decode_letter (c : Char) : Decoded :=
  if c = 'A' then .ctrl .up
  else if c = 'B' then .ctrl .down
  else if c = 'C' then .ctrl .right
  else if c = 'D' then .ctrl .left
  else if c = 'H' then .ctrl .home
  else if c = 'F' then .ctrl .end_
  else .to_jump

/-- The `switch (ncs[1])` of the four-byte sequences `ESC [ digit ~`. -/
def decode_digit (c : Char) : Decoded :=
  if c = '3' then .ctrl .del
  else if c = '5' then .ctrl .pg_up
  else if c = '6' then .ctrl .pg_down
  else if c = '1' ∨ c = '7' then .ctrl .home
  else if c = '4' ∨ c = '8' then .ctrl .end_
  else .to_jump

/-- The block `if (c == '\033') { ... }` of `process_key`, entered with the
escape byte already read. -/
def decode_escape (save_as : Bool) (input : List (Option Char)) :
    Option (Decoded × List (Option Char)) :=
  match readone input with
  | none => none
  | some ((ncs0, ok0), in1) =>
    if ok0 = false then some (.to_jump, in1)
    else
      match readone in1 with
      | none => none
      | some ((ncs1, ok1), in2) =>
        if ok1 = false then some (.to_jump, in2)
        else if ncs0 = '[' then
          if '0'.toNat ≤ ncs1.toNat ∧ ncs1.toNat ≤ '9'.toNat then
            match readone in2 with
            | none => none
            | some ((ncs2, ok2), in3) =>
              if ok2 = false then some (.to_jump, in3)
              else if save_as then some (.to_refresh, in3)
              else if ncs2 = '~' then some (decode_digit ncs1, in3)
              else some (.to_jump, in3)
          else if save_as then some (.to_refresh, in2)
          else some (decode_letter ncs1, in2)
        else some (.to_jump, in2)

/-- The block `if (save_as == true) { ... }` after the label `jump`.
`status_message.erase(status_message.length() - 1)` throws on an empty status
line. -/
def save_as_key (io_ok : Bool) (c : Char) (s : Session) : Option Session :=
  if c = CTRL 'q' then
    some { s with rdbuf := [], save_as := false, status_message := status_help }
  else
    let s2 :=
      if (c = '\r' ∨ c = '\n') ∧ s.rdbuf ≠ [] then
        (save io_ok { s with save_as := false, filename := s.rdbuf, rdbuf := [],
                             status_message := status_help }).1
      else s
    let s3? : Option Session :=
      if (c = CTRL 'h' ∨ c = Char.ofNat 127) ∧ s2.rdbuf ≠ [] then
        match str_erase_from s2.status_message (sz_sub s2.status_message.length 1) with
        | none => none
        | some st =>
          match str_erase_from s2.rdbuf (sz_sub s2.rdbuf.length 1) with
          | none => none
          | some rb => some { s2 with status_message := st, rdbuf := rb }
      else some s2
    match s3? with
    | none => none
    | some s3 =>
      if iscntrl c = false ∧ c ≠ Char.ofNat 0 then
        some { s3 with status_message := s3.status_message ++ [c], rdbuf := s3.rdbuf ++ [c] }
      else some s3

/-- The `switch (c)` of `process_key` in normal mode. -/
def normal_key (io_ok : Bool) (c : Char) (s : Session) : Option Outcome :=
  if c = CTRL 'q' then
    if s.ed.modified = true then
      if s.quit_times > 0 then
        some (.running { s with quit_times := sz_sub s.quit_times 1,
                                status_message := quit_warning })
      else some (.exited { s with quit_times := sz_sub s.quit_times 1 })
    else some (.exited s)
  else if c = CTRL 's' then
    if s.filename = [] then
      some (.running { s with status_message := save_as_prompt, save_as := true })
    else some (.running (save io_ok s).1)
  else if c = CTRL 'h' ∨ c = Char.ofNat 127 then
    (handle_ctrl .backspace s.ed).map (fun ed1 => .running { s with ed := ed1 })
  else if c = CTRL 'A' ∨ c = CTRL 'B' ∨ c = CTRL 'C' ∨ c = CTRL 'D' ∨ c = CTRL 'l'
      ∨ c = Char.ofNat 27 then
    some (.running s)
  else if c = '\r' ∨ c = '\n' then
    (append '\n' s.ed).map (fun ed1 => .running { s with ed := ed1 })
  else
    (append c s.ed).map (fun ed1 => .running { s with ed := ed1 })

/-- The function `process_key` up to the label `exit2refresh`: the result and
the read results not yet consumed. -/
def process_key_body (io_ok : Bool) (input : List (Option Char)) (s : Session) :
    Option (Outcome × List (Option Char)) :=
  match readone input with
  | none => none
  | some ((c, _), in1) =>
    let s1 := reset_quit c s
    let decoded? : Option (Decoded × List (Option Char)) :=
      if c = Char.ofNat 27 then decode_escape s1.save_as in1 else some (.to_jump, in1)
    match decoded? with
    | none => none
    | some (.ctrl op, in2) =>
      (handle_ctrl op s1.ed).map (fun ed1 => (.running { s1 with ed := ed1 }, in2))
    | some (.to_refresh, in2) => some (.running s1, in2)
    | some (.to_jump, in2) =>
      if s1.save_as then
        (save_as_key io_ok c s1).map (fun s2 => (.running s2, in2))
      else
        (normal_key io_ok c s1).map (fun out => (out, in2))

/-- The function `process_key`: the body, then `refresh()` unless the process
has left. -/
def process_key (io_ok : Bool) (input : List (Option Char)) (s : Session) :
    Option (Outcome × List (Option Char)) :=
  match process_key_body io_ok input s with
  | none => none
  | some (.exited s1, rest) => some (.exited s1, rest)
  | some (.running s1, rest) =>
    (refresh s1.ed).map (fun ed1 => (.running { s1 with ed := ed1 }, rest))

/-- A session in normal mode over the row `ab`, already modified, with the quit
counter exhausted by a first quit request. -/
def warned_session : Session :=
  { ed := editor_of [['a', 'b']] 5 1 true, status_message := quit_warning, filename := [],
    save_as := false, quit_times := 0, rdbuf := [], written := [] }

/-- A session in the save-as prompt over the row `ab`, with `n` typed so far. -/
def prompt_session : Session :=
  { ed := editor_of [['a', 'b']] 5 1 true, status_message := save_as_prompt ++ ['n'],
    filename := [], save_as := true, quit_times := 1, rdbuf := ['n'], written := [] }

/-! ## Theorems -/

/-! ### The line invariant (C1) -/

theorem getrline_nil : getrline [] = [] := by decide

theorem line_inv_set {rows : List row_t} (h : line_inv rows) (i : Nat) (s : List Char) :
    line_inv (rows.set i (s, getrline s)) := by
  intro row hrow
  rcases List.mem_or_eq_of_mem_set hrow with h1 | h1
  · exact h row h1
  · subst h1; rfl

theorem line_inv_emplace {rows rows1 : List row_t} (h : line_inv rows) (i : Nat) (s : List Char)
    (he : vec_emplace rows i (s, getrline s) = some rows1) : line_inv rows1 := by
  unfold vec_emplace at he
  split at he
  · simp only [Option.some.injEq] at he
    subst he
    intro row hrow
    simp only [List.mem_append, List.mem_cons] at hrow
    rcases hrow with h1 | h1 | h1
    · exact h row (List.mem_of_mem_take h1)
    · subst h1; rfl
    · exact h row (List.mem_of_mem_drop h1)
  · simp at he

theorem line_inv_deleter {rows : List row_t} (h : line_inv rows) (i : Nat) :
    line_inv (deleter rows i) := by
  unfold deleter
  split
  · exact h
  · intro row hrow
    exact h row ((List.eraseIdx_sublist rows i).subset hrow)

theorem line_inv_push {rows : List row_t} (h : line_inv rows) :
    line_inv (rows ++ [([], [])]) := by
  intro row hrow
  simp only [List.mem_append, List.mem_singleton] at hrow
  rcases hrow with h1 | h1
  · exact h row h1
  · subst h1; exact getrline_nil.symm

theorem emplace_set {rows rows1 : List row_t} {i : Nat} {v : row_t} (w : row_t)
    (he : vec_emplace rows i v = some rows1) :
    rows1.set i w = rows.take i ++ w :: rows.drop i := by
  unfold vec_emplace at he
  split at he
  · rename_i hle
    simp only [Option.some.injEq] at he
    subst he
    have hlen : (List.take i rows).length = i := by simp [List.length_take, hle]
    rw [List.set_append_right _ _ (by omega)]
    simp [hlen]
  · simp at he

theorem line_inv_insert_at {rows : List row_t} (h : line_inv rows) (i : Nat) (s : List Char) :
    line_inv (rows.take i ++ (s, getrline s) :: rows.drop i) := by
  intro row hrow
  simp only [List.mem_append, List.mem_cons] at hrow
  rcases hrow with h1 | h1 | h1
  · exact h row (List.mem_of_mem_take h1)
  · subst h1; rfl
  · exact h row (List.mem_of_mem_drop h1)

theorem insert_line_inv {e e1 : Editor} {idx pos : Nat} {c : Char}
    (h : line_inv e.rows) (he : insert e idx pos c = some e1) : line_inv e1.rows := by
  unfold insert at he
  split at he
  · simp at he
  · split at he
    · simp at he
    · simp only [Option.some.injEq] at he
      subst he
      exact line_inv_set h _ _

theorem append_str_line_inv {e e1 : Editor} {idx : Nat} {str : List Char}
    (h : line_inv e.rows) (he : append_str e idx str = some e1) : line_inv e1.rows := by
  unfold append_str at he
  split at he
  · simp at he
  · simp only [Option.some.injEq] at he
    subst he
    exact line_inv_set h _ _

theorem append_newline_rows_line_inv {e : Editor} {g : Nat} {rows1 : List row_t} {cap1 : Nat}
    (h : line_inv e.rows) (he : append_newline_rows e g = some (rows1, cap1)) :
    line_inv rows1 := by
  unfold append_newline_rows at he
  split at he
  · split at he
    · simp at he
    · rename_i rows2 hemp
      simp only [Option.some.injEq, Prod.mk.injEq] at he
      rw [← he.1]
      exact line_inv_emplace h _ [] (by rw [getrline_nil]; exact hemp)
  · split at he
    · simp at he
    · simp only [Option.some.injEq, Prod.mk.injEq] at he
      rw [← he.1]; exact h
    · split at he
      · simp at he
      · split at he
        · simp at he
        · split at he
          · simp at he
          · rename_i tail _ rows2 hemp
            split at he
            · split at he
              · simp at he
              · simp only [Option.some.injEq, Prod.mk.injEq] at he
                rw [← he.1]
                apply line_inv_set
                rw [emplace_set _ hemp]
                exact line_inv_insert_at h _ _
            · simp at he

theorem append_line_inv {e e1 : Editor} {c : Char}
    (h : line_inv e.rows) (he : append c e = some e1) : line_inv e1.rows := by
  unfold append at he
  simp only at he
  split at he
  · split at he
    · simp at he
    · rename_i rows1 cap1 hr
      simp only [Option.some.injEq] at he
      subst he
      exact append_newline_rows_line_inv h hr
  · split at he
    · simp at he
    · rename_i e2 hi
      simp only [Option.some.injEq] at he
      subst he
      have h2 : line_inv e2.rows := insert_line_inv h hi
      exact h2

theorem deletec_line_inv {e e1 : Editor}
    (h : line_inv e.rows) (he : deletec e = some e1) : line_inv e1.rows := by
  unfold deletec at he
  simp only at he
  split at he
  · simp only [Option.some.injEq] at he
    subst he; exact h
  · split at he
    · split at he
      · simp at he
      · split at he
        · simp at he
        · simp only [Option.some.injEq] at he
          subst he
          exact line_inv_set h _ _
    · split at he
      · simp at he
      · split at he
        · simp at he
        · split at he
          · simp at he
          · rename_i e2 ha
            simp only [Option.some.injEq] at he
            subst he
            exact line_inv_deleter (append_str_line_inv h ha) _

theorem clamp_x_rows (g : Nat) (e : Editor) : (clamp_x g e).rows = e.rows := by
  unfold clamp_x
  simp only
  split <;> rfl

theorem handle_switch_line_inv {op : operation} {g : Nat} {e e1 : Editor}
    (h : line_inv e.rows) (he : handle_switch op g e = some e1) : line_inv e1.rows := by
  unfold handle_switch at he
  cases op <;> simp only at he
  case backspace => exact deletec_line_inv h he
  all_goals
    repeat' split at he
    all_goals first
      | (simp only [Option.some.injEq] at he; subst he; exact h)
      | (simp at he)

theorem handle_ctrl_plain_line_inv {op : operation} {e e1 : Editor}
    (h : line_inv e.rows) (he : handle_ctrl_plain op e = some e1) : line_inv e1.rows := by
  unfold handle_ctrl_plain at he
  simp only [Option.map_eq_some'] at he
  obtain ⟨e2, h2, rfl⟩ := he
  rw [clamp_x_rows]
  exact handle_switch_line_inv h h2

theorem handle_ctrl_line_inv {op : operation} {e e1 : Editor}
    (h : line_inv e.rows) (he : handle_ctrl op e = some e1) : line_inv e1.rows := by
  unfold handle_ctrl at he
  cases op
  case del =>
    simp only at he
    split at he
    · simp at he
    · simp only [Option.some.injEq] at he
      subst he; rw [clamp_x_rows]; exact h
    · split at he
      · simp at he
      · rename_i e2 h2
        split at he
        · simp at he
        · rename_i e3 h3
          simp only [Option.some.injEq] at he
          subst he; rw [clamp_x_rows]
          exact deletec_line_inv (handle_ctrl_plain_line_inv h h2) h3
  all_goals exact handle_ctrl_plain_line_inv h he

theorem scroll_rows {e e1 : Editor} (he : scroll e = some e1) : e1.rows = e.rows := by
  unfold scroll at he
  simp only at he
  split at he
  · simp at he
  · simp only [Option.some.injEq] at he
    subst he; rfl

theorem drawscreenLoop_line_inv (top ro : Nat) :
    ∀ (iters i : Nat) (rows : List row_t) (cap : Nat) (m : Bool) (rows1 : List row_t)
      (cap1 : Nat) (m1 : Bool),
      line_inv rows → drawscreenLoop top ro iters i rows cap m = some (rows1, cap1, m1) →
      line_inv rows1 := by
  intro iters
  induction iters with
  | zero =>
    intro i rows cap m rows1 cap1 m1 h he
    simp only [drawscreenLoop, Option.some.injEq, Prod.mk.injEq] at he
    rw [← he.1]; exact h
  | succ n ih =>
    intro i rows cap m rows1 cap1 m1 h he
    simp only [drawscreenLoop] at he
    repeat' split at he
    all_goals first
      | (simp at he; done)
      | (simp only [Option.some.injEq, Prod.mk.injEq] at he; rw [← he.1]; exact h)
      | exact ih _ _ _ _ _ _ _ (line_inv_push h) he
      | exact ih _ _ _ _ _ _ _ h he

theorem drawscreen_line_inv {e e1 : Editor}
    (h : line_inv e.rows) (he : drawscreen e = some e1) : line_inv e1.rows := by
  unfold drawscreen at he
  simp only at he
  split at he
  · simp at he
  · rename_i rows1 cap1 m1 hl
    simp only [Option.some.injEq] at he
    subst he
    exact drawscreenLoop_line_inv _ _ _ _ _ _ _ _ _ _ h hl

theorem step_line_inv {s : Step} {e e1 : Editor}
    (h : line_inv e.rows) (he : step s e = some e1) : line_inv e1.rows := by
  cases s with
  | key c => exact append_line_inv h he
  | ctrl op => exact handle_ctrl_line_inv h he
  | scroll => rw [scroll_rows he]; exact h
  | drawscreen => exact drawscreen_line_inv h he

theorem run_line_inv : ∀ (steps : List Step) (e e1 : Editor),
    line_inv e.rows → run steps e = some e1 → line_inv e1.rows := by
  intro steps
  induction steps with
  | nil =>
    intro e e1 h he
    simp only [run, Option.some.injEq] at he
    subst he; exact h
  | cons s rest ih =>
    intro e e1 h he
    simp only [run] at he
    split at he
    · simp at he
    · rename_i e2 h2
      exact ih e2 e1 (step_line_inv h h2) he

theorem load_rows_line_inv (file : Option (List (List Char))) : line_inv (load_rows file) := by
  cases file with
  | none =>
    intro row hrow
    simp only [load_rows, List.mem_singleton] at hrow
    subst hrow; exact getrline_nil.symm
  | some lines =>
    intro row hrow
    simp only [load_rows, List.mem_map] at hrow
    obtain ⟨l, _, rfl⟩ := hrow
    rfl

/-- C1 (line invariant).  Start from the document `main` builds (the lines of a
file, or the single empty row) with any cursor, flags, offsets and terminal
size, and perform any sequence of `append(c)` (character or newline),
`handle_ctrl(op)` (backspace, forward delete and the cursor moves), `scroll()`
and `drawscreen()` (the lazy blank-row append).  In every state reached, each
row satisfies `rendered = getrline raw`. -/
theorem line_invariant_reachable (file : Option (List (List Char))) (e0 e1 : Editor)
    (steps : List Step) (hinit : e0.rows = load_rows file)
    (hrun : run steps e0 = some e1) : line_inv e1.rows :=
  run_line_inv steps e0 e1 (by rw [hinit]; exact load_rows_line_inv file) hrun

/-- Witness for C1: the demo session runs to `demo_final`, whose rows satisfy
the invariant. -/
theorem line_invariant_reachable_witness :
    run demo_steps demo_start = some demo_final ∧ line_inv demo_final.rows :=
  ⟨by decide,
   line_invariant_reachable (some [['a', '\t', 'b']]) demo_start demo_final demo_steps
     rfl (by decide)⟩

/-! ### Tab expansion (C2) -/

theorem land_mask_four (n : Nat) (hn : n < 2 ^ 64) :
    n &&& (2 ^ 64 - (3 + 1)) = 2 ^ 2 * (n / 2 ^ 2) := by
  apply Nat.eq_of_testBit_eq
  intro i
  rw [Nat.testBit_and, Nat.testBit_two_pow_sub_succ (by norm_num), Nat.testBit_mul_pow_two,
    ← Nat.shiftRight_eq_div_pow, Nat.testBit_shiftRight]
  have h3 : Nat.testBit 3 i = decide (i < 2) := by
    have := Nat.testBit_two_pow_sub_one 2 i
    simpa using this
  rw [h3]
  by_cases h2 : i < 2
  · simp [h2]
  · by_cases h64 : i < 64
    · have : 2 + (i - 2) = i := by omega
      simp [h2, h64, this]
      intro _; omega
    · have hlt : n < 2 ^ i := lt_of_lt_of_le hn (Nat.pow_le_pow_right (by norm_num) (by omega))
      have hf : Nat.testBit n i = false := Nat.testBit_lt_two_pow hlt
      simp [h64, hf]
      intro _
      have : 2 + (i - 2) = i := by omega
      rw [this]; exact hf

theorem round_down_four (n : Nat) (hn : n < size_mod) : round_down n tab_size = n - n % 4 := by
  have h1 : sz_not (sz_sub tab_size 1) = 2 ^ 64 - (3 + 1) := by decide
  unfold round_down
  rw [h1, land_mask_four n hn]
  omega

theorem sz_sub_of_le {a b : Nat} (h : b ≤ a) : sz_sub a b = a - b := by
  unfold sz_sub; rw [if_pos h]

theorem round_up_four (q : Nat) (hq : q + 4 < size_mod) :
    round_up q tab_size = (q + 3) - (q + 3) % 4 := by
  have hsm : size_mod = 2 ^ 64 := rfl
  unfold round_up
  have ha : sz_add q tab_size = q + 4 := by
    unfold sz_add tab_size
    exact Nat.mod_eq_of_lt hq
  rw [ha, sz_sub_of_le (by omega), round_down_four _ (by omega)]
  rfl

theorem numspaces_eq (p : Nat) (hp : p + 5 < size_mod) :
    sz_sub (round_up (if p = 0 ∨ p % tab_size = 0 then p + 1 else p) tab_size) p = 4 - p % 4 := by
  have hts : tab_size = 4 := rfl
  by_cases h : p = 0 ∨ p % tab_size = 0
  · rw [if_pos h, round_up_four _ (by omega)]
    have h0 : p % 4 = 0 := by
      rcases h with h | h
      · subst h; rfl
      · rw [hts] at h; exact h
    rw [sz_sub_of_le (by omega)]
    omega
  · rw [if_neg h, round_up_four _ (by omega)]
    have h0 : p % 4 ≠ 0 := by
      intro h0; apply h; right; rw [hts]; exact h0
    rw [sz_sub_of_le (by omega)]
    omega

theorem str_find_append (pre rest : List Char) (c : Char) :
    str_find (pre ++ rest) c pre.length = (find_first c rest).map (fun i => pre.length + i) := by
  unfold str_find
  rw [List.drop_left]

theorem getrlineLoop_skip (fuel : Nat) (pre : List Char) (c : Char) (t : List Char)
    (hc : c ≠ '\t') :
    getrlineLoop fuel (pre ++ c :: t) pre.length
      = getrlineLoop fuel ((pre ++ [c]) ++ t) (pre ++ [c]).length := by
  cases fuel with
  | zero => rfl
  | succ n =>
    have h1 : str_find (pre ++ c :: t) '\t' pre.length
        = str_find ((pre ++ [c]) ++ t) '\t' (pre ++ [c]).length := by
      rw [str_find_append, str_find_append]
      simp only [find_first, if_neg hc, Option.map_map, List.length_append, List.length_singleton]
      congr 1
      funext i
      simp only [Function.comp]
      omega
    have h2 : pre ++ c :: t = (pre ++ [c]) ++ t := by simp
    simp only [getrlineLoop]
    rw [h1, ← h2]

theorem no_tab_replicate (k : Nat) : '\t' ∉ List.replicate k ' ' := by
  intro h
  have := List.eq_of_mem_replicate h
  exact absurd this (by decide)

theorem getrlineLoop_eq : ∀ (rest pre : List Char) (fuel : Nat),
    rest.count '\t' < fuel → pre.length + 4 * rest.length + 1 < size_mod →
    getrlineLoop fuel (pre ++ rest) pre.length = some (pre ++ expand_tabs_from pre.length rest) := by
  intro rest
  induction rest with
  | nil =>
    intro pre fuel hf _
    cases fuel with
    | zero => omega
    | succ n =>
      simp only [getrlineLoop, List.append_nil, expand_tabs_from]
      have := str_find_append pre [] '\t'
      simp only [List.append_nil, find_first, Option.map_none'] at this
      rw [this]
  | cons c t ih =>
    intro pre fuel hf hb
    by_cases hc : c = '\t'
    · subst hc
      cases fuel with
      | zero => omega
      | succ n =>
        simp only [getrlineLoop]
        rw [str_find_append]
        simp only [find_first, if_true, Option.map_some', Nat.add_zero]
        simp only [List.length_cons] at hb
        rw [numspaces_eq _ (by omega)]
        have hrep : str_replace1 (pre ++ '\t' :: t) pre.length (4 - pre.length % 4) ' '
            = (pre ++ List.replicate (4 - pre.length % 4) ' ') ++ t := by
          have hd : List.drop (pre.length + 1) (pre ++ '\t' :: t) = t := by
            rw [List.drop_append]; rfl
          unfold str_replace1
          rw [List.take_left, hd]
        have hlen : pre.length + (4 - pre.length % 4)
            = (pre ++ List.replicate (4 - pre.length % 4) ' ').length := by simp
        rw [hrep, hlen, ih _ n]
        · simp [expand_tabs_from]
        · simp only [List.count_cons_self] at hf
          omega
        · simp only [List.length_append, List.length_replicate]
          omega
    · rw [getrlineLoop_skip fuel pre c t hc, ih _ fuel]
      · simp [expand_tabs_from, hc]
      · rw [List.count_cons_of_ne (Ne.symm hc)] at hf
        exact hf
      · simp only [List.length_append, List.length_cons, List.length_nil] at hb ⊢
        omega

theorem getrline_eq_expand (s : List Char) (hs : 4 * s.length < size_mod) :
    getrlineLoop (s.length + 1) s 0 = some (getrline s)
      ∧ getrline s = expand_tabs_from 0 s := by
  have hsm : size_mod = 18446744073709551616 := by decide
  have h := getrlineLoop_eq s [] (s.length + 1)
    (Nat.lt_succ_of_le (List.count_le_length _ _))
    (by simp only [List.length_nil]; omega)
  simp only [List.nil_append, List.length_nil] at h
  have h2 : getrline s = expand_tabs_from 0 s := by
    unfold getrline
    rw [h]; rfl
  exact ⟨by rw [h, h2], h2⟩

theorem expand_no_tab : ∀ (s : List Char) (p : Nat), '\t' ∉ expand_tabs_from p s := by
  intro s
  induction s with
  | nil => intro p; simp [expand_tabs_from]
  | cons c t ih =>
    intro p
    by_cases hc : c = '\t'
    · simp only [expand_tabs_from, if_pos hc, List.mem_append, not_or]
      exact ⟨no_tab_replicate _, ih _⟩
    · simp only [expand_tabs_from, if_neg hc, List.mem_cons, not_or]
      exact ⟨Ne.symm hc, ih _⟩

theorem expand_sublist : ∀ (s : List Char) (p : Nat),
    (s.filter (fun c => c != '\t')).Sublist (expand_tabs_from p s) := by
  intro s
  induction s with
  | nil => intro p; simp [expand_tabs_from]
  | cons c t ih =>
    intro p
    by_cases hc : c = '\t'
    · simp only [expand_tabs_from, if_pos hc]
      rw [List.filter_cons_of_neg (by simp [hc])]
      exact List.Sublist.trans (ih _) (List.sublist_append_right _ _)
    · simp only [expand_tabs_from, if_neg hc]
      rw [List.filter_cons_of_pos (by simp [hc])]
      exact List.Sublist.cons₂ _ (ih _)

theorem expand_cons_tab (p : Nat) (t : List Char) :
    expand_tabs_from p ('\t' :: t)
      = List.replicate (4 - p % 4) ' ' ++ expand_tabs_from (p + (4 - p % 4)) t := by
  simp [expand_tabs_from]

theorem expand_cons_other (p : Nat) (c : Char) (t : List Char) (hc : c ≠ '\t') :
    expand_tabs_from p (c :: t) = c :: expand_tabs_from (p + 1) t := by
  simp [expand_tabs_from, hc]

theorem expand_append : ∀ (a b : List Char) (p : Nat),
    expand_tabs_from p (a ++ b)
      = expand_tabs_from p a ++ expand_tabs_from (p + (expand_tabs_from p a).length) b := by
  intro a
  induction a with
  | nil => intro b p; simp [expand_tabs_from]
  | cons c t ih =>
    intro b p
    by_cases hc : c = '\t'
    · subst hc
      rw [List.cons_append, expand_cons_tab, expand_cons_tab, ih, List.append_assoc,
        List.length_append, List.length_replicate, Nat.add_assoc]
    · rw [List.cons_append, expand_cons_other _ _ _ hc, expand_cons_other _ _ _ hc, ih,
        List.length_cons, List.cons_append]
      have : p + 1 + (expand_tabs_from (p + 1) t).length
          = p + ((expand_tabs_from (p + 1) t).length + 1) := by omega
      rw [this]

theorem expand_mod : ∀ (s : List Char) (p q : Nat), p % 4 = q % 4 →
    expand_tabs_from p s = expand_tabs_from q s := by
  intro s
  induction s with
  | nil => intro p q _; rfl
  | cons c t ih =>
    intro p q h
    by_cases hc : c = '\t'
    · simp only [expand_tabs_from, if_pos hc, h]
      rw [ih (p + (4 - q % 4)) (q + (4 - q % 4)) (by omega)]
    · simp only [expand_tabs_from, if_neg hc]
      rw [ih (p + 1) (q + 1) (by omega)]

/-- C2 (tab expansion).  For every raw string `s` that a 64-bit `std::string`
can hold together with its expansion, the loop of `getrline` leaves by its own
exit test, and the result (1) is the specification-level expansion in which a
tab met after `p` output characters becomes `4 - p % 4` spaces, (2) contains no
tab, (3) keeps the non-tab characters of `s` in their order, and (4) at every
tab of `s`, with `a` the text before it and `b` the text after it, consists of
the expansion of `a`, then `4 - p % 4` spaces for `p` the length of that
expansion, a number between 1 and 4 that brings the output length to a multiple
of 4, then the expansion of `b`. -/
theorem getrline_expands_tabs (s : List Char) (hs : 4 * s.length < size_mod) :
    getrlineLoop (s.length + 1) s 0 = some (getrline s)
    ∧ getrline s = expand_tabs_from 0 s
    ∧ '\t' ∉ getrline s
    ∧ (s.filter (fun c => c != '\t')).Sublist (getrline s)
    ∧ ∀ a b : List Char, s = a ++ '\t' :: b →
        getrline s
            = getrline a ++ List.replicate (4 - (getrline a).length % 4) ' ' ++ getrline b
          ∧ 1 ≤ 4 - (getrline a).length % 4
          ∧ 4 - (getrline a).length % 4 ≤ 4
          ∧ ((getrline a).length + (4 - (getrline a).length % 4)) % 4 = 0 := by
  obtain ⟨h1, h2⟩ := getrline_eq_expand s hs
  refine ⟨h1, h2, ?_, ?_, ?_⟩
  · rw [h2]; exact expand_no_tab s 0
  · rw [h2]; exact expand_sublist s 0
  · intro a b hab
    have hlen : s.length = a.length + (b.length + 1) := by
      rw [hab]; simp
    have ha := (getrline_eq_expand a (by omega)).2
    have hb := (getrline_eq_expand b (by omega)).2
    refine ⟨?_, by omega, by omega, by omega⟩
    rw [h2, hab, expand_append, ha, hb]
    simp only [expand_tabs_from, if_true, Nat.zero_add, List.append_assoc]
    congr 2
    exact expand_mod b _ _ (by omega)

/-- Witness for C2: the string `ab<TAB>c`. -/
theorem getrline_expands_tabs_witness :
    4 * ['a', 'b', '\t', 'c'].length < size_mod
    ∧ getrline ['a', 'b', '\t', 'c'] = expand_tabs_from 0 ['a', 'b', '\t', 'c']
    ∧ getrline ['a', 'b', '\t', 'c'] = ['a', 'b', ' ', ' ', 'c'] :=
  ⟨by decide, (getrline_expands_tabs ['a', 'b', '\t', 'c'] (by decide)).2.1, by decide⟩

/-! ### Render column (C3) -/

theorem x2rLoop_eq (s : List Char) : ∀ (iters i ret : Nat), i + iters ≤ s.length →
    x2rLoop s iters i ret = some (walk_columns ret ((s.drop i).take iters)) := by
  intro iters
  induction iters with
  | zero => intro i ret _; simp [x2rLoop, walk_columns]
  | succ n ih =>
    intro i ret h
    have hi : i < s.length := by omega
    have hd : s.drop i = s[i] :: s.drop (i + 1) := List.drop_eq_getElem_cons hi
    simp only [x2rLoop, List.getElem?_eq_getElem hi]
    rw [ih (i + 1) _ (by omega), hd, List.take_succ_cons, walk_columns]
    congr 2
    unfold tab_size
    split <;> omega

/-- C3 (render column).  For a raw line `s`, the gutter width `g` of the
current row vector and a buffer column `x` with `g + 1 ≤ x ≤ |s| + g + 1`,
`x2r` returns `g + 1` plus the walk over the first `x - (g + 1)` characters of
`s` that starts at 0 and adds 1 per ordinary character and `4 - acc % 4` per
tab.  For `s = "ab\tc"` and `x = g + 1 + 3` the result is `g + 1 + 4`. -/
theorem x2r_walks_line (rows : List row_t) (s : List Char) (x : Nat)
    (hlo : max_digits rows + 1 ≤ x) (hhi : x ≤ s.length + max_digits rows + 1) :
    x2r rows s x
        = some (max_digits rows + 1 + walk_columns 0 (s.take (x - (max_digits rows + 1))))
    ∧ x2r rows ['a', 'b', '\t', 'c'] (max_digits rows + 1 + 3)
        = some (max_digits rows + 1 + 4) := by
  constructor
  · unfold x2r
    simp only
    rw [sz_sub_of_le hlo, x2rLoop_eq s _ 0 0 (by omega)]
    simp only [List.drop_zero, Option.map_some', Option.some.injEq]
    omega
  · unfold x2r
    simp only
    rw [sz_sub_of_le (by omega)]
    have h3 : max_digits rows + 1 + 3 - (max_digits rows + 1) = 3 := by omega
    rw [h3]
    simp [x2rLoop, tab_size]
    omega

/-- Witness for C3: the one-row document `ab<TAB>c` (gutter width 2), buffer
column 6, render column 7. -/
theorem x2r_walks_line_witness :
    max_digits [(['a', 'b', '\t', 'c'], ['a', 'b', ' ', ' ', 'c'])] + 1 ≤ 6
    ∧ x2r [(['a', 'b', '\t', 'c'], ['a', 'b', ' ', ' ', 'c'])] ['a', 'b', '\t', 'c'] 6 = some 7 :=
  ⟨by decide,
   (x2r_walks_line [(['a', 'b', '\t', 'c'], ['a', 'b', ' ', ' ', 'c'])] ['a', 'b', '\t', 'c'] 6
      (by decide) (by decide)).1.trans (by decide)⟩

/-! ### Newline and the Row Store (C4) -/

theorem set_take_append {α : Type} (rows : List α) (k : Nat) (hk : k < rows.length) (v : α)
    (tl : List α) : (rows.take (k + 1) ++ tl).set k v = rows.take k ++ v :: tl := by
  have hlen : (rows.take (k + 1)).length = k + 1 := by
    rw [List.length_take]; omega
  rw [List.set_append_left _ _ (by omega)]
  have h1 : rows.take (k + 1) = rows.take k ++ [rows[k]] := by
    rw [List.take_succ, List.getElem?_eq_getElem hk]; rfl
  have hlen2 : (rows.take k).length = k := by
    rw [List.length_take]; omega
  rw [h1, List.set_append_right _ _ (by omega), hlen2]
  simp

theorem cursor_on_row_get {e : Editor} (h : cursor_on_row e) :
    sz_sub e.cursor.y 1 = e.cursor.y - 1
    ∧ e.cursor.y - 1 < e.rows.length
    ∧ ∃ row, e.rows[e.cursor.y - 1]? = some row ∧ row.1 = raw_at e.rows e.cursor.y := by
  obtain ⟨h1, h2, _, _⟩ := h
  have hlt : e.cursor.y - 1 < e.rows.length := by omega
  refine ⟨sz_sub_of_le h1, hlt, e.rows[e.cursor.y - 1], List.getElem?_eq_getElem hlt, ?_⟩
  unfold raw_at
  rw [List.getElem?_eq_getElem hlt]
  rfl

theorem vec_grow_of_lt {size capacity : Nat} (h : size < capacity) :
    vec_grow size capacity = capacity := by
  unfold vec_grow
  rw [if_pos h]

theorem newline_rows_at_start (e : Editor) (h : cursor_on_row e)
    (hx : e.cursor.x = max_digits e.rows + 1) :
    append_newline_rows e (max_digits e.rows)
      = some (e.rows.take (e.cursor.y - 1) ++ ([], []) :: e.rows.drop (e.cursor.y - 1),
          vec_grow e.rows.length e.capacity) := by
  obtain ⟨hs, hlt, _⟩ := cursor_on_row_get h
  unfold append_newline_rows vec_emplace
  rw [if_pos hx, hs, if_pos (by omega)]

theorem newline_rows_at_end (e : Editor) (h : cursor_on_row e)
    (hx : e.cursor.x ≠ max_digits e.rows + 1) (hy : e.cursor.y = e.rows.length)
    (hend : e.cursor.x = (raw_at e.rows e.cursor.y).length + (max_digits e.rows + 1)) :
    append_newline_rows e (max_digits e.rows) = some (e.rows, e.capacity) := by
  obtain ⟨hs, hlt, row, hrow, hraw⟩ := cursor_on_row_get h
  unfold append_newline_rows at_buffer_end
  rw [if_neg hx, if_pos hy, hs, hrow]
  simp only [hraw, hend, decide_True]

theorem at_buffer_end_false (e : Editor) (h : cursor_on_row e)
    (hnot : ¬ (e.cursor.y = e.rows.length
      ∧ e.cursor.x = (raw_at e.rows e.cursor.y).length + (max_digits e.rows + 1))) :
    at_buffer_end e (max_digits e.rows) = some false := by
  obtain ⟨hs, hlt, row, hrow, hraw⟩ := cursor_on_row_get h
  unfold at_buffer_end
  by_cases hy : e.cursor.y = e.rows.length
  · rw [if_pos hy, hs, hrow]
    simp only [hraw, Option.some.injEq, decide_eq_false_iff_not]
    intro hc; exact hnot ⟨hy, hc⟩
  · rw [if_neg hy]

theorem newline_rows_split (e : Editor) (h : cursor_on_row e)
    (hx : e.cursor.x ≠ max_digits e.rows + 1)
    (hnot : ¬ (e.cursor.y = e.rows.length
      ∧ e.cursor.x = (raw_at e.rows e.cursor.y).length + (max_digits e.rows + 1)))
    (hroom : e.rows.length < e.capacity) :
    append_newline_rows e (max_digits e.rows)
      = some (e.rows.take (e.cursor.y - 1)
          ++ ((raw_at e.rows e.cursor.y).take (e.cursor.x - (max_digits e.rows + 1)),
              getrline ((raw_at e.rows e.cursor.y).take (e.cursor.x - (max_digits e.rows + 1))))
          :: ((raw_at e.rows e.cursor.y).drop (e.cursor.x - (max_digits e.rows + 1)),
              getrline ((raw_at e.rows e.cursor.y).drop (e.cursor.x - (max_digits e.rows + 1))))
          :: e.rows.drop e.cursor.y, e.capacity) := by
  have hab := at_buffer_end_false e h hnot
  obtain ⟨hs, hlt, row, hrow, hraw⟩ := cursor_on_row_get h
  obtain ⟨h1, h2, h3, h4⟩ := h
  have hpos : sz_sub e.cursor.x (max_digits e.rows + 1) = e.cursor.x - (max_digits e.rows + 1) :=
    sz_sub_of_le h3
  have hle : e.cursor.x - (max_digits e.rows + 1) ≤ row.1.length := by
    rw [hraw]; omega
  unfold append_newline_rows
  rw [if_neg hx, hab]
  simp only [hs, hrow, hpos, str_substr, str_erase_from, if_pos hle, vec_emplace, if_pos h2,
    if_pos hroom, vec_grow_of_lt hroom]
  rw [List.set_append_right _ _ (by rw [List.length_take]; omega)]
  have hlen : (List.take e.cursor.y e.rows).length = e.cursor.y := by
    rw [List.length_take]; omega
  simp only [hlen, Nat.sub_self, List.set_cons_zero]
  have hy : e.cursor.y = (e.cursor.y - 1) + 1 := by omega
  have := set_take_append e.rows (e.cursor.y - 1) hlt
    (List.take (e.cursor.x - (max_digits e.rows + 1)) row.1,
      getrline (List.take (e.cursor.x - (max_digits e.rows + 1)) row.1))
    ((List.drop (e.cursor.x - (max_digits e.rows + 1)) row.1,
      getrline (List.drop (e.cursor.x - (max_digits e.rows + 1)) row.1)) :: List.drop e.cursor.y e.rows)
  rw [← hy] at this
  rw [this, hraw]

theorem newline_rows_split_full (e : Editor) (h : cursor_on_row e)
    (hx : e.cursor.x ≠ max_digits e.rows + 1)
    (hnot : ¬ (e.cursor.y = e.rows.length
      ∧ e.cursor.x = (raw_at e.rows e.cursor.y).length + (max_digits e.rows + 1)))
    (hfull : e.capacity ≤ e.rows.length) :
    append_newline_rows e (max_digits e.rows) = none := by
  have hab := at_buffer_end_false e h hnot
  obtain ⟨hs, hlt, row, hrow, hraw⟩ := cursor_on_row_get h
  obtain ⟨h1, h2, h3, h4⟩ := h
  have hpos : sz_sub e.cursor.x (max_digits e.rows + 1) = e.cursor.x - (max_digits e.rows + 1) :=
    sz_sub_of_le h3
  have hle : e.cursor.x - (max_digits e.rows + 1) ≤ row.1.length := by
    rw [hraw]; omega
  unfold append_newline_rows
  rw [if_neg hx, hab]
  simp only [hs, hrow, hpos, str_substr, if_pos hle, vec_emplace, if_pos h2,
    if_neg (Nat.not_lt.mpr hfull)]

theorem append_newline_eq (e : Editor) :
    append '\n' e
      = (append_newline_rows e (max_digits e.rows)).map (fun p =>
          { e with rows := p.1, capacity := p.2,
                   cursor := { e.cursor with y := e.cursor.y + 1, x := max_digits e.rows + 1 } }) := by
  unfold append
  simp only [if_true]
  cases append_newline_rows e (max_digits e.rows) with
  | none => rfl
  | some p => cases p; rfl

/-- What `append('\n')` does to the rows.  For a valid cursor on a real row
`y`, with `b = gutter_width + 1`, and room for one more row in the storage
whenever the row has to be split, `append('\n')` returns, and: (1) when `x = b`
the new rows are the old ones with one empty row inserted before row `y`;
(2) when `x > b` and the cursor is on the last row right after its last
character the rows are unchanged; (3) otherwise row `y` is replaced by its
first `x - b` characters and a row holding the remaining characters is inserted
right after it, every other row unchanged, both rendered by `getrline`.  For
rows `["abc", "def"]` in storage for more than two rows and the cursor at row 1,
column `b + 3` the result is rows `["abc", "", "def"]` with the cursor at row 2,
column `b`. -/
theorem insert_newline_row_store (e : Editor) (h : cursor_on_row e)
    (hroom : max_digits e.rows + 1 < e.cursor.x →
      ¬ (e.cursor.y = e.rows.length
        ∧ e.cursor.x = (raw_at e.rows e.cursor.y).length + (max_digits e.rows + 1)) →
      e.rows.length < e.capacity) :
    (∃ e1, append '\n' e = some e1
      ∧ (e.cursor.x = max_digits e.rows + 1 →
          e1.rows = e.rows.take (e.cursor.y - 1) ++ ([], []) :: e.rows.drop (e.cursor.y - 1))
      ∧ (max_digits e.rows + 1 < e.cursor.x → e.cursor.y = e.rows.length →
          e.cursor.x = (raw_at e.rows e.cursor.y).length + (max_digits e.rows + 1) →
          e1.rows = e.rows)
      ∧ (max_digits e.rows + 1 < e.cursor.x →
          ¬ (e.cursor.y = e.rows.length
            ∧ e.cursor.x = (raw_at e.rows e.cursor.y).length + (max_digits e.rows + 1)) →
          e1.rows = e.rows.take (e.cursor.y - 1)
            ++ ((raw_at e.rows e.cursor.y).take (e.cursor.x - (max_digits e.rows + 1)),
                getrline ((raw_at e.rows e.cursor.y).take (e.cursor.x - (max_digits e.rows + 1))))
            :: ((raw_at e.rows e.cursor.y).drop (e.cursor.x - (max_digits e.rows + 1)),
                getrline ((raw_at e.rows e.cursor.y).drop (e.cursor.x - (max_digits e.rows + 1))))
            :: e.rows.drop e.cursor.y))
    ∧ ∀ (cap r : Nat) (m : Bool) (ro co w ht : Nat), 2 < cap →
        append '\n'
            { rows := [(['a', 'b', 'c'], ['a', 'b', 'c']), (['d', 'e', 'f'], ['d', 'e', 'f'])],
              capacity := cap,
              cursor := ⟨r, max_digits [(['a', 'b', 'c'], ['a', 'b', 'c']),
                (['d', 'e', 'f'], ['d', 'e', 'f'])] + 1 + 3, 1⟩,
              modified := m, row_offset := ro, col_offset := co, width := w, height := ht }
          = some
            { rows := [(['a', 'b', 'c'], ['a', 'b', 'c']), ([], []),
                (['d', 'e', 'f'], ['d', 'e', 'f'])],
              capacity := cap,
              cursor := ⟨r, max_digits [(['a', 'b', 'c'], ['a', 'b', 'c']), ([], []),
                (['d', 'e', 'f'], ['d', 'e', 'f'])] + 1, 2⟩,
              modified := m, row_offset := ro, col_offset := co, width := w, height := ht } := by
  constructor
  · rw [append_newline_eq]
    by_cases hx : e.cursor.x = max_digits e.rows + 1
    · rw [newline_rows_at_start e h hx]
      refine ⟨_, rfl, fun _ => rfl, fun hlt => ?_, fun hlt => ?_⟩ <;> omega
    · by_cases hend : e.cursor.y = e.rows.length
          ∧ e.cursor.x = (raw_at e.rows e.cursor.y).length + (max_digits e.rows + 1)
      · rw [newline_rows_at_end e h hx hend.1 hend.2]
        exact ⟨_, rfl, fun hc => absurd hc hx, fun _ _ _ => rfl, fun _ hn => absurd hend hn⟩
      · have hlt : max_digits e.rows + 1 < e.cursor.x := by
          have := h.2.2.1
          omega
        rw [newline_rows_split e h hx hend (hroom hlt hend)]
        exact ⟨_, rfl, fun hc => absurd hc hx, fun _ hy hc => absurd ⟨hy, hc⟩ hend,
          fun _ _ => rfl⟩
  · intro cap r m ro co w ht hcap
    have hg2 : max_digits [(['a', 'b', 'c'], ['a', 'b', 'c']), (['d', 'e', 'f'], ['d', 'e', 'f'])]
        = 2 := by decide
    have hg3 : max_digits [(['a', 'b', 'c'], ['a', 'b', 'c']), ([], []),
        (['d', 'e', 'f'], ['d', 'e', 'f'])] = 2 := by decide
    have hr : getrline ['a', 'b', 'c'] = ['a', 'b', 'c'] := by decide
    rw [append_newline_eq, hg3]
    simp only [hg2]
    simp [append_newline_rows, at_buffer_end, sz_sub, str_substr, str_erase_from, vec_emplace,
      hr, getrline_nil, hcap, vec_grow]

/-- The document `["abc", "def"]` in storage for four rows, with the cursor in
the middle of row 1, is split into `["a", "bc", "def"]`. -/
theorem insert_newline_row_store_witness :
    cursor_on_row { (editor_of [['a', 'b', 'c'], ['d', 'e', 'f']] 4 1 false) with capacity := 4 }
    ∧ ∃ e1, append '\n'
          { (editor_of [['a', 'b', 'c'], ['d', 'e', 'f']] 4 1 false) with capacity := 4 } = some e1
        ∧ e1.rows = [(['a'], ['a']), (['b', 'c'], ['b', 'c']), (['d', 'e', 'f'], ['d', 'e', 'f'])] := by
  refine ⟨by decide, ?_⟩
  obtain ⟨e1, h1, _, _, h4⟩ :=
    (insert_newline_row_store
      { (editor_of [['a', 'b', 'c'], ['d', 'e', 'f']] 4 1 false) with capacity := 4 }
      (by decide) (fun _ _ => by decide)).1
  refine ⟨e1, h1, ?_⟩
  rw [h4 (by decide) (by decide)]
  decide

/-- On a full vector the split branch of `append('\n')` has no defined result:
for every valid cursor on a real row that is neither at the start of its line
nor at the end of the buffer, if `rows.size() == rows.capacity()` then
`rows.emplace` reallocates, the reference `row` dangles and `append('\n')`
returns no state. -/
theorem newline_split_on_full_vector (e : Editor) (h : cursor_on_row e)
    (hx : e.cursor.x ≠ max_digits e.rows + 1)
    (hnot : ¬ (e.cursor.y = e.rows.length
      ∧ e.cursor.x = (raw_at e.rows e.cursor.y).length + (max_digits e.rows + 1)))
    (hfull : e.capacity ≤ e.rows.length) :
    append '\n' e = none := by
  rw [append_newline_eq, newline_rows_split_full e h hx hnot hfull]
  rfl

/-- C4, the code at the failing input.  The claim's own example: the rows
`["abc", "def"]` as `main` loads them from a two-line file, cursor at row 1,
column `b + 3 = 6`.  (1) The cursor is valid and on a real row.  (2) Two calls
of `emplace_back` leave the vector full: size 2, capacity 2.  (3) `append('\n')`
takes the split branch; `rows.emplace` reallocates the storage, the reference
`row` bound before it dangles, and `row.first.erase` through it has no defined
result.  (4) The same rows in storage for four rows give what the claim says:
rows `["abc", "", "def"]`, cursor at row 2, column `b = 3`.  (5) A session
started without a file holds one row in storage for one: typing `ab`, moving
left and pressing Enter (a redraw after each key) reaches the same undefined
split, from the state with row `"ab"`, cursor column 4, capacity 1.  (6) The
capacity after 0, 1, ..., 8 calls of `emplace_back`. -/
theorem newline_split_dangling_reference :
    cursor_on_row (editor_of [['a', 'b', 'c'], ['d', 'e', 'f']] 6 1 false)
    ∧ ((editor_of [['a', 'b', 'c'], ['d', 'e', 'f']] 6 1 false).rows.length,
        (editor_of [['a', 'b', 'c'], ['d', 'e', 'f']] 6 1 false).capacity) = (2, 2)
    ∧ append '\n' (editor_of [['a', 'b', 'c'], ['d', 'e', 'f']] 6 1 false) = none
    ∧ (append '\n'
          { (editor_of [['a', 'b', 'c'], ['d', 'e', 'f']] 6 1 false) with capacity := 4 }).map
        (fun e1 => (e1.rows.map Prod.fst, e1.cursor.y, e1.cursor.x, e1.capacity))
      = some ([['a', 'b', 'c'], [], ['d', 'e', 'f']], 2, 3, 4)
    ∧ (run [.key 'a', .scroll, .drawscreen, .key 'b', .scroll, .drawscreen,
            .ctrl .left, .scroll, .drawscreen] fresh_start).map
        (fun e1 => (e1.rows.map Prod.fst, e1.cursor.x, e1.cursor.y, e1.capacity))
      = some ([['a', 'b']], 4, 1, 1)
    ∧ run [.key 'a', .scroll, .drawscreen, .key 'b', .scroll, .drawscreen,
           .ctrl .left, .scroll, .drawscreen, .key '\n'] fresh_start = none
    ∧ (List.range 9).map load_capacity = [0, 1, 2, 4, 4, 8, 8, 8, 8] := by
  refine ⟨by decide, by decide, by decide, by decide, by decide, by decide, by decide⟩

/-! ### Newline: cursor and modified flag (C5, C6, C7) -/

theorem newline_rows_some (e : Editor) (h : cursor_on_row e)
    (hroom : e.cursor.x ≠ max_digits e.rows + 1 →
      ¬ (e.cursor.y = e.rows.length
        ∧ e.cursor.x = (raw_at e.rows e.cursor.y).length + (max_digits e.rows + 1)) →
      e.rows.length < e.capacity) :
    ∃ p, append_newline_rows e (max_digits e.rows) = some p := by
  by_cases hx : e.cursor.x = max_digits e.rows + 1
  · exact ⟨_, newline_rows_at_start e h hx⟩
  · by_cases hend : e.cursor.y = e.rows.length
        ∧ e.cursor.x = (raw_at e.rows e.cursor.y).length + (max_digits e.rows + 1)
    · exact ⟨_, newline_rows_at_end e h hx hend.1 hend.2⟩
    · exact ⟨_, newline_rows_split e h hx hend (hroom hx hend)⟩

/-- After `append('\n')` from a valid cursor on a real row (with room in the
storage when the row has to be split) the cursor row is the old row plus one
and the column is the gutter boundary of the row count the call started with;
`modified` keeps its value. -/
theorem insert_newline_cursor (e : Editor) (h : cursor_on_row e)
    (hroom : e.cursor.x ≠ max_digits e.rows + 1 →
      ¬ (e.cursor.y = e.rows.length
        ∧ e.cursor.x = (raw_at e.rows e.cursor.y).length + (max_digits e.rows + 1)) →
      e.rows.length < e.capacity) :
    ∃ e1, append '\n' e = some e1
      ∧ e1.cursor.y = e.cursor.y + 1
      ∧ e1.cursor.x = max_digits e.rows + 1
      ∧ e1.modified = e.modified := by
  obtain ⟨p, hr⟩ := newline_rows_some e h hroom
  rw [append_newline_eq, hr]
  exact ⟨_, rfl, rfl, rfl, rfl⟩

/-- Whenever `append('\n')` returns, `modified` has the value it had before, the
column is `mdigits + 1` for the `mdigits` read on entry, and the row is the old
row plus one. -/
theorem append_newline_modified (e e1 : Editor) (h : append '\n' e = some e1) :
    e1.modified = e.modified ∧ e1.cursor.x = max_digits e.rows + 1
      ∧ e1.cursor.y = e.cursor.y + 1 := by
  rw [append_newline_eq] at h
  cases hr : append_newline_rows e (max_digits e.rows) with
  | none => rw [hr] at h; simp at h
  | some rows1 =>
    rw [hr] at h
    simp only [Option.map_some', Option.some.injEq] at h
    subst h
    exact ⟨rfl, rfl, rfl⟩

/-- C5, the code at the failing input.  On a document of 99 empty rows with the
cursor at row 1, column 3 (a valid cursor: the gutter width is 2), `append('\n')`
produces 100 rows and moves the cursor to row 2, but leaves it at column 3, the
boundary of the old gutter width; the gutter boundary of the 100-row document
is 4.  The next `scroll()` then subtracts 4 from 3 in `x2r` and runs `at` off
the end of the line. -/
theorem newline_99_to_100_keeps_old_boundary :
    cursor_on_row (editor_of (List.replicate 99 []) 3 1 false)
    ∧ (append '\n' (editor_of (List.replicate 99 []) 3 1 false)).map
        (fun e1 => (e1.rows.length, e1.cursor.y, e1.cursor.x, max_digits e1.rows + 1))
      = some (100, 2, 3, 4)
    ∧ (append '\n' (editor_of (List.replicate 99 []) 3 1 false)).bind scroll = none := by
  decide

/-- C6, the code at the failing input.  On the unmodified document `["abc"]`
each of the three newline cases returns with `modified` still false: at column
3 a blank row is inserted above, at column 4 the row is split (here with
storage for two rows, so that the split is defined), at column 6 the cursor
only advances to the virtual row. -/
theorem newline_leaves_modified_false :
    (append '\n' (editor_of [['a', 'b', 'c']] 3 1 false)).map
        (fun e1 => (e1.rows.map Prod.fst, e1.cursor.y, e1.modified))
      = some ([[], ['a', 'b', 'c']], 2, false)
    ∧ (append '\n' { (editor_of [['a', 'b', 'c']] 4 1 false) with capacity := 2 }).map
        (fun e1 => (e1.rows.map Prod.fst, e1.cursor.y, e1.modified))
      = some ([['a'], ['b', 'c']], 2, false)
    ∧ (append '\n' (editor_of [['a', 'b', 'c']] 6 1 false)).map
        (fun e1 => (e1.rows.map Prod.fst, e1.cursor.y, e1.modified))
      = some ([['a', 'b', 'c']], 2, false) := by
  decide

/-- C7 refuted as stated.  On rows `[""]` with the cursor at row 1, column
`gutter + 1 = 3`, `append('\n')` moves the cursor to row 2 and the row count
afterwards is 2, not 1. -/
theorem newline_on_empty_document_adds_row :
    (append '\n' (editor_of [[]] 3 1 false)).map (fun e1 => (e1.cursor.y, e1.rows.length))
      = some (2, 2)
    ∧ (append '\n' (editor_of [[]] 3 1 false)).map (fun e1 => (e1.cursor.y, e1.rows.length))
      ≠ some (2, 1) := by
  decide

/-- C7 as amended.  On rows `[""]` with the cursor at row 1, column
`gutter + 1`, `append('\n')` takes the start-of-line case: an empty row is
inserted before the current one, so the rows are `["", ""]`, the row count is 2
and the cursor is at row 2, column `gutter + 1`.  The cursor moves to row 2
without a new row only from the end of a non-empty single line: for every
non-empty `s`, rows `[s]` and the cursor right after the last character, the
rows are unchanged, the row count stays 1 and the cursor is at row 2, column
`gutter + 1`. -/
theorem newline_on_one_line_document :
    (∀ (r cap : Nat) (m : Bool) (ro co w ht : Nat),
      append '\n'
          { rows := [([], [])], capacity := cap,
            cursor := ⟨r, max_digits [([], [])] + 1, 1⟩,
            modified := m, row_offset := ro, col_offset := co, width := w, height := ht }
        = some
          { rows := [([], []), ([], [])], capacity := vec_grow 1 cap,
            cursor := ⟨r, max_digits [([], []), ([], [])] + 1, 2⟩,
            modified := m, row_offset := ro, col_offset := co, width := w, height := ht })
    ∧ (∀ (s : List Char) (r cap : Nat) (m : Bool) (ro co w ht : Nat), s ≠ [] →
      append '\n'
          { rows := [(s, getrline s)], capacity := cap,
            cursor := ⟨r, s.length + (max_digits [(s, getrline s)] + 1), 1⟩,
            modified := m, row_offset := ro, col_offset := co, width := w, height := ht }
        = some
          { rows := [(s, getrline s)], capacity := cap,
            cursor := ⟨r, max_digits [(s, getrline s)] + 1, 2⟩,
            modified := m, row_offset := ro, col_offset := co, width := w, height := ht }) := by
  constructor
  · intro r cap m ro co w ht
    have hg1 : max_digits [([], [])] = 2 := by decide
    have hg2 : max_digits [([], []), ([], [])] = 2 := by decide
    rw [append_newline_eq, hg2]
    simp only [hg1]
    simp [append_newline_rows, sz_sub, vec_emplace]
  · intro s r cap m ro co w ht hs
    have hlen : 0 < s.length := List.length_pos.mpr hs
    rw [append_newline_eq]
    simp only
    rw [newline_rows_at_end]
    · rfl
    · refine ⟨le_refl _, le_refl _, ?_, ?_⟩
      · simp only; omega
      · simp only [raw_at]
        simp
        omega
    · simp only; omega
    · rfl
    · simp [raw_at]

/-- Witness for the amended C7: the one-line document `["x"]`. -/
theorem newline_on_one_line_document_witness :
    ['x'] ≠ ([] : List Char)
    ∧ append '\n' (editor_of [['x']] 4 1 false)
        = some { (editor_of [['x']] 4 1 false) with cursor := ⟨0, 3, 2⟩ } :=
  ⟨by decide, newline_on_one_line_document.2 ['x'] 0 1 false 0 0 80 24 (by decide)⟩

/-! ### Backspace (C8, C9) -/

/-- C8, the code at the failing input.  On 100 rows `"a"` with the cursor at
row 2, column 4 (the start of row 2: the gutter width is 3), `deletec` merges
row 2 into row 1 and leaves 99 rows, whose gutter width is 2.  The cursor ends
on row 1 at column 5, which is `|old row 1| + 3 + 1` for the gutter width of
the document before the merge; the end of old row 1 in the resulting document
is column `1 + 2 + 1 = 4`.  When the merged row is empty (rows `"a"`, then 99
empty rows) column 5 lies past the end of the merged text and the next
`scroll()` runs `at` off the end of the line. -/
theorem backspace_100_to_99_keeps_old_gutter :
    cursor_on_row (editor_of (List.replicate 100 ['a']) 4 2 false)
    ∧ (deletec (editor_of (List.replicate 100 ['a']) 4 2 false)).map
        (fun e1 => (e1.rows.length, e1.cursor.y, e1.cursor.x, e1.modified))
      = some (99, 1, 5, true)
    ∧ (deletec (editor_of (List.replicate 100 ['a']) 4 2 false)).map
        (fun e1 => (raw_at e1.rows 1, ['a'].length + max_digits e1.rows + 1))
      = some (['a', 'a'], 4)
    ∧ cursor_on_row (editor_of (['a'] :: List.replicate 99 []) 4 2 false)
    ∧ (deletec (editor_of (['a'] :: List.replicate 99 []) 4 2 false)).map
        (fun e1 => (e1.rows.length, e1.cursor.y, e1.cursor.x, raw_at e1.rows 1))
      = some (99, 1, 5, ['a'])
    ∧ (deletec (editor_of (['a'] :: List.replicate 99 []) 4 2 false)).bind scroll = none := by
  refine ⟨by decide, by decide, by decide, by decide, by decide, by decide⟩

theorem clamp_x_id (g : Nat) (e : Editor)
    (h : e.cursor.x ≤ ((update_row e).getD []).length + g + 1) : clamp_x g e = e := by
  unfold clamp_x
  simp only
  rw [if_neg (by omega)]

/-- C9 (backspace at its boundaries).  When the cursor is at row 1, column
`gutter + 1`, or on the virtual row `row_count + 1`, `deletec` returns the state
as it is and `handle_ctrl(backspace)` returns with the Row Store, the cursor
row and the modified flag unchanged; the column is unchanged as well whenever
it lies in the cursor range `x ≤ line_length(row) + gutter + 1` (on the virtual
row: `x ≤ gutter + 1`), which the first case always does. -/
theorem backspace_boundary_noop (e : Editor)
    (h : (e.cursor.y = 1 ∧ e.cursor.x = max_digits e.rows + 1)
      ∨ e.cursor.y = e.rows.length + 1) :
    deletec e = some e
    ∧ (∃ e1, handle_ctrl .backspace e = some e1
        ∧ e1.rows = e.rows ∧ e1.cursor.y = e.cursor.y ∧ e1.modified = e.modified
        ∧ e1.cursor.r = e.cursor.r)
    ∧ (e.cursor.x ≤ (raw_at e.rows e.cursor.y).length + max_digits e.rows + 1 →
        handle_ctrl .backspace e = some e) := by
  have hd : deletec e = some e := by
    unfold deletec
    simp only
    rw [if_pos]
    rcases h with h | h
    · exact Or.inr ⟨h.2, h.1⟩
    · left; rw [h, sz_sub_of_le (by omega)]; omega
  have hc : handle_ctrl .backspace e = some (clamp_x (max_digits e.rows) e) := by
    simp only [handle_ctrl, handle_ctrl_plain, handle_switch, hd, Option.map_some']
  refine ⟨hd, ⟨_, hc, clamp_x_rows _ _, ?_, ?_, ?_⟩, ?_⟩
  · unfold clamp_x; simp only; split <;> rfl
  · unfold clamp_x; simp only; split <;> rfl
  · unfold clamp_x; simp only; split <;> rfl
  · intro hx
    rw [hc, clamp_x_id]
    rcases h with h | h
    · omega
    · have hu : update_row e = none := by
        unfold update_row
        rw [h, sz_sub_of_le (by omega), if_neg (by omega)]
      have hr : raw_at e.rows e.cursor.y = [] := by
        unfold raw_at
        rw [h, Nat.add_sub_cancel, List.getElem?_eq_none (le_refl _)]
        rfl
      rw [hu]
      rw [hr] at hx
      exact hx

/-- Witness for C9: the top-left corner of `["ab", "c"]`, and the virtual row
below it. -/
theorem backspace_boundary_noop_witness :
    handle_ctrl .backspace (editor_of [['a', 'b'], ['c']] 3 1 false)
      = some (editor_of [['a', 'b'], ['c']] 3 1 false)
    ∧ handle_ctrl .backspace (editor_of [['a', 'b'], ['c']] 3 3 true)
      = some (editor_of [['a', 'b'], ['c']] 3 3 true) :=
  ⟨(backspace_boundary_noop (editor_of [['a', 'b'], ['c']] 3 1 false)
      (Or.inl (by decide))).2.2 (by decide),
   (backspace_boundary_noop (editor_of [['a', 'b'], ['c']] 3 3 true)
      (Or.inr (by decide))).2.2 (by decide)⟩

/-! ### Forward delete (C10) -/

/-- C10, the code at the failing input.  (1) On rows `["a\0"]` (typed as `a`,
Ctrl-@) with the cursor right after the last character of the last row (row 1,
column 5), `handle_ctrl(del)` is not a no-op: `update_row` measures the row
through `c_str()`, so the guard sees length 1, the inner
`handle_ctrl(right)` pulls the cursor back to column 4 and `deletec` removes
the `a`.  (2) On rows `["ab", "c\0d"]` with the cursor at the end of row 1,
`handle_ctrl(del)` removes the line break but appends only `c`: the text `\0d`
of the next row is lost. -/
theorem forward_delete_nul_rows :
    cursor_on_row (editor_of [['a', Char.ofNat 0]] 5 1 false)
    ∧ (editor_of [['a', Char.ofNat 0]] 5 1 false).cursor.y
        = (editor_of [['a', Char.ofNat 0]] 5 1 false).rows.length
    ∧ (editor_of [['a', Char.ofNat 0]] 5 1 false).cursor.x
        = ['a', Char.ofNat 0].length + max_digits (editor_of [['a', Char.ofNat 0]] 5 1 false).rows + 1
    ∧ (handle_ctrl .del (editor_of [['a', Char.ofNat 0]] 5 1 false)).map
        (fun e1 => (e1.rows.map Prod.fst, e1.cursor.x, e1.cursor.y, e1.modified))
      = some ([[Char.ofNat 0]], 3, 1, true)
    ∧ cursor_on_row (editor_of [['a', 'b'], ['c', Char.ofNat 0, 'd']] 5 1 false)
    ∧ (handle_ctrl .del (editor_of [['a', 'b'], ['c', Char.ofNat 0, 'd']] 5 1 false)).map
        (fun e1 => (e1.rows.map Prod.fst, e1.cursor.x, e1.cursor.y))
      = some ([['a', 'b', 'c']], 5, 1) := by
  refine ⟨by decide, by decide, by decide, by decide, by decide, by decide⟩

/-! ### What `deletec` and forward delete do on valid cursors -/

/-- Backspace inside a row: for a valid cursor on a real row with
`x > gutter + 1`, `deletec` removes exactly the character at index
`x - (gutter + 1) - 1` of that row, decrements the column, leaves the other rows
alone and sets `modified`. -/
theorem deletec_removes_char (e : Editor) (h : cursor_on_row e)
    (hx : max_digits e.rows + 1 < e.cursor.x) :
    deletec e = some
      { e with
        rows := e.rows.set (e.cursor.y - 1)
          ((raw_at e.rows e.cursor.y).take (e.cursor.x - 1 - (max_digits e.rows + 1))
              ++ (raw_at e.rows e.cursor.y).drop (e.cursor.x - 1 - (max_digits e.rows + 1) + 1),
           getrline
            ((raw_at e.rows e.cursor.y).take (e.cursor.x - 1 - (max_digits e.rows + 1))
              ++ (raw_at e.rows e.cursor.y).drop (e.cursor.x - 1 - (max_digits e.rows + 1) + 1))),
        cursor := { e.cursor with x := e.cursor.x - 1 },
        modified := true } := by
  obtain ⟨hs, hlt, row, hrow, hraw⟩ := cursor_on_row_get h
  obtain ⟨h1, h2, h3, h4⟩ := h
  unfold deletec
  simp only
  rw [if_neg (by rw [hs]; omega), if_pos hx, hs, hrow]
  simp only [sz_sub_of_le (show 1 ≤ e.cursor.x by omega),
    sz_sub_of_le (show max_digits e.rows + 1 ≤ e.cursor.x - 1 by omega), str_erase1]
  rw [if_pos (by rw [hraw]; omega), hraw]

/-- Backspace at the start of a row `y > 1`: `deletec` replaces row `y - 1` by
its text followed by the text of row `y` as seen through `c_str()`, removes row
`y`, sets `modified`, and puts the cursor on row `y - 1` at column
`|old row y - 1| + mdigits + 1` for the `mdigits` read before the row was
removed. -/
theorem deletec_merges_rows (e : Editor) (h : cursor_on_row e)
    (hx : e.cursor.x = max_digits e.rows + 1) (hy : 1 < e.cursor.y) :
    deletec e = some
      { e with
        rows := (e.rows.set (e.cursor.y - 2)
          (raw_at e.rows (e.cursor.y - 1) ++ c_str (raw_at e.rows e.cursor.y),
           getrline (raw_at e.rows (e.cursor.y - 1) ++ c_str (raw_at e.rows e.cursor.y)))).eraseIdx
            (e.cursor.y - 1),
        cursor := { e.cursor with
          x := (raw_at e.rows (e.cursor.y - 1)).length + max_digits e.rows + 1,
          y := e.cursor.y - 1 },
        modified := true } := by
  obtain ⟨hs, hlt, row, hrow, hraw⟩ := cursor_on_row_get h
  obtain ⟨h1, h2, h3, h4⟩ := h
  have hlt2 : e.cursor.y - 2 < e.rows.length := by omega
  have hprev : e.rows[e.cursor.y - 2]? = some e.rows[e.cursor.y - 2] :=
    List.getElem?_eq_getElem hlt2
  have hpraw : raw_at e.rows (e.cursor.y - 1) = (e.rows[e.cursor.y - 2]).1 := by
    unfold raw_at
    have : e.cursor.y - 1 - 1 = e.cursor.y - 2 := by omega
    rw [this, hprev]; rfl
  unfold deletec
  simp only
  rw [if_neg (by rw [hs]; omega), if_neg (by omega), hs,
    sz_sub_of_le (show 2 ≤ e.cursor.y by omega), hprev, hrow]
  simp only [append_str, hprev, deleter, List.length_set]
  rw [if_neg (by omega), hraw, hpraw]

theorem c_str_nul_free (s : List Char) (h : Char.ofNat 0 ∉ s) : c_str s = s := by
  unfold c_str
  rw [List.takeWhile_eq_self_iff]
  intro c hc
  simp only [bne_iff_ne, ne_eq]
  intro h0
  exact h (h0 ▸ hc)

theorem update_row_on_row (e : Editor) (h : cursor_on_row e) (hn : nul_free e.rows) :
    update_row e = some (raw_at e.rows e.cursor.y) := by
  obtain ⟨hs, hlt, row, hrow, hraw⟩ := cursor_on_row_get h
  unfold update_row
  rw [hs, if_pos hlt, hrow, Option.map_some', ← hraw,
    c_str_nul_free _ (hn row (List.getElem?_mem hrow))]

theorem right_within_row (e : Editor) (h : cursor_on_row e) (hn : nul_free e.rows)
    (hx : e.cursor.x < (raw_at e.rows e.cursor.y).length + max_digits e.rows + 1) :
    handle_ctrl_plain .right e
      = some { e with cursor := { e.cursor with x := e.cursor.x + 1 } } := by
  have hu := update_row_on_row e h hn
  unfold handle_ctrl_plain handle_switch
  simp only [hu, if_pos hx, Option.map_some']
  rw [clamp_x_id]
  have hu2 : update_row { e with cursor := { e.cursor with x := e.cursor.x + 1 } }
      = update_row e := rfl
  rw [hu2, hu]
  simp only [Option.getD_some]
  omega

theorem right_to_next_row (e : Editor) (h : cursor_on_row e) (hn : nul_free e.rows)
    (hx : e.cursor.x = (raw_at e.rows e.cursor.y).length + max_digits e.rows + 1)
    (hy : e.cursor.y < e.rows.length) :
    handle_ctrl_plain .right e
      = some { e with cursor :=
          { e.cursor with y := e.cursor.y + 1, x := max_digits e.rows + 1 } } := by
  have hu := update_row_on_row e h hn
  have hle : is_last_empty e (raw_at e.rows e.cursor.y) = false := by
    unfold is_last_empty
    rw [decide_eq_false (by omega)]
    rfl
  unfold handle_ctrl_plain handle_switch
  simp only [hu, if_neg (show ¬ e.cursor.x
      < (raw_at e.rows e.cursor.y).length + max_digits e.rows + 1 by omega), hle,
    Option.map_some']
  rw [if_pos ⟨hx, by simp⟩, Option.map_some', clamp_x_id]
  simp only
  omega

theorem del_guard_on_row (e : Editor) (h : cursor_on_row e) (hn : nul_free e.rows) :
    del_guard e (max_digits e.rows)
      = some (decide (¬ (e.cursor.y = e.rows.length
          ∧ e.cursor.x = (raw_at e.rows e.cursor.y).length + max_digits e.rows + 1))) := by
  unfold del_guard
  by_cases hy : e.cursor.y = e.rows.length
  · rw [if_neg (by simpa using hy), update_row_on_row e h hn]
    simp only [hy, true_and, Option.some.injEq, decide_eq_decide]
    constructor <;> intro hh <;> omega
  · rw [if_pos hy]
    simp [hy]

theorem update_row_set (e : Editor) (rows1 : List row_t) (c : Cursor) (m : Bool) (s : List Char)
    (h0 : Char.ofNat 0 ∉ s) (hy : 1 ≤ c.y) (hrow : rows1[c.y - 1]? = some (s, getrline s)) :
    update_row { e with rows := rows1, cursor := c, modified := m } = some s := by
  have hlt : c.y - 1 < rows1.length := by
    rcases Nat.lt_or_ge (c.y - 1) rows1.length with hl | hl
    · exact hl
    · rw [List.getElem?_eq_none hl] at hrow; simp at hrow
  unfold update_row
  simp only
  rw [sz_sub_of_le hy, if_pos hlt, hrow, Option.map_some', c_str_nul_free _ h0]

theorem forward_delete_char (e : Editor) (h : cursor_on_row e) (hn : nul_free e.rows)
    (hx : e.cursor.x < (raw_at e.rows e.cursor.y).length + max_digits e.rows + 1) :
    handle_ctrl .del e = some
      { e with
        rows := e.rows.set (e.cursor.y - 1)
          ((raw_at e.rows e.cursor.y).take (e.cursor.x - (max_digits e.rows + 1))
              ++ (raw_at e.rows e.cursor.y).drop (e.cursor.x - (max_digits e.rows + 1) + 1),
           getrline
            ((raw_at e.rows e.cursor.y).take (e.cursor.x - (max_digits e.rows + 1))
              ++ (raw_at e.rows e.cursor.y).drop (e.cursor.x - (max_digits e.rows + 1) + 1))),
        modified := true }
    ∧ handle_ctrl .del e = (handle_ctrl .right e).bind deletec := by
  obtain ⟨hs, hlt, row, hrow, hraw⟩ := cursor_on_row_get h
  have hv := h
  obtain ⟨h1, h2, h3, h4⟩ := h
  have hg : del_guard e (max_digits e.rows) = some true := by
    rw [del_guard_on_row e hv hn]
    simp only [Option.some.injEq, decide_eq_true_eq]
    omega
  have hr := right_within_row e hv hn hx
  have hv1 : cursor_on_row { e with cursor := { e.cursor with x := e.cursor.x + 1 } } := by
    refine ⟨h1, h2, ?_, ?_⟩
    · simp only; omega
    · simp only; omega
  have hd := deletec_removes_char _ hv1 (show max_digits e.rows + 1 < e.cursor.x + 1 by omega)
  simp only [Nat.add_sub_cancel] at hd
  have hnul : Char.ofNat 0 ∉ (raw_at e.rows e.cursor.y).take (e.cursor.x - (max_digits e.rows + 1))
      ++ (raw_at e.rows e.cursor.y).drop (e.cursor.x - (max_digits e.rows + 1) + 1) := by
    have hr0 : Char.ofNat 0 ∉ raw_at e.rows e.cursor.y := by
      rw [← hraw]; exact hn row (List.getElem?_mem hrow)
    intro hc
    rcases List.mem_append.mp hc with hc | hc
    · exact hr0 (List.mem_of_mem_take hc)
    · exact hr0 (List.mem_of_mem_drop hc)
  have hfinal : handle_ctrl .del e = some
      { e with
        rows := e.rows.set (e.cursor.y - 1)
          ((raw_at e.rows e.cursor.y).take (e.cursor.x - (max_digits e.rows + 1))
              ++ (raw_at e.rows e.cursor.y).drop (e.cursor.x - (max_digits e.rows + 1) + 1),
           getrline
            ((raw_at e.rows e.cursor.y).take (e.cursor.x - (max_digits e.rows + 1))
              ++ (raw_at e.rows e.cursor.y).drop (e.cursor.x - (max_digits e.rows + 1) + 1))),
        modified := true } := by
    simp only [handle_ctrl, hg, hr, hd]
    rw [clamp_x_id]
    rw [update_row_set _ _ _ _ _ hnul h1 (List.getElem?_set_self hlt)]
    simp only [Option.getD_some, List.length_append, List.length_take, List.length_drop]
    omega
  refine ⟨hfinal, ?_⟩
  rw [hfinal]
  simp only [handle_ctrl, hr, Option.some_bind, hd]

theorem raw_at_nul_free (rows : List row_t) (hn : nul_free rows) (y : Nat) :
    Char.ofNat 0 ∉ raw_at rows y := by
  unfold raw_at
  cases hr : rows[y - 1]? with
  | none => simp
  | some row => exact hn row (List.getElem?_mem hr)

theorem forward_delete_line_break (e : Editor) (h : cursor_on_row e) (hn : nul_free e.rows)
    (hx : e.cursor.x = (raw_at e.rows e.cursor.y).length + max_digits e.rows + 1)
    (hy : e.cursor.y < e.rows.length) :
    handle_ctrl .del e = some
      { e with
        rows := (e.rows.set (e.cursor.y - 1)
          (raw_at e.rows e.cursor.y ++ raw_at e.rows (e.cursor.y + 1),
           getrline (raw_at e.rows e.cursor.y ++ raw_at e.rows (e.cursor.y + 1)))).eraseIdx
            e.cursor.y,
        modified := true }
    ∧ handle_ctrl .del e = (handle_ctrl .right e).bind deletec := by
  obtain ⟨hs, hlt, row, hrow, hraw⟩ := cursor_on_row_get h
  have hv := h
  obtain ⟨h1, h2, h3, h4⟩ := h
  have hg : del_guard e (max_digits e.rows) = some true := by
    rw [del_guard_on_row e hv hn]
    simp only [Option.some.injEq, decide_eq_true_eq]
    omega
  have hr := right_to_next_row e hv hn hx hy
  have hv1 : cursor_on_row
      { e with cursor := { e.cursor with y := e.cursor.y + 1, x := max_digits e.rows + 1 } } := by
    refine ⟨?_, ?_, ?_, ?_⟩ <;> simp only <;> omega
  have hd := deletec_merges_rows _ hv1 rfl (show 1 < e.cursor.y + 1 by omega)
  simp only [Nat.add_sub_cancel, Nat.reduceSubDiff] at hd
  rw [c_str_nul_free _ (raw_at_nul_free e.rows hn _), ← hx] at hd
  have hnul : Char.ofNat 0 ∉ raw_at e.rows e.cursor.y ++ raw_at e.rows (e.cursor.y + 1) := by
    intro hc
    rcases List.mem_append.mp hc with hc | hc
    · exact raw_at_nul_free e.rows hn _ hc
    · exact raw_at_nul_free e.rows hn _ hc
  have hfinal : handle_ctrl .del e = some
      { e with
        rows := (e.rows.set (e.cursor.y - 1)
          (raw_at e.rows e.cursor.y ++ raw_at e.rows (e.cursor.y + 1),
           getrline (raw_at e.rows e.cursor.y ++ raw_at e.rows (e.cursor.y + 1)))).eraseIdx
            e.cursor.y,
        modified := true } := by
    simp only [handle_ctrl, hg, hr, hd]
    rw [clamp_x_id]
    rw [update_row_set _ _ _ _ _ hnul h1
      (by rw [List.getElem?_eraseIdx_of_lt _ _ _ (by omega)]
          exact List.getElem?_set_self hlt)]
    simp only [Option.getD_some, List.length_append]
    omega
  refine ⟨hfinal, ?_⟩
  rw [hfinal]
  simp only [handle_ctrl, hr, Option.some_bind, hd]

theorem forward_delete_noop (e : Editor) (h : cursor_on_row e) (hn : nul_free e.rows)
    (hy : e.cursor.y = e.rows.length)
    (hx : e.cursor.x = (raw_at e.rows e.cursor.y).length + max_digits e.rows + 1) :
    handle_ctrl .del e = some e := by
  have hg : del_guard e (max_digits e.rows) = some false := by
    rw [del_guard_on_row e h hn]
    simp only [Option.some.injEq, decide_eq_false_iff_not, not_not]
    exact ⟨hy, hx⟩
  simp only [handle_ctrl, hg]
  rw [clamp_x_id]
  rw [update_row_on_row e h hn]
  simp only [Option.getD_some]
  omega

/-- Forward delete on documents without NUL characters.  For a valid cursor on
a real row: at the end of the last row `handle_ctrl(del)` returns the state
unchanged; otherwise it equals `handle_ctrl(right)` followed by `deletec`, and
it removes the character at index `x - (gutter + 1)` of the current row, or, at
the end of a non-last row, the line break (the next row is appended to the
current one and removed); the cursor stays where it was and `modified` is
set. -/
theorem forward_delete_nul_free (e : Editor) (h : cursor_on_row e) (hn : nul_free e.rows) :
    (e.cursor.y = e.rows.length →
      e.cursor.x = (raw_at e.rows e.cursor.y).length + max_digits e.rows + 1 →
      handle_ctrl .del e = some e)
    ∧ (¬ (e.cursor.y = e.rows.length
          ∧ e.cursor.x = (raw_at e.rows e.cursor.y).length + max_digits e.rows + 1) →
        handle_ctrl .del e = (handle_ctrl .right e).bind deletec)
    ∧ (e.cursor.x < (raw_at e.rows e.cursor.y).length + max_digits e.rows + 1 →
        handle_ctrl .del e = some
          { e with
            rows := e.rows.set (e.cursor.y - 1)
              ((raw_at e.rows e.cursor.y).take (e.cursor.x - (max_digits e.rows + 1))
                  ++ (raw_at e.rows e.cursor.y).drop (e.cursor.x - (max_digits e.rows + 1) + 1),
               getrline
                ((raw_at e.rows e.cursor.y).take (e.cursor.x - (max_digits e.rows + 1))
                  ++ (raw_at e.rows e.cursor.y).drop
                      (e.cursor.x - (max_digits e.rows + 1) + 1))),
            modified := true })
    ∧ (e.cursor.x = (raw_at e.rows e.cursor.y).length + max_digits e.rows + 1 →
        e.cursor.y < e.rows.length →
        handle_ctrl .del e = some
          { e with
            rows := (e.rows.set (e.cursor.y - 1)
              (raw_at e.rows e.cursor.y ++ raw_at e.rows (e.cursor.y + 1),
               getrline (raw_at e.rows e.cursor.y ++ raw_at e.rows (e.cursor.y + 1)))).eraseIdx
                e.cursor.y,
            modified := true }) := by
  refine ⟨forward_delete_noop e h hn, ?_, fun hx => (forward_delete_char e h hn hx).1,
    fun hx hy => (forward_delete_line_break e h hn hx hy).1⟩
  intro hne
  have h4 := h.2.2.2
  have h2 := h.2.1
  by_cases hx : e.cursor.x < (raw_at e.rows e.cursor.y).length + max_digits e.rows + 1
  · exact (forward_delete_char e h hn hx).2
  · exact (forward_delete_line_break e h hn (by omega) (by
      rcases Nat.lt_or_ge e.cursor.y e.rows.length with hl | hl
      · exact hl
      · exact absurd ⟨by omega, by omega⟩ hne)).2

/-! ### Gutter width (C17) -/

theorem digits_len_step (n : Nat) (h : 0 < n) :
    (Nat.digits 10 n).length = (Nat.digits 10 (n / 10)).length + 1 := by
  rw [Nat.digits_def' (by norm_num) h, List.length_cons]

theorem digits_len_le_self : ∀ n : Nat, (Nat.digits 10 n).length ≤ n := by
  intro n
  induction n using Nat.strong_induction_on with
  | _ n ih =>
    rcases Nat.eq_zero_or_pos n with h | h
    · subst h; simp
    · rw [digits_len_step n h]
      have := ih (n / 10) (Nat.div_lt_self h (by norm_num))
      omega

theorem intlenLoop_eq : ∀ (fuel num digits : Nat), (Nat.digits 10 num).length ≤ fuel →
    intlenLoop fuel num digits = some (digits + (Nat.digits 10 num).length) := by
  intro fuel
  induction fuel with
  | zero =>
    intro num digits h
    have h0 : num = 0 := by
      have : Nat.digits 10 num = [] := List.length_eq_zero.mp (Nat.le_zero.mp h)
      exact Nat.digits_eq_nil_iff_eq_zero.mp this
    subst h0
    simp [intlenLoop]
  | succ f ih =>
    intro num digits h
    rcases Nat.eq_zero_or_pos num with h0 | h0
    · subst h0; simp [intlenLoop]
    · have hstep := digits_len_step num h0
      rw [intlenLoop, if_neg (by omega), ih _ _ (by omega), hstep]
      congr 1
      omega

theorem intlen_eq_digits (n : Nat) : intlen n = (Nat.digits 10 n).length := by
  unfold intlen
  rw [intlenLoop_eq n n 0 (digits_len_le_self n)]
  simp

theorem digits_len_one (n : Nat) (h1 : 1 ≤ n) (h2 : n ≤ 9) : (Nat.digits 10 n).length = 1 := by
  rw [digits_len_step n (by omega), Nat.div_eq_of_lt (by omega)]
  simp

theorem digits_len_two (n : Nat) (h1 : 10 ≤ n) (h2 : n ≤ 99) :
    (Nat.digits 10 n).length = 2 := by
  rw [digits_len_step n (by omega), digits_len_one (n / 10) (by omega) (by omega)]

theorem digits_len_three (n : Nat) (h1 : 100 ≤ n) (h2 : n ≤ 999) :
    (Nat.digits 10 n).length = 3 := by
  rw [digits_len_step n (by omega), digits_len_two (n / 10) (by omega) (by omega)]

/-- C17 (gutter width).  For every number `n`, the loop of `intlen` leaves by its
own test within the budget and `intlen n` is the number of decimal digits of
`n`, which is 0 for `n = 0`; hence for every row vector with `n` rows
`max_digits` is the larger of that digit count and 2: it is 2 for every `n` in
`1..99` (in particular 9, 10 and 99) and 3 for every `n` in `100..999`. -/
theorem gutter_width_digits (n : Nat) :
    intlenLoop n n 0 = some (intlen n)
    ∧ intlen n = (Nat.digits 10 n).length
    ∧ intlen 0 = 0
    ∧ (∀ rows : List row_t, rows.length = n →
        max_digits rows = max (Nat.digits 10 n).length 2)
    ∧ (∀ rows : List row_t, rows.length = n → 1 ≤ n → n ≤ 99 → max_digits rows = 2)
    ∧ (∀ rows : List row_t, rows.length = n → 100 ≤ n → n ≤ 999 → max_digits rows = 3) := by
  have hd := intlen_eq_digits n
  refine ⟨?_, hd, by decide, ?_, ?_, ?_⟩
  · rw [intlenLoop_eq n n 0 (digits_len_le_self n), hd, Nat.zero_add]
  · intro rows hr
    unfold max_digits
    rw [hr, hd]
  · intro rows hr h1 h2
    unfold max_digits
    rw [hr, hd]
    rcases Nat.lt_or_ge n 10 with h | h
    · rw [digits_len_one n h1 (by omega)]; rfl
    · rw [digits_len_two n h h2]; rfl
  · intro rows hr h1 h2
    unfold max_digits
    rw [hr, hd, digits_len_three n h1 h2]; rfl

/-- Witness for C17: documents of 9, 10, 99 and 100 rows. -/
theorem gutter_width_digits_witness :
    max_digits (List.replicate 9 ([], [])) = 2
    ∧ max_digits (List.replicate 10 ([], [])) = 2
    ∧ max_digits (List.replicate 99 ([], [])) = 2
    ∧ max_digits (List.replicate 100 ([], [])) = 3 :=
  ⟨(gutter_width_digits 9).2.2.2.2.1 _ (by simp) (by decide) (by decide),
   (gutter_width_digits 10).2.2.2.2.1 _ (by simp) (by decide) (by decide),
   (gutter_width_digits 99).2.2.2.2.1 _ (by simp) (by decide) (by decide),
   (gutter_width_digits 100).2.2.2.2.2 _ (by simp) (by decide) (by decide)⟩

/-! ### Agreement of the two tab algorithms (C20) -/

theorem walk_eq_expand_length : ∀ (s : List Char) (acc : Nat),
    walk_columns acc s = acc + (expand_tabs_from acc s).length := by
  intro s
  induction s with
  | nil => intro acc; simp [walk_columns, expand_tabs_from]
  | cons c t ih =>
    intro acc
    by_cases hc : c = '\t'
    · subst hc
      rw [walk_columns, if_pos rfl, ih, expand_cons_tab, List.length_append,
        List.length_replicate]
      omega
    · rw [walk_columns, if_neg hc, ih, expand_cons_other _ _ _ hc, List.length_cons]
      omega

/-- C20 (the two tab algorithms agree).  For every raw line `s` whose expansion
fits a `size_t`, every row vector (gutter width `g`) and every `n ≤ |s|`,
`x2r(s, g + 1 + n)` returns `g + 1` plus the length of `getrline` of the first
`n` characters of `s`, and that expansion is the beginning of `getrline(s)`:
the rest of `getrline(s)` renders the remaining characters of `s`, starting at
the column the cursor's render column names. -/
theorem x2r_agrees_with_getrline (rows : List row_t) (s : List Char) (n : Nat)
    (hn : n ≤ s.length) (hs : 4 * s.length < size_mod) :
    x2r rows s (max_digits rows + 1 + n)
        = some (max_digits rows + 1 + (getrline (s.take n)).length)
    ∧ getrline s
        = getrline (s.take n)
          ++ expand_tabs_from (getrline (s.take n)).length (s.drop n) := by
  have htake : (s.take n).length = n := by rw [List.length_take]; omega
  have hpre := (getrline_eq_expand (s.take n) (by rw [htake]; omega)).2
  have hall := (getrline_eq_expand s hs).2
  constructor
  · unfold x2r
    simp only
    rw [sz_sub_of_le (by omega), x2rLoop_eq s _ 0 0 (by omega)]
    have h3 : max_digits rows + 1 + n - (max_digits rows + 1) = n := by omega
    simp only [h3, List.drop_zero, Option.map_some', Option.some.injEq]
    rw [walk_eq_expand_length, hpre]
    omega
  · rw [hall, hpre]
    conv_lhs => rw [← List.take_append_drop n s]
    rw [expand_append, Nat.zero_add]

/-- Witness for C20: the line `ab<TAB>c` with the cursor after the tab. -/
theorem x2r_agrees_with_getrline_witness :
    3 ≤ ['a', 'b', '\t', 'c'].length
    ∧ x2r [] ['a', 'b', '\t', 'c'] (max_digits [] + 1 + 3)
        = some (max_digits [] + 1 + (getrline (['a', 'b', '\t', 'c'].take 3)).length)
    ∧ (getrline (['a', 'b', '\t', 'c'].take 3)).length = 4 :=
  ⟨by decide,
   (x2r_agrees_with_getrline [] ['a', 'b', '\t', 'c'] 3 (by decide) (by decide)).1,
   by decide⟩

/-! ### Load and save round trip (C18) -/

theorem takeWhile_append_dropWhile_nl (s : List Char) :
    s.takeWhile (fun c => c != '\n') ++ s.dropWhile (fun c => c != '\n') = s :=
  List.takeWhile_append_dropWhile _ s

theorem dropWhile_nl_cases (s : List Char) :
    s.dropWhile (fun c => c != '\n') = []
      ∨ ∃ rest, s.dropWhile (fun c => c != '\n') = '\n' :: rest := by
  cases hd : s.dropWhile (fun c => c != '\n') with
  | nil => exact Or.inl rfl
  | cons c rest =>
    right
    have := List.head_dropWhile_not (fun c => c != '\n') s (by rw [hd]; simp)
    simp only [hd, List.head_cons, bne_iff_ne, ne_eq, Bool.not_eq_true, decide_eq_false_iff_not,
      not_not, Bool.not_eq_eq_eq_not, Bool.not_true, bne_eq_false_iff_eq] at this
    exact ⟨rest, by rw [this]⟩

theorem mem2buffer_cons (row : row_t) (rows : List row_t) :
    mem2buffer (row :: rows) = row.1 ++ ['\n'] ++ mem2buffer rows := by
  simp [mem2buffer]

theorem load_loop_eq : ∀ (n : Nat) (s : List Char) (rows : List row_t) (fuel : Nat),
    s.length ≤ n → s.length < fuel →
    ∃ R, load_loop fuel s rows = some (rows ++ R)
      ∧ (s = [] → R = [])
      ∧ (s ≠ [] → R ≠ [])
      ∧ mem2buffer R = (if s = [] ∨ s.getLast? = some '\n' then s else s ++ ['\n'])
      ∧ ∀ row ∈ R, row.2 = getrline row.1 := by
  intro n
  induction n with
  | zero =>
    intro s rows fuel hn hf
    have hs : s = [] := List.length_eq_zero.mp (Nat.le_zero.mp hn)
    subst hs
    cases fuel with
    | zero => simp at hf
    | succ f => exact ⟨[], by simp [load_loop, getline], fun _ => rfl, fun h => absurd rfl h,
        by simp [mem2buffer], by simp⟩
  | succ n ih =>
    intro s rows fuel hn hf
    cases fuel with
    | zero => simp at hf
    | succ f =>
      by_cases hs : s = []
      · subst hs
        exact ⟨[], by simp [load_loop, getline], fun _ => rfl, fun h => absurd rfl h,
          by simp [mem2buffer], by simp⟩
      · have hsplit := takeWhile_append_dropWhile_nl s
        rcases dropWhile_nl_cases s with hd | ⟨rest, hd⟩
        · -- no newline left: the last line lacks its terminator
          have hline : s.takeWhile (fun c => c != '\n') = s := by
            rw [hd, List.append_nil] at hsplit; exact hsplit
          have hlast : s.getLast? ≠ some '\n' := by
            intro hl
            have hmem : '\n' ∈ s := List.mem_of_getLast?_eq_some hl
            rw [← hline] at hmem
            have := List.mem_takeWhile_imp hmem
            simp at this
          refine ⟨[(s, getrline s)], ?_, fun h => absurd h hs, fun _ => by simp, ?_, ?_⟩
          · simp only [load_loop, getline, if_neg hs, hd, hline, List.drop_nil]
            cases f with
            | zero => exact absurd (List.length_eq_zero.mp (by omega)) hs
            | succ f2 => simp [load_loop, getline]
          · rw [mem2buffer_cons]
            simp only [mem2buffer, List.map_nil, List.flatten_nil, List.append_nil]
            rw [if_neg (by simp [hs, hlast])]
          · intro row hrow
            simp only [List.mem_singleton] at hrow
            subst hrow; rfl
        · have hs2 : s = s.takeWhile (fun c => c != '\n') ++ '\n' :: rest := by
            rw [← hd]; exact hsplit.symm
          have hlen : rest.length < s.length := by
            rw [hs2]
            simp only [List.length_append, List.length_cons]
            omega
          obtain ⟨R, hR, hR0, hR1, hbuf, hinv⟩ :=
            ih rest (rows ++ [(s.takeWhile (fun c => c != '\n'),
              getrline (s.takeWhile (fun c => c != '\n')))]) f (by omega) (by omega)
          refine ⟨(s.takeWhile (fun c => c != '\n'),
              getrline (s.takeWhile (fun c => c != '\n'))) :: R, ?_, fun h => absurd h hs,
            fun _ => by simp, ?_, ?_⟩
          · simp only [load_loop, getline, if_neg hs, hd, List.drop_succ_cons, List.drop_zero]
            rw [hR, List.append_assoc]
            rfl
          · rw [mem2buffer_cons, hbuf]
            by_cases hrest : rest = []
            · subst hrest
              simp only [true_or, if_true, List.append_nil]
              have hl : s.getLast? = some '\n' := by
                rw [hs2]; simp
              rw [if_pos (Or.inr hl)]
              exact hs2.symm
            · have hl : s.getLast? = rest.getLast? := by
                obtain ⟨c, r2, hr2⟩ := List.exists_cons_of_ne_nil hrest
                rw [hs2, hr2, List.getLast?_append, List.getLast?_cons_cons]
                simp [List.getLast?_cons]
              simp only [hrest, false_or, hs, hl]
              have hs3 : s.takeWhile (fun c => c != '\n') ++ ['\n'] ++ rest = s := by
                rw [List.append_assoc]; exact hs2.symm
              split
              · exact hs3
              · rw [← List.append_assoc, hs3]
          · intro row hrow
            rcases List.mem_cons.mp hrow with h1 | h1
            · subst h1; rfl
            · exact hinv row h1

/-- C18 (load and save round trip).  For every file content `t`, the load loop
of `main` ends at the end of input, and serialising the rows it built with
`mem2buffer` (raw text of each row, then one newline, in order; the rendered
text is not read) gives back `t` when `t` is empty or ends with a newline, and
`t` followed by one newline when the last line of `t` lacks its terminator. -/
theorem load_then_save (t : List Char) :
    ∃ rows, load_file t = some rows
      ∧ (t = [] ∨ t.getLast? = some '\n' → mem2buffer rows = t)
      ∧ (t ≠ [] → t.getLast? ≠ some '\n' → mem2buffer rows = t ++ ['\n'])
      ∧ rows = load_rows (some (rows.map Prod.fst)) := by
  obtain ⟨R, hR, _, _, hbuf, hinv⟩ := load_loop_eq t.length t [] (t.length + 1) (le_refl _)
    (Nat.lt_succ_self _)
  refine ⟨R, by simpa [load_file] using hR, ?_, ?_, ?_⟩
  · intro h
    rw [hbuf, if_pos h]
  · intro h1 h2
    rw [hbuf, if_neg (by simp [h1, h2])]
  · simp only [load_rows, List.map_map]
    conv_lhs => rw [← List.map_id R]
    apply List.map_congr_left
    intro row hrow
    simp only [Function.comp, id]
    rw [← hinv row hrow]

/-- Witness for C18: a file whose last line lacks the newline. -/
theorem load_then_save_witness :
    ∃ rows, load_file ['a', '\t', '\n', '\n', 'b'] = some rows
      ∧ rows.map Prod.fst = [['a', '\t'], [], ['b']]
      ∧ mem2buffer rows = ['a', '\t', '\n', '\n', 'b', '\n'] := by
  obtain ⟨rows, h1, _, h3, _⟩ := load_then_save ['a', '\t', '\n', '\n', 'b']
  refine ⟨rows, h1, ?_, h3 (by decide) (by decide)⟩
  have h2 : load_file ['a', '\t', '\n', '\n', 'b']
      = some [(['a', '\t'], ['a', ' ', ' ', ' ']), ([], []), (['b'], ['b'])] := by decide
  rw [h2] at h1
  simp only [Option.some.injEq] at h1
  rw [← h1]
  rfl

/-! ### The viewport (C13, C14) -/

theorem walk_columns_le : ∀ (s : List Char) (acc : Nat),
    walk_columns acc s ≤ acc + 4 * s.length := by
  intro s
  induction s with
  | nil => intro acc; simp [walk_columns]
  | cons c t ih =>
    intro acc
    rw [walk_columns, List.length_cons]
    split
    · have := ih (acc + (4 - acc % 4)); omega
    · have := ih (acc + 1); omega

theorem render_col_bounds (e : Editor) :
    max_digits e.rows + 1 ≤ render_col e
    ∧ render_col e ≤ 4 * (raw_at e.rows e.cursor.y).length + max_digits e.rows + 1 := by
  unfold render_col
  have h := walk_columns_le
    ((raw_at e.rows e.cursor.y).take (e.cursor.x - (max_digits e.rows + 1))) 0
  have hl : ((raw_at e.rows e.cursor.y).take (e.cursor.x - (max_digits e.rows + 1))).length
      ≤ (raw_at e.rows e.cursor.y).length := by
    rw [List.length_take]; omega
  omega

theorem raw_at_virtual (rows : List row_t) : raw_at rows (rows.length + 1) = [] := by
  unfold raw_at
  rw [Nat.add_sub_cancel, List.getElem?_eq_none (le_refl _)]
  rfl

theorem scroll_eq (e : Editor) (h : cursor_valid e) :
    scroll e = some
      { e with
        cursor := { e.cursor with r := render_col e },
        row_offset := scroll_row_offset e.cursor.y e.row_offset e.height,
        col_offset := scroll_col_offset (render_col e) e.col_offset e.width (max_digits e.rows) } := by
  obtain ⟨h1, h2, h3, h4⟩ := h
  have hr : (if e.cursor.y ≤ e.rows.length then
      match e.rows[sz_sub e.cursor.y 1]? with
      | none => none
      | some row => x2r e.rows row.1 e.cursor.x
    else some (max_digits e.rows + 1)) = some (render_col e) := by
    by_cases hy : e.cursor.y ≤ e.rows.length
    · have hlt : e.cursor.y - 1 < e.rows.length := by omega
      have hraw : raw_at e.rows e.cursor.y = (e.rows[e.cursor.y - 1]).1 := by
        unfold raw_at
        rw [List.getElem?_eq_getElem hlt]; rfl
      rw [if_pos hy, sz_sub_of_le h1, List.getElem?_eq_getElem hlt]
      simp only
      unfold x2r
      simp only
      rw [sz_sub_of_le h3, x2rLoop_eq _ _ 0 0 (by rw [← hraw]; omega)]
      simp only [List.drop_zero, Option.map_some', Option.some.injEq]
      unfold render_col
      rw [hraw]
      omega
    · have hy2 : e.cursor.y = e.rows.length + 1 := by omega
      rw [if_neg hy]
      unfold render_col
      rw [hy2, raw_at_virtual]
      simp [walk_columns]
  unfold scroll
  simp only [hr]
  rfl

theorem size_mod_val : size_mod = 18446744073709551616 := by decide

theorem scroll_row_offset_idem (y ro height : Nat) (hy : 1 ≤ y)
    (hfit : y + height < size_mod) :
    scroll_row_offset y (scroll_row_offset y ro height) height
      = scroll_row_offset y ro height := by
  rw [size_mod_val] at hfit
  unfold scroll_row_offset sz_add sz_sub
  simp only [size_mod_val]
  split_ifs <;> omega

set_option maxHeartbeats 1000000 in
theorem scroll_col_offset_idem (r co width g : Nat) (hr : g + 1 ≤ r)
    (hco : co + width + g < size_mod) (hrw : r + width < size_mod) :
    scroll_col_offset r (scroll_col_offset r co width g) width g
      = scroll_col_offset r co width g := by
  rw [size_mod_val] at hco hrw
  have key : ∀ c, c = scroll_col_offset r co width g → scroll_col_offset r c width g = c := by
    intro c hc
    unfold scroll_col_offset sz_add sz_sub at hc ⊢
    simp only [size_mod_val] at hc ⊢
    split_ifs at hc ⊢ <;> omega
  exact key _ rfl

/-- C14 (scroll is idempotent).  For every state with a valid cursor in which
the sums `scroll` forms stay below `2 ^ 64` (any rows, offsets, width and
height), `scroll` returns a state that a second `scroll` returns unchanged: the
same `row_offset`, `col_offset` and `cursor.r`, and nothing else touched. -/
theorem scroll_idempotent (e : Editor) (hv : cursor_valid e) (hfit : scroll_fits e) :
    ∃ e1, scroll e = some e1 ∧ scroll e1 = some e1 := by
  obtain ⟨hf1, hf2, hf3⟩ := hfit
  obtain ⟨hr1, hr2⟩ := render_col_bounds e
  refine ⟨_, scroll_eq e hv, ?_⟩
  have hv1 : cursor_valid
      { e with
        cursor := { e.cursor with r := render_col e },
        row_offset := scroll_row_offset e.cursor.y e.row_offset e.height,
        col_offset := scroll_col_offset (render_col e) e.col_offset e.width
          (max_digits e.rows) } := hv
  rw [scroll_eq _ hv1]
  have hrc : render_col
      { e with
        cursor := { e.cursor with r := render_col e },
        row_offset := scroll_row_offset e.cursor.y e.row_offset e.height,
        col_offset := scroll_col_offset (render_col e) e.col_offset e.width
          (max_digits e.rows) } = render_col e := rfl
  simp only [hrc]
  rw [scroll_row_offset_idem _ _ _ hv.1 hf1,
    scroll_col_offset_idem _ _ _ _ hr1 hf2 (by omega)]

/-- Witness for C14: the same scrolled state as for C13. -/
theorem scroll_idempotent_witness :
    scroll_fits { (editor_of [['a', '\t', 'b']] 5 1 false) with
        row_offset := 40, col_offset := 70 }
    ∧ ∃ e1, scroll { (editor_of [['a', '\t', 'b']] 5 1 false) with
          row_offset := 40, col_offset := 70 } = some e1
        ∧ scroll e1 = some e1 :=
  ⟨by decide,
   scroll_idempotent
     { (editor_of [['a', '\t', 'b']] 5 1 false) with row_offset := 40, col_offset := 70 }
     (by decide) (by decide)⟩

/-! ### The quit protocol (C15) -/

theorem ctrl_q_ne_esc : CTRL 'q' ≠ Char.ofNat 27 := by decide

theorem body_ctrl_q (io_ok : Bool) (s : Session) (rest : List (Option Char))
    (hmode : s.save_as = false) :
    process_key_body io_ok (some (CTRL 'q') :: rest) s
      = (normal_key io_ok (CTRL 'q') s).map (fun out => (out, rest)) := by
  have hr : reset_quit (CTRL 'q') s = s := by
    unfold reset_quit
    rw [if_neg (by simp)]
  simp only [process_key_body, readone, hr, if_neg ctrl_q_ne_esc, hmode]
  rfl

theorem save_frame (io_ok : Bool) (s : Session) :
    (save io_ok s).1.quit_times = s.quit_times
    ∧ (save io_ok s).1.status_message = s.status_message
    ∧ (save io_ok s).1.save_as = s.save_as
    ∧ (save io_ok s).1.filename = s.filename
    ∧ (save io_ok s).1.rdbuf = s.rdbuf
    ∧ (save io_ok s).1.ed.rows = s.ed.rows
    ∧ (save io_ok s).1.ed.cursor = s.ed.cursor := by
  unfold save
  split_ifs <;> exact ⟨rfl, rfl, rfl, rfl, rfl, rfl, rfl⟩

theorem normal_key_other (io_ok : Bool) (c : Char) (s : Session) (out : Outcome)
    (hq : c ≠ CTRL 'q') (h : normal_key io_ok c s = some out) :
    ∃ s1, out = .running s1 ∧ s1.quit_times = s.quit_times
      ∧ (¬ (c = CTRL 's' ∧ s.filename = []) → s1.status_message = s.status_message) := by
  unfold normal_key at h
  rw [if_neg hq] at h
  split_ifs at h with h1 h2 h3 h4 h5
  · simp only [Option.some.injEq] at h
    subst h
    exact ⟨_, rfl, rfl, fun hn => absurd ⟨h1, h2⟩ hn⟩
  · simp only [Option.some.injEq] at h
    subst h
    exact ⟨_, rfl, (save_frame io_ok s).1, fun _ => (save_frame io_ok s).2.1⟩
  · simp only [Option.map_eq_some'] at h
    obtain ⟨ed1, _, rfl⟩ := h
    exact ⟨_, rfl, rfl, fun _ => rfl⟩
  · simp only [Option.some.injEq] at h
    subst h
    exact ⟨_, rfl, rfl, fun _ => rfl⟩
  · simp only [Option.map_eq_some'] at h
    obtain ⟨ed1, _, rfl⟩ := h
    exact ⟨_, rfl, rfl, fun _ => rfl⟩
  · simp only [Option.map_eq_some'] at h
    obtain ⟨ed1, _, rfl⟩ := h
    exact ⟨_, rfl, rfl, fun _ => rfl⟩

theorem body_other_key (io_ok : Bool) (s : Session) (r : Option Char)
    (rest rest1 : List (Option Char)) (out : Outcome)
    (hmode : s.save_as = false) (hq : r ≠ some (CTRL 'q')) (h0 : s.quit_times = 0)
    (h : process_key_body io_ok (r :: rest) s = some (out, rest1)) :
    ∃ s1, out = .running s1 ∧ s1.quit_times = 1
      ∧ (¬ (r = some (CTRL 's') ∧ s.filename = []) → s1.status_message = status_help) := by
  -- the byte the first `readone` hands over
  obtain ⟨c, ok, hread, hc, hcs⟩ : ∃ c ok, readone (r :: rest) = some ((c, ok), rest)
      ∧ c ≠ CTRL 'q' ∧ (c = CTRL 's' → r = some (CTRL 's')) := by
    cases r with
    | none => exact ⟨Char.ofNat 0, false, rfl, by decide, fun hh => absurd hh (by decide)⟩
    | some c =>
      refine ⟨c, true, rfl, ?_, fun hh => by rw [hh]⟩
      intro hh; exact hq (by rw [hh])
  have hreset : reset_quit c s
      = { s with quit_times := 1, status_message := status_help } := by
    unfold reset_quit
    rw [if_pos ⟨h0, hc⟩]
  simp only [process_key_body, hread, hreset, hmode] at h
  split at h
  · simp at h
  · -- a decoded cursor key
    simp only [Option.map_eq_some', Prod.mk.injEq] at h
    obtain ⟨ed1, _, rfl, _⟩ := h
    exact ⟨_, rfl, rfl, fun _ => rfl⟩
  · simp only [Option.some.injEq, Prod.mk.injEq] at h
    obtain ⟨rfl, _⟩ := h
    exact ⟨_, rfl, rfl, fun _ => rfl⟩
  · simp only [Bool.false_eq_true, if_false, Option.map_eq_some', Prod.mk.injEq] at h
    obtain ⟨out1, hn, rfl, _⟩ := h
    obtain ⟨s1, rfl, hqt, hst⟩ := normal_key_other io_ok c _ out1 hc hn
    refine ⟨s1, rfl, hqt, fun hn2 => ?_⟩
    rw [hst]
    intro hh
    exact hn2 ⟨hcs hh.1, hh.2⟩

theorem process_key_of_body_running (io_ok : Bool) (input rest : List (Option Char))
    (s s1 : Session) (h : process_key_body io_ok input s = some (.running s1, rest)) :
    process_key io_ok input s
      = (refresh s1.ed).map (fun ed1 => (.running { s1 with ed := ed1 }, rest)) := by
  unfold process_key
  rw [h]

theorem process_key_of_body_exited (io_ok : Bool) (input rest : List (Option Char))
    (s s1 : Session) (h : process_key_body io_ok input s = some (.exited s1, rest)) :
    process_key io_ok input s = some (.exited s1, rest) := by
  unfold process_key
  rw [h]

theorem process_key_running_inv (io_ok : Bool) (input rest : List (Option Char))
    (s : Session) (out : Outcome) (h : process_key io_ok input s = some (out, rest)) :
    ∃ out0, process_key_body io_ok input s = some (out0, rest)
      ∧ ((∃ s0 ed1, out0 = .running s0 ∧ out = .running { s0 with ed := ed1 })
        ∨ (∃ s0, out0 = .exited s0 ∧ out = .exited s0)) := by
  unfold process_key at h
  split at h
  · simp at h
  · rename_i s1 rest1 hb
    simp only [Option.some.injEq, Prod.mk.injEq] at h
    obtain ⟨rfl, rfl⟩ := h
    exact ⟨_, hb, Or.inr ⟨s1, rfl, rfl⟩⟩
  · rename_i s1 rest1 hb
    simp only [Option.map_eq_some', Prod.mk.injEq] at h
    obtain ⟨ed1, _, rfl, rfl⟩ := h
    exact ⟨_, hb, Or.inl ⟨s1, ed1, rfl, rfl⟩⟩

theorem body_reset_absorbed (io_ok : Bool) (s : Session) (r : Option Char)
    (rest : List (Option Char)) (hq : r ≠ some (CTRL 'q')) (h0 : s.quit_times = 0) :
    process_key io_ok (r :: rest) s
      = process_key io_ok (r :: rest)
          { s with quit_times := 1, status_message := status_help } := by
  obtain ⟨c, ok, hread, hc⟩ : ∃ c ok, readone (r :: rest) = some ((c, ok), rest)
      ∧ c ≠ CTRL 'q' := by
    cases r with
    | none => exact ⟨Char.ofNat 0, false, rfl, by decide⟩
    | some c =>
      refine ⟨c, true, rfl, ?_⟩
      intro hh; exact hq (by rw [hh])
  have h1 : reset_quit c s = { s with quit_times := 1, status_message := status_help } := by
    unfold reset_quit
    rw [if_pos ⟨h0, hc⟩]
  have h2 : reset_quit c { s with quit_times := 1, status_message := status_help }
      = { s with quit_times := 1, status_message := status_help } := by
    unfold reset_quit
    rw [if_neg (by simp)]
  have hbody : process_key_body io_ok (r :: rest) s
      = process_key_body io_ok (r :: rest)
          { s with quit_times := 1, status_message := status_help } := by
    simp only [process_key_body, hread, h1, h2]
  unfold process_key
  rw [hbody]

/-- C15 (quit confirmation).  In normal mode: (1) Ctrl-Q on an unmodified
document leaves through `exit`; (2) on a modified document with the counter at
1 it does not exit, sets the counter to 0 and shows the warning, and the call
goes on to `refresh`; (3) Ctrl-Q with the counter at 0 on a modified document
leaves through `exit` with the document and the list of written files as they
were; (4) any first byte other than Ctrl-Q met with the counter at 0 is
processed exactly as from the state with the counter at 1 and the help line
restored; after it the process has not exited, the counter is 1 and the status
line is the help line (unless that key is the Ctrl-S that opens the save-as
prompt, which then shows the prompt); so by (2) a later Ctrl-Q on the still
modified document warns again. -/
theorem quit_confirmation_protocol (io_ok : Bool) (s : Session) (rest : List (Option Char))
    (hmode : s.save_as = false) :
    (s.ed.modified = false →
      process_key io_ok (some (CTRL 'q') :: rest) s = some (.exited s, rest))
    ∧ (s.ed.modified = true → s.quit_times = 1 →
        process_key_body io_ok (some (CTRL 'q') :: rest) s
          = some (.running { s with quit_times := 0, status_message := quit_warning }, rest)
        ∧ process_key io_ok (some (CTRL 'q') :: rest) s
          = (refresh s.ed).map (fun ed1 =>
              (.running { s with ed := ed1, quit_times := 0, status_message := quit_warning },
                rest)))
    ∧ (s.ed.modified = true → s.quit_times = 0 →
        process_key io_ok (some (CTRL 'q') :: rest) s
          = some (.exited { s with quit_times := sz_sub 0 1 }, rest))
    ∧ (∀ r : Option Char, r ≠ some (CTRL 'q') → s.quit_times = 0 →
        process_key io_ok (r :: rest) s
          = process_key io_ok (r :: rest)
              { s with quit_times := 1, status_message := status_help })
    ∧ (∀ (r : Option Char) (rest1 : List (Option Char)) (out : Outcome),
        r ≠ some (CTRL 'q') → s.quit_times = 0 →
        process_key io_ok (r :: rest) s = some (out, rest1) →
        ∃ s1, out = .running s1 ∧ s1.quit_times = 1
          ∧ (¬ (r = some (CTRL 's') ∧ s.filename = []) → s1.status_message = status_help)) := by
  have hb := body_ctrl_q io_ok s rest hmode
  refine ⟨?_, ?_, ?_, ?_, ?_⟩
  · intro hm
    apply process_key_of_body_exited
    rw [hb]
    simp [normal_key, hm]
  · intro hm hq
    have hbody : process_key_body io_ok (some (CTRL 'q') :: rest) s
        = some (.running { s with quit_times := 0, status_message := quit_warning }, rest) := by
      rw [hb]
      simp [normal_key, hm, hq, sz_sub]
    exact ⟨hbody, process_key_of_body_running _ _ _ _ _ hbody⟩
  · intro hm hq
    apply process_key_of_body_exited
    rw [hb]
    simp [normal_key, hm, hq]
  · intro r hr hq
    exact body_reset_absorbed io_ok s r rest hr hq
  · intro r rest1 out hr hq h
    obtain ⟨out0, hbody, hcase⟩ := process_key_running_inv _ _ _ _ _ h
    obtain ⟨s1, rfl, h1, h2⟩ := body_other_key io_ok s r rest rest1 out0 hmode hr hq hbody
    rcases hcase with ⟨s0, ed1, hs0, rfl⟩ | ⟨s0, hs0, _⟩
    · cases hs0
      exact ⟨_, rfl, h1, h2⟩
    · cases hs0

/-- Witness for C15: on the warned session a second Ctrl-Q exits, while the key
`x` re-arms the counter and restores the help line. -/
theorem quit_confirmation_protocol_witness :
    process_key true [some (CTRL 'q')] warned_session
      = some (.exited { warned_session with quit_times := sz_sub 0 1 }, [])
    ∧ (process_key true [some 'x'] warned_session).map
        (fun p => match p.1 with
          | .running s1 => (s1.quit_times, s1.status_message, s1.ed.rows.map Prod.fst)
          | .exited s1 => (s1.quit_times, s1.status_message, []))
      = some (1, status_help, [['a', 'b', 'x']]) :=
  ⟨(quit_confirmation_protocol true warned_session [] rfl).2.2.1 rfl rfl, by decide⟩

/-! ### The save-as prompt (C16) -/

theorem reset_quit_frame (c : Char) (s : Session) :
    (reset_quit c s).save_as = s.save_as ∧ (reset_quit c s).rdbuf = s.rdbuf
    ∧ (reset_quit c s).filename = s.filename ∧ (reset_quit c s).ed = s.ed
    ∧ (reset_quit c s).written = s.written := by
  unfold reset_quit
  split <;> exact ⟨rfl, rfl, rfl, rfl, rfl⟩

theorem body_save_as_jump (io_ok : Bool) (c : Char) (s : Session) (rest : List (Option Char))
    (hmode : s.save_as = true) (hesc : c ≠ Char.ofNat 27) :
    process_key_body io_ok (some c :: rest) s
      = (save_as_key io_ok c (reset_quit c s)).map (fun s2 => (.running s2, rest)) := by
  have hm : (reset_quit c s).save_as = true := by rw [(reset_quit_frame c s).1, hmode]
  simp only [process_key_body, readone, if_neg hesc, hm, if_true]

theorem body_save_as_letter (io_ok : Bool) (b : Char) (s : Session) (rest : List (Option Char))
    (hmode : s.save_as = true) (hb : ¬ ('0'.toNat ≤ b.toNat ∧ b.toNat ≤ '9'.toNat)) :
    process_key_body io_ok (some (Char.ofNat 27) :: some '[' :: some b :: rest) s
      = some (.running (reset_quit (Char.ofNat 27) s), rest) := by
  have hm : (reset_quit (Char.ofNat 27) s).save_as = true := by
    rw [(reset_quit_frame _ s).1, hmode]
  simp only [process_key_body, readone, if_true, decode_escape, hm, if_neg hb]
  simp

theorem body_save_as_digit (io_ok : Bool) (d t : Char) (s : Session)
    (rest : List (Option Char)) (hmode : s.save_as = true)
    (hd : '0'.toNat ≤ d.toNat ∧ d.toNat ≤ '9'.toNat) :
    process_key_body io_ok (some (Char.ofNat 27) :: some '[' :: some d :: some t :: rest) s
      = some (.running (reset_quit (Char.ofNat 27) s), rest) := by
  have hm : (reset_quit (Char.ofNat 27) s).save_as = true := by
    rw [(reset_quit_frame _ s).1, hmode]
  simp only [process_key_body, readone, if_true, decode_escape, hm, if_pos hd]
  simp

theorem save_as_key_frame (io_ok : Bool) (c : Char) (s s1 : Session)
    (h : save_as_key io_ok c s = some s1) :
    s1.ed.rows = s.ed.rows ∧ s1.ed.cursor = s.ed.cursor := by
  unfold save_as_key at h
  by_cases hq : c = CTRL 'q'
  · rw [if_pos hq] at h
    simp only [Option.some.injEq] at h
    subst h; exact ⟨rfl, rfl⟩
  · rw [if_neg hq] at h
    simp only at h
    have hs2 : ∀ (s2 : Session), (if (c = '\r' ∨ c = '\n') ∧ s.rdbuf ≠ [] then
          (save io_ok { s with save_as := false, filename := s.rdbuf, rdbuf := [],
                               status_message := status_help }).1
        else s) = s2 → s2.ed.rows = s.ed.rows ∧ s2.ed.cursor = s.ed.cursor := by
      intro s2 hs2
      split at hs2
      · rw [← hs2]
        exact ⟨(save_frame io_ok _).2.2.2.2.2.1, (save_frame io_ok _).2.2.2.2.2.2⟩
      · rw [← hs2]; exact ⟨rfl, rfl⟩
    generalize hg : (if (c = '\r' ∨ c = '\n') ∧ s.rdbuf ≠ [] then
          (save io_ok { s with save_as := false, filename := s.rdbuf, rdbuf := [],
                               status_message := status_help }).1
        else s) = s2 at h
    have hf := hs2 s2 hg
    have hs3 : ∀ s3, (if (c = CTRL 'h' ∨ c = Char.ofNat 127) ∧ s2.rdbuf ≠ [] then
          match str_erase_from s2.status_message (sz_sub s2.status_message.length 1) with
          | none => none
          | some st =>
            match str_erase_from s2.rdbuf (sz_sub s2.rdbuf.length 1) with
            | none => none
            | some rb => some { s2 with status_message := st, rdbuf := rb }
        else some s2) = some s3 → s3.ed = s2.ed := by
      intro s3 h3
      split at h3
      · cases he1 : str_erase_from s2.status_message (sz_sub s2.status_message.length 1) with
        | none => rw [he1] at h3; simp at h3
        | some st =>
          rw [he1] at h3
          cases he2 : str_erase_from s2.rdbuf (sz_sub s2.rdbuf.length 1) with
          | none => rw [he2] at h3; simp at h3
          | some rb =>
            rw [he2] at h3
            simp only [Option.some.injEq] at h3
            rw [← h3]
      · simp only [Option.some.injEq] at h3
        rw [h3]
    generalize hg3 : (if (c = CTRL 'h' ∨ c = Char.ofNat 127) ∧ s2.rdbuf ≠ [] then
          match str_erase_from s2.status_message (sz_sub s2.status_message.length 1) with
          | none => none
          | some st =>
            match str_erase_from s2.rdbuf (sz_sub s2.rdbuf.length 1) with
            | none => none
            | some rb => some { s2 with status_message := st, rdbuf := rb }
        else some s2) = s3o at h
    cases s3o with
    | none => simp at h
    | some s3 =>
      have he := hs3 s3 hg3
      simp only at h
      split at h
      · simp only [Option.some.injEq] at h
        subst h
        simp only [he]
        exact hf
      · simp only [Option.some.injEq] at h
        subst h
        rw [he]
        exact hf

theorem decode_escape_save_as (input rest : List (Option Char)) (d : Decoded)
    (h : decode_escape true input = some (d, rest)) : d = .to_refresh ∨ d = .to_jump := by
  unfold decode_escape at h
  simp only [eq_self_iff_true, if_true] at h
  repeat' split at h
  all_goals first
    | (simp at h; done)
    | (simp only [Option.some.injEq, Prod.mk.injEq] at h
       obtain ⟨h1, _⟩ := h
       first | exact Or.inl h1.symm | exact Or.inr h1.symm)

theorem body_save_as_frame (io_ok : Bool) (s : Session) (input rest1 : List (Option Char))
    (out : Outcome) (hmode : s.save_as = true)
    (h : process_key_body io_ok input s = some (out, rest1)) :
    ∃ s1, out = .running s1 ∧ s1.ed.rows = s.ed.rows ∧ s1.ed.cursor = s.ed.cursor := by
  unfold process_key_body at h
  cases hr : readone input with
  | none => rw [hr] at h; simp at h
  | some p =>
    obtain ⟨⟨c, ok⟩, in1⟩ := p
    rw [hr] at h
    simp only at h
    have hm : (reset_quit c s).save_as = true := by rw [(reset_quit_frame c s).1, hmode]
    have hed : (reset_quit c s).ed = s.ed := (reset_quit_frame c s).2.2.2.1
    rw [hm] at h
    generalize hdec : (if c = Char.ofNat 27 then decode_escape true in1
      else some (Decoded.to_jump, in1)) = dec at h
    have hnot : ∀ op r, dec ≠ some (Decoded.ctrl op, r) := by
      intro op r hc
      rw [hc] at hdec
      split at hdec
      · rcases decode_escape_save_as _ _ _ hdec with h1 | h1 <;> cases h1
      · simp at hdec
    cases dec with
    | none => simp at h
    | some q =>
      obtain ⟨d, in2⟩ := q
      cases d with
      | ctrl op => exact absurd rfl (hnot op in2)
      | to_refresh =>
        simp only [Option.some.injEq, Prod.mk.injEq] at h
        obtain ⟨rfl, _⟩ := h
        exact ⟨_, rfl, by rw [hed], by rw [hed]⟩
      | to_jump =>
        simp only [if_true, Option.map_eq_some', Prod.mk.injEq] at h
        obtain ⟨s2, hk, rfl, _⟩ := h
        obtain ⟨h1, h2⟩ := save_as_key_frame io_ok c _ s2 hk
        exact ⟨_, rfl, by rw [h1, hed], by rw [h2, hed]⟩

theorem not_cntrl_facts (c : Char) (h : iscntrl c = false) :
    c ≠ CTRL 'q' ∧ c ≠ '\r' ∧ c ≠ '\n' ∧ c ≠ CTRL 'h' ∧ c ≠ Char.ofNat 127
      ∧ c ≠ Char.ofNat 27 := by
  refine ⟨?_, ?_, ?_, ?_, ?_, ?_⟩ <;> (intro hc; subst hc; revert h; decide)

theorem save_as_key_cancel (io_ok : Bool) (s : Session) :
    save_as_key io_ok (CTRL 'q') s
      = some { s with rdbuf := [], save_as := false, status_message := status_help } := by
  unfold save_as_key
  rw [if_pos rfl]

theorem save_as_key_commit (io_ok : Bool) (c : Char) (s : Session)
    (hc : c = '\r' ∨ c = '\n') (hbuf : s.rdbuf ≠ []) :
    save_as_key io_ok c s
      = some (save io_ok { s with save_as := false, filename := s.rdbuf, rdbuf := [],
                                  status_message := status_help }).1 := by
  have h1 : c ≠ CTRL 'q' := by rcases hc with h | h <;> (subst h; decide)
  have h2 : ¬ (c = CTRL 'h' ∨ c = Char.ofNat 127) := by
    rcases hc with h | h <;> (subst h; decide)
  have h3 : ¬ (iscntrl c = false ∧ c ≠ Char.ofNat 0) := by
    rcases hc with h | h <;> (subst h; decide)
  unfold save_as_key
  rw [if_neg h1]
  simp only [if_pos (And.intro hc hbuf), h2, false_and, if_false, h3]

theorem save_as_key_empty_commit (io_ok : Bool) (c : Char) (s : Session)
    (hc : c = '\r' ∨ c = '\n') (hbuf : s.rdbuf = []) :
    save_as_key io_ok c s = some s := by
  have h1 : c ≠ CTRL 'q' := by rcases hc with h | h <;> (subst h; decide)
  have h3 : ¬ (iscntrl c = false ∧ c ≠ Char.ofNat 0) := by
    rcases hc with h | h <;> (subst h; decide)
  unfold save_as_key
  rw [if_neg h1]
  simp only [hbuf, ne_eq, not_true_eq_false, and_false, if_false, h3]

theorem save_as_key_backspace (io_ok : Bool) (c : Char) (s : Session)
    (hc : c = CTRL 'h' ∨ c = Char.ofNat 127) (hbuf : s.rdbuf ≠ [])
    (hst : s.status_message ≠ []) :
    save_as_key io_ok c s
      = some { s with status_message := s.status_message.dropLast,
                      rdbuf := s.rdbuf.dropLast } := by
  have h1 : c ≠ CTRL 'q' := by rcases hc with h | h <;> (subst h; decide)
  have h2 : ¬ (c = '\r' ∨ c = '\n') := by rcases hc with h | h <;> (subst h; decide)
  have h3 : ¬ (iscntrl c = false ∧ c ≠ Char.ofNat 0) := by
    rcases hc with h | h <;> (subst h; decide)
  have hl1 : 1 ≤ s.status_message.length := List.length_pos.mpr hst
  have hl2 : 1 ≤ s.rdbuf.length := List.length_pos.mpr hbuf
  unfold save_as_key
  rw [if_neg h1]
  simp only [h2, false_and, if_false, if_pos (And.intro hc hbuf), h3, str_erase_from,
    sz_sub_of_le hl1, sz_sub_of_le hl2, Nat.sub_le, if_true, List.dropLast_eq_take]

theorem save_as_key_printable (io_ok : Bool) (c : Char) (s : Session)
    (hc : iscntrl c = false) (h0 : c ≠ Char.ofNat 0) :
    save_as_key io_ok c s
      = some { s with status_message := s.status_message ++ [c], rdbuf := s.rdbuf ++ [c] } := by
  obtain ⟨h1, h2, h3, h4, h5, _⟩ := not_cntrl_facts c hc
  unfold save_as_key
  rw [if_neg h1]
  simp only [h2, h3, or_self, false_and, if_false, h4, h5, hc, h0, ne_eq, not_false_eq_true,
    and_self, if_true]

/-- C16 (the save-as prompt).  While `save_as` is true, one key processed up to
the label `exit2refresh` never exits and never changes the rows or the cursor.
Writing `s0` for the state after the counter rule at the top of `process_key`
(it keeps mode, accumulator and file name, and is `s` itself unless the quit
counter is 0): Ctrl-Q gives normal mode with the accumulator cleared and the
file name kept; CR or LF with a non-empty accumulator gives normal mode, the
accumulator as file name and an empty accumulator; CR or LF with an empty
accumulator gives `s0`; Ctrl-H or 127 with a non-empty accumulator removes the
last character of the accumulator and of the (non-empty) status line; a byte
that is neither a control code nor 0 is appended to both; and each of the
sequences `ESC [ A|B|C|D|H|F` and `ESC [ 3|5|6|1|7|4|8 ~` gives `s0`. -/
theorem save_as_prompt_step (io_ok : Bool) (s : Session) (rest : List (Option Char))
    (hmode : s.save_as = true) :
    (∀ (input rest1 : List (Option Char)) (out : Outcome),
        process_key_body io_ok input s = some (out, rest1) →
        ∃ s1, out = .running s1 ∧ s1.ed.rows = s.ed.rows ∧ s1.ed.cursor = s.ed.cursor)
    ∧ (∀ c : Char, (reset_quit c s).save_as = s.save_as ∧ (reset_quit c s).rdbuf = s.rdbuf
        ∧ (reset_quit c s).filename = s.filename ∧ (s.quit_times ≠ 0 → reset_quit c s = s))
    ∧ process_key_body io_ok (some (CTRL 'q') :: rest) s
        = some (.running { s with rdbuf := [], save_as := false,
                                  status_message := status_help }, rest)
    ∧ (∀ c : Char, c = '\r' ∨ c = '\n' → s.rdbuf ≠ [] →
        ∃ s1, process_key_body io_ok (some c :: rest) s = some (.running s1, rest)
          ∧ s1.save_as = false ∧ s1.filename = s.rdbuf ∧ s1.rdbuf = []
          ∧ s1.status_message = status_help)
    ∧ (∀ c : Char, c = '\r' ∨ c = '\n' → s.rdbuf = [] →
        process_key_body io_ok (some c :: rest) s = some (.running (reset_quit c s), rest))
    ∧ (∀ c : Char, c = CTRL 'h' ∨ c = Char.ofNat 127 → s.rdbuf ≠ [] →
        (reset_quit c s).status_message ≠ [] →
        process_key_body io_ok (some c :: rest) s
          = some (.running { reset_quit c s with
              status_message := (reset_quit c s).status_message.dropLast,
              rdbuf := s.rdbuf.dropLast }, rest))
    ∧ (∀ c : Char, iscntrl c = false → c ≠ Char.ofNat 0 →
        process_key_body io_ok (some c :: rest) s
          = some (.running { reset_quit c s with
              status_message := (reset_quit c s).status_message ++ [c],
              rdbuf := s.rdbuf ++ [c] }, rest))
    ∧ (∀ b ∈ ['A', 'B', 'C', 'D', 'H', 'F'],
        process_key_body io_ok (some (Char.ofNat 27) :: some '[' :: some b :: rest) s
          = some (.running (reset_quit (Char.ofNat 27) s), rest))
    ∧ (∀ d ∈ ['3', '5', '6', '1', '7', '4', '8'],
        process_key_body io_ok
            (some (Char.ofNat 27) :: some '[' :: some d :: some '~' :: rest) s
          = some (.running (reset_quit (Char.ofNat 27) s), rest)) := by
  refine ⟨fun input rest1 out h => body_save_as_frame io_ok s input rest1 out hmode h,
    ?_, ?_, ?_, ?_, ?_, ?_, ?_, ?_⟩
  · intro c
    refine ⟨(reset_quit_frame c s).1, (reset_quit_frame c s).2.1,
      (reset_quit_frame c s).2.2.1, fun hq => ?_⟩
    unfold reset_quit
    rw [if_neg (fun hh => hq hh.1)]
  · rw [body_save_as_jump io_ok _ s rest hmode ctrl_q_ne_esc, save_as_key_cancel]
    have hr : reset_quit (CTRL 'q') s = s := by
      unfold reset_quit
      rw [if_neg (by simp)]
    rw [hr]
    rfl
  · intro c hc hbuf
    have hesc : c ≠ Char.ofNat 27 := by rcases hc with h | h <;> (subst h; decide)
    have hb0 : (reset_quit c s).rdbuf ≠ [] := by rw [(reset_quit_frame c s).2.1]; exact hbuf
    rw [body_save_as_jump io_ok c s rest hmode hesc, save_as_key_commit io_ok c _ hc hb0]
    refine ⟨_, rfl, ?_, ?_, ?_, ?_⟩
    · rw [(save_frame io_ok _).2.2.1]
    · rw [(save_frame io_ok _).2.2.2.1]; exact (reset_quit_frame c s).2.1
    · rw [(save_frame io_ok _).2.2.2.2.1]
    · rw [(save_frame io_ok _).2.1]
  · intro c hc hbuf
    have hesc : c ≠ Char.ofNat 27 := by rcases hc with h | h <;> (subst h; decide)
    have hb0 : (reset_quit c s).rdbuf = [] := by rw [(reset_quit_frame c s).2.1]; exact hbuf
    rw [body_save_as_jump io_ok c s rest hmode hesc, save_as_key_empty_commit io_ok c _ hc hb0]
    rfl
  · intro c hc hbuf hst
    have hesc : c ≠ Char.ofNat 27 := by rcases hc with h | h <;> (subst h; decide)
    have hb0 : (reset_quit c s).rdbuf ≠ [] := by rw [(reset_quit_frame c s).2.1]; exact hbuf
    rw [body_save_as_jump io_ok c s rest hmode hesc,
      save_as_key_backspace io_ok c _ hc hb0 hst, (reset_quit_frame c s).2.1]
    rfl
  · intro c hc h0
    rw [body_save_as_jump io_ok c s rest hmode (not_cntrl_facts c hc).2.2.2.2.2,
      save_as_key_printable io_ok c _ hc h0, (reset_quit_frame c s).2.1]
    rfl
  · intro b hb
    apply body_save_as_letter io_ok b s rest hmode
    simp only [List.mem_cons, List.mem_singleton, List.not_mem_nil, or_false] at hb
    rcases hb with h | h | h | h | h | h <;> (subst h; decide)
  · intro d hd
    apply body_save_as_digit io_ok d '~' s rest hmode
    simp only [List.mem_cons, List.mem_singleton, List.not_mem_nil, or_false] at hd
    rcases hd with h | h | h | h | h | h | h <;> (subst h; decide)

/-- Witness for C16: in the prompt holding `n`, the key `x` extends the
accumulator and the status line, and Ctrl-Q cancels the prompt. -/
theorem save_as_prompt_step_witness :
    process_key_body true [some 'x'] prompt_session
      = some (.running { prompt_session with
          status_message := save_as_prompt ++ ['n', 'x'], rdbuf := ['n', 'x'] }, [])
    ∧ process_key_body true [some (CTRL 'q')] prompt_session
      = some (.running { prompt_session with rdbuf := [], save_as := false,
                                             status_message := status_help }, []) :=
  ⟨((save_as_prompt_step true prompt_session [] rfl).2.2.2.2.2.2.1 'x' (by decide)
      (by decide)).trans (by decide),
   (save_as_prompt_step true prompt_session [] rfl).2.2.1⟩

/-! ### Cursor validity, row count and the lazy row (C11, C12, C19) -/

/-- C11, the code at the failing inputs.  (1) On 99 empty rows with the valid
cursor (row 1, column 3), `append('\n')` returns a state whose cursor is not
valid: 100 rows, column 3, gutter boundary 4.  (2) On the rows `"a"`, then 99
empty rows, with the valid cursor (row 2, column 4), `handle_ctrl(backspace)`
returns a state whose cursor is not valid: 99 rows, row 1 = `"a"`, column 5,
last valid column 4.  (3) On the same rows with the valid cursor (row 1,
column 5, the end of `"a"`), `handle_ctrl(del)` returns a state whose cursor is
not valid, again column 5 against a last valid column 4. -/
theorem cursor_validity_lost_on_gutter_change :
    cursor_valid (editor_of (List.replicate 99 []) 3 1 false)
    ∧ (append '\n' (editor_of (List.replicate 99 []) 3 1 false)).map
        (fun e1 => (decide (cursor_valid e1), e1.rows.length, e1.cursor.x, max_digits e1.rows + 1))
      = some (false, 100, 3, 4)
    ∧ cursor_valid (editor_of (['a'] :: List.replicate 99 []) 4 2 false)
    ∧ (handle_ctrl .backspace (editor_of (['a'] :: List.replicate 99 []) 4 2 false)).map
        (fun e1 => (decide (cursor_valid e1), e1.rows.length, e1.cursor.x,
          (raw_at e1.rows e1.cursor.y).length + max_digits e1.rows + 1))
      = some (false, 99, 5, 4)
    ∧ cursor_valid (editor_of (['a'] :: List.replicate 99 []) 5 1 false)
    ∧ (handle_ctrl .del (editor_of (['a'] :: List.replicate 99 []) 5 1 false)).map
        (fun e1 => (decide (cursor_valid e1), e1.rows.length, e1.cursor.x,
          (raw_at e1.rows e1.cursor.y).length + max_digits e1.rows + 1))
      = some (false, 99, 5, 4) := by
  refine ⟨by decide, by decide, by decide, by decide, by decide, by decide⟩

/-- C12, the code at the failing input.  For an existing empty file the load
loop of `main` adds no row: the row vector is empty, where the branch for a
missing file calls `rows.emplace_back()`.  The first `refresh()` (cursor at row
1, which is then the virtual row) appends the blank row through `drawscreen`
and sets `modified`. -/
theorem empty_file_loads_no_row :
    (load_file []).map List.length = some 0
    ∧ (load_rows none).length = 1
    ∧ (refresh { rows := [], capacity := 0, cursor := ⟨3, 3, 1⟩, modified := false,
                 row_offset := 0, col_offset := 0, width := 80, height := 23 }).map
        (fun e1 => (e1.rows, e1.modified))
      = some ([([], [])], true) := by
  refine ⟨by decide, by decide, by decide⟩

/-- C19, the code at the failing input.  (1) On a terminal with 23 text rows
(`height = 24`), a document of 23 rows `"a"` and the cursor parked on row 24:
`scroll` sets `row_offset` to 1, and `drawscreen`, which runs its loop 24
times, reads `rows[23]` at loop index 22, before the iteration that appends;
there is no defined result.  (2) The same on a terminal with 2 text rows and
the rows `["a", "b"]`: `rows[2]` is read at loop index 1.  The first loop index
alone is fine and appends nothing; the failure comes with the second.  (3) With
one row less than the viewport (22 rows, cursor on row 23, `row_offset` 0) the
redraw appends exactly one empty row. -/
theorem lazy_row_reads_past_end :
    cursor_valid (editor_of (List.replicate 23 ['a']) 3 24 false)
    ∧ (scroll (editor_of (List.replicate 23 ['a']) 3 24 false)).map
        (fun e1 => (e1.row_offset, drawscreen e1)) = some (1, none)
    ∧ refresh (editor_of (List.replicate 23 ['a']) 3 24 false) = none
    ∧ refresh { (editor_of [['a'], ['b']] 3 3 false) with height := 3 } = none
    ∧ drawscreenLoop 3 1 1 0 (editor_of [['a'], ['b']] 3 3 false).rows 2 false
      = some ((editor_of [['a'], ['b']] 3 3 false).rows, 2, false)
    ∧ drawscreenLoop 3 1 2 0 (editor_of [['a'], ['b']] 3 3 false).rows 2 false = none
    ∧ (refresh (editor_of (List.replicate 22 ['a']) 3 23 false)).map
        (fun e1 => (e1.rows.length, e1.rows.getLast?, e1.modified, e1.cursor.y))
      = some (23, some ([], []), true, 23) := by
  refine ⟨by decide, by decide, by decide, by decide, by decide, by decide, by decide⟩

/-! ### Supporting facts: the row count under edits -/

theorem insert_length {e e1 : Editor} {idx pos : Nat} {c : Char}
    (h : insert e idx pos c = some e1) : e1.rows.length = e.rows.length := by
  unfold insert at h
  split at h
  · simp at h
  · split at h
    · simp at h
    · simp only [Option.some.injEq] at h
      subst h
      simp

theorem vec_emplace_length {rows rows1 : List row_t} {i : Nat} {v : row_t}
    (h : vec_emplace rows i v = some rows1) : rows1.length = rows.length + 1 := by
  unfold vec_emplace at h
  split at h
  · simp only [Option.some.injEq] at h
    subst h
    simp only [List.length_append, List.length_take, List.length_cons, List.length_drop]
    omega
  · simp at h

theorem append_newline_rows_length {e : Editor} {g : Nat} {rows1 : List row_t} {cap1 : Nat}
    (h : append_newline_rows e g = some (rows1, cap1)) :
    e.rows.length ≤ rows1.length ∧ rows1.length ≤ e.rows.length + 1 := by
  unfold append_newline_rows at h
  split at h
  · split at h
    · simp at h
    · rename_i hemp
      simp only [Option.some.injEq, Prod.mk.injEq] at h
      have := vec_emplace_length hemp
      rw [← h.1]
      omega
  · split at h
    · simp at h
    · simp only [Option.some.injEq, Prod.mk.injEq] at h
      rw [← h.1]; omega
    · split at h
      · simp at h
      · split at h
        · simp at h
        · split at h
          · simp at h
          · rename_i hemp
            split at h
            · split at h
              · simp at h
              · simp only [Option.some.injEq, Prod.mk.injEq] at h
                rw [← h.1]
                have := vec_emplace_length hemp
                simp only [List.length_set]
                omega
            · simp at h

theorem append_length {e e1 : Editor} {c : Char} (h : append c e = some e1) :
    e.rows.length ≤ e1.rows.length ∧ e1.rows.length ≤ e.rows.length + 1 := by
  unfold append at h
  simp only at h
  split at h
  · split at h
    · simp at h
    · rename_i rows1 cap1 hr
      simp only [Option.some.injEq] at h
      subst h
      exact append_newline_rows_length hr
  · split at h
    · simp at h
    · rename_i e2 hi
      simp only [Option.some.injEq] at h
      subst h
      have := insert_length hi
      simp only
      omega

theorem sz_sub_two_ne_one (y : Nat) : sz_sub y 2 ≠ sz_sub y 1 := by
  unfold sz_sub
  simp only [size_mod_val]
  split_ifs <;> omega

theorem deletec_length {e e1 : Editor} (h : deletec e = some e1)
    (hn : 1 ≤ e.rows.length) :
    1 ≤ e1.rows.length ∧ e1.rows.length ≤ e.rows.length := by
  unfold deletec at h
  simp only at h
  split at h
  · simp only [Option.some.injEq] at h
    subst h; omega
  · split at h
    · split at h
      · simp at h
      · split at h
        · simp at h
        · simp only [Option.some.injEq] at h
          subst h
          simp only [List.length_set]
          omega
    · split at h
      · simp at h
      · rename_i prev hprev
        split at h
        · simp at h
        · rename_i cur hcur
          split at h
          · simp at h
          · rename_i e2 ha
            simp only [Option.some.injEq] at h
            subst h
            -- two different indices are inside the vector, so it has two rows
            have h1 : sz_sub e.cursor.y 2 < e.rows.length := by
              rcases Nat.lt_or_ge (sz_sub e.cursor.y 2) e.rows.length with hl | hl
              · exact hl
              · rw [List.getElem?_eq_none hl] at hprev; simp at hprev
            have h2 : sz_sub e.cursor.y 1 < e.rows.length := by
              rcases Nat.lt_or_ge (sz_sub e.cursor.y 1) e.rows.length with hl | hl
              · exact hl
              · rw [List.getElem?_eq_none hl] at hcur; simp at hcur
            have hne := sz_sub_two_ne_one e.cursor.y
            have hlen2 : e2.rows.length = e.rows.length := by
              unfold append_str at ha
              rw [hprev] at ha
              simp only [Option.some.injEq] at ha
              subst ha
              simp
            unfold deleter
            simp only
            split
            · omega
            · rw [List.length_eraseIdx]
              split <;> omega

theorem handle_switch_rows {op : operation} {g : Nat} {e e1 : Editor}
    (hop : op ≠ .backspace) (h : handle_switch op g e = some e1) : e1.rows = e.rows := by
  unfold handle_switch at h
  cases op <;> simp only at h
  case backspace => exact absurd rfl hop
  all_goals
    repeat' split at h
    all_goals first
      | (simp only [Option.some.injEq] at h; subst h; rfl)
      | (simp at h)

theorem handle_ctrl_length {op : operation} {e e1 : Editor} (h : handle_ctrl op e = some e1)
    (hn : 1 ≤ e.rows.length) :
    1 ≤ e1.rows.length ∧ e1.rows.length ≤ e.rows.length := by
  have hplain : ∀ (op : operation) (e2 : Editor), handle_ctrl_plain op e = some e2 →
      1 ≤ e2.rows.length ∧ e2.rows.length ≤ e.rows.length := by
    intro op e2 h2
    unfold handle_ctrl_plain at h2
    simp only [Option.map_eq_some'] at h2
    obtain ⟨e3, h3, rfl⟩ := h2
    rw [clamp_x_rows]
    by_cases hop : op = .backspace
    · subst hop
      exact deletec_length h3 hn
    · rw [handle_switch_rows hop h3]; omega
  unfold handle_ctrl at h
  cases op
  case del =>
    simp only at h
    split at h
    · simp at h
    · simp only [Option.some.injEq] at h
      subst h; rw [clamp_x_rows]; omega
    · split at h
      · simp at h
      · rename_i e2 h2
        split at h
        · simp at h
        · rename_i e3 h3
          simp only [Option.some.injEq] at h
          subst h
          rw [clamp_x_rows]
          have ha := hplain _ _ h2
          have hb := deletec_length h3 ha.1
          omega
  all_goals exact hplain _ _ h

/-- The part of C12 that holds.  The document built when no file is given has
one row, the one built from a non-empty file has at least one, and `append(c)`
(character or newline), `handle_ctrl(backspace)` and `handle_ctrl(del)` return
a document with at least one row whenever they start from one. -/
theorem edits_keep_a_row :
    (load_rows none).length = 1
    ∧ (∀ t : List Char, t ≠ [] → ∃ rows, load_file t = some rows ∧ 1 ≤ rows.length)
    ∧ (∀ (e e1 : Editor) (c : Char), 1 ≤ e.rows.length → append c e = some e1 →
        1 ≤ e1.rows.length)
    ∧ (∀ (e e1 : Editor) (op : operation), 1 ≤ e.rows.length → handle_ctrl op e = some e1 →
        1 ≤ e1.rows.length) := by
  refine ⟨rfl, ?_, ?_, ?_⟩
  · intro t ht
    obtain ⟨R, hR, _, hne, _, _⟩ := load_loop_eq t.length t [] (t.length + 1) (le_refl _)
      (Nat.lt_succ_self _)
    refine ⟨R, by simpa [load_file] using hR, ?_⟩
    exact List.length_pos.mpr (hne ht)
  · intro e e1 c hn h
    have := append_length h
    omega
  · intro e e1 op hn h
    exact (handle_ctrl_length h hn).1

/-! ### Supporting facts: the lazy row on a short document -/

theorem drawscreenLoop_short (rows : List row_t) (cap : Nat) (m : Bool) (hn : 1 ≤ rows.length)
    (hlast : raw_at rows rows.length ≠ []) :
    ∀ (k i : Nat), i + (k + 1) = rows.length + 1 →
      drawscreenLoop (rows.length + 1) 0 (k + 1) i rows cap m
        = some (rows ++ [([], [])], vec_grow rows.length cap, true) := by
  have hlt : rows.length - 1 < rows.length := by omega
  have hraw : raw_at rows rows.length = (rows[rows.length - 1]).1 := by
    unfold raw_at
    rw [List.getElem?_eq_getElem hlt]; rfl
  intro k
  induction k with
  | zero =>
    intro i hi
    have hi2 : i = rows.length := by omega
    subst hi2
    have hempty : (rows[rows.length - 1]).1.isEmpty = false := by
      rw [← hraw]
      cases hr : raw_at rows rows.length with
      | nil => exact absurd hr hlast
      | cons a b => rfl
    have hget : (rows ++ [(([], []) : row_t)])[rows.length]? = some ([], []) := by
      rw [List.getElem?_append_right (le_refl _)]
      simp
    simp only [drawscreenLoop, Nat.add_zero, sz_sub_of_le (show 1 ≤ rows.length + 1 by omega),
      Nat.add_sub_cancel, le_refl, and_self, if_true, sz_sub_of_le hn,
      List.getElem?_eq_getElem hlt, hempty, hget]
    rw [if_pos (by omega)]
    simp
  | succ k ih =>
    intro i hi
    have hilt : i < rows.length := by omega
    rw [drawscreenLoop]
    simp only [Nat.add_zero, sz_sub_of_le (show 1 ≤ rows.length + 1 by omega),
      Nat.add_sub_cancel, List.getElem?_eq_getElem hilt]
    rw [if_neg (by omega)]
    exact ih (i + 1) (by omega)

theorem scroll_row_offset_zero (y height : Nat) (hy : 1 ≤ y) (hH : y ≤ height - 1)
    (hfit : y + height < size_mod) : scroll_row_offset y 0 height = 0 := by
  rw [size_mod_val] at hfit
  unfold scroll_row_offset sz_add sz_sub
  simp only [size_mod_val]
  split_ifs <;> omega

/-- The lazy row on a short document.  When the cursor is valid and parked on
row `row_count + 1`, the last real row is non-empty, nothing is scrolled
(`row_offset = 0`) and the document with its virtual row fits the text rows of
the terminal (`row_count + 1 ≤ height - 1`), one `refresh` returns, appends
exactly one empty row, sets `modified`, keeps the cursor where it was, and the
cursor then stands on that new row. -/
theorem lazy_row_short_document (e : Editor) (hv : cursor_valid e)
    (hn : 1 ≤ e.rows.length) (hy : e.cursor.y = e.rows.length + 1)
    (hlast : raw_at e.rows e.rows.length ≠ []) (hro : e.row_offset = 0)
    (hH : e.rows.length + 1 ≤ e.height - 1) (hfit : scroll_fits e) :
    ∃ e1, refresh e = some e1
      ∧ e1.rows = e.rows ++ [([], [])] ∧ e1.modified = true
      ∧ e1.cursor.x = e.cursor.x ∧ e1.cursor.y = e.cursor.y
      ∧ e1.cursor.y ≤ e1.rows.length
      ∧ e1.rows[e1.cursor.y - 1]? = some ([], []) := by
  have hro2 : scroll_row_offset e.cursor.y e.row_offset e.height = 0 := by
    rw [hro]
    exact scroll_row_offset_zero _ _ hv.1 (by omega) hfit.1
  have htop : min (sz_sub e.height 1) e.rows.length = e.rows.length := by
    rw [sz_sub_of_le (by omega)]
    exact Nat.min_eq_right (by omega)
  have hloop := drawscreenLoop_short e.rows e.capacity e.modified hn hlast e.rows.length 0
    (by omega)
  rw [hy] at hro2
  unfold refresh
  rw [scroll_eq e hv]
  simp only [drawscreen, htop, hy, if_true, hro2, hloop]
  refine ⟨_, rfl, rfl, rfl, rfl, rfl, ?_, ?_⟩
  · simp
  · simp only [Nat.add_sub_cancel]
    rw [List.getElem?_append_right (le_refl _)]
    simp

/-! ### Supporting facts: where cursor validity is kept -/

theorem c_str_length_le (s : List Char) : (c_str s).length ≤ s.length := by
  unfold c_str
  exact (List.takeWhile_sublist _).length_le

theorem update_row_length_le (e : Editor) :
    ((update_row e).getD []).length ≤ (raw_at e.rows e.cursor.y).length
      ∨ e.cursor.y = 0 := by
  rcases Nat.eq_zero_or_pos e.cursor.y with h0 | hpos
  · exact Or.inr h0
  · left
    unfold update_row raw_at
    rw [sz_sub_of_le hpos]
    split
    · rename_i hlt
      rw [List.getElem?_eq_getElem hlt]
      simp only [Option.map_some', Option.getD_some]
      exact c_str_length_le _
    · simp

theorem clamp_x_valid (g : Nat) (e : Editor) (hg : g = max_digits e.rows)
    (hy1 : 1 ≤ e.cursor.y) (hy2 : e.cursor.y ≤ e.rows.length + 1) (hx : g + 1 ≤ e.cursor.x) :
    cursor_valid (clamp_x g e) := by
  subst hg
  have hlen : ((update_row e).getD []).length ≤ (raw_at e.rows e.cursor.y).length := by
    rcases update_row_length_le e with h | h
    · exact h
    · omega
  unfold clamp_x
  simp only
  split
  · refine ⟨hy1, hy2, ?_, ?_⟩
    · simp only; omega
    · simp only; omega
  · exact ⟨hy1, hy2, hx, by omega⟩

theorem update_row_some_iff (e : Editor) (hy1 : 1 ≤ e.cursor.y) :
    (∃ r, update_row e = some r) ↔ e.cursor.y ≤ e.rows.length := by
  unfold update_row
  rw [sz_sub_of_le hy1]
  constructor
  · rintro ⟨r, hr⟩
    split at hr
    · omega
    · simp at hr
  · intro h
    have hlt : e.cursor.y - 1 < e.rows.length := by omega
    rw [if_pos hlt, List.getElem?_eq_getElem hlt]
    exact ⟨_, rfl⟩

/-- The six plain cursor moves keep the cursor valid.  For every valid cursor,
`handle_ctrl` of up, down, left, right, home or end returns, leaves the rows
alone, and the cursor is valid afterwards. -/
theorem moves_keep_cursor_valid (e : Editor) (hv : cursor_valid e) (op : operation)
    (hop : op = .up ∨ op = .down ∨ op = .left ∨ op = .right ∨ op = .home ∨ op = .end_) :
    ∃ e1, handle_ctrl op e = some e1 ∧ e1.rows = e.rows ∧ cursor_valid e1 := by
  obtain ⟨h1, h2, h3, h4⟩ := hv
  have hplain : handle_ctrl op e = handle_ctrl_plain op e := by
    rcases hop with h | h | h | h | h | h <;> (subst h; rfl)
  rw [hplain]
  unfold handle_ctrl_plain
  simp only
  -- the switch returns a state with the same rows, a row in range and a column at or
  -- right of the gutter boundary
  have hsw : ∃ e2, handle_switch op (max_digits e.rows) e = some e2 ∧ e2.rows = e.rows
      ∧ 1 ≤ e2.cursor.y ∧ e2.cursor.y ≤ e.rows.length + 1
      ∧ max_digits e.rows + 1 ≤ e2.cursor.x := by
    rcases hop with h | h | h | h | h | h <;> subst h
    · -- up
      unfold handle_switch
      simp only
      split
      · refine ⟨_, rfl, rfl, ?_, ?_, h3⟩
        · simp only; rw [sz_sub_of_le h1]; omega
        · simp only; rw [sz_sub_of_le h1]; omega
      · exact ⟨_, rfl, rfl, h1, h2, h3⟩
    · -- down
      unfold handle_switch
      simp only
      cases hu : update_row e with
      | none => exact ⟨_, rfl, rfl, h1, h2, h3⟩
      | some r =>
        have hy := (update_row_some_iff e h1).mp ⟨r, hu⟩
        simp only
        split
        · refine ⟨_, rfl, rfl, ?_, ?_, h3⟩
          · simp only; omega
          · simp only; omega
        · exact ⟨_, rfl, rfl, h1, h2, h3⟩
    · -- left
      unfold handle_switch
      simp only
      split
      · refine ⟨_, rfl, rfl, h1, h2, ?_⟩
        simp only; rw [sz_sub_of_le (by omega)]; omega
      · split
        · have hy2 : 2 ≤ e.cursor.y := by omega
          have hlt : e.cursor.y - 1 - 1 < e.rows.length := by omega
          simp only [sz_sub_of_le h1,
            sz_sub_of_le (show 1 ≤ e.cursor.y - 1 by omega), List.getElem?_eq_getElem hlt]
          refine ⟨_, rfl, rfl, ?_, ?_, ?_⟩
          · simp only; omega
          · simp only; omega
          · simp only; omega
        · exact ⟨_, rfl, rfl, h1, h2, h3⟩
    · -- right
      unfold handle_switch
      simp only
      cases hu : update_row e with
      | none => exact ⟨_, rfl, rfl, h1, h2, h3⟩
      | some r =>
        have hy := (update_row_some_iff e h1).mp ⟨r, hu⟩
        simp only
        split
        · refine ⟨_, rfl, rfl, h1, h2, ?_⟩
          simp only; omega
        · split
          · refine ⟨_, rfl, rfl, ?_, ?_, ?_⟩
            · simp only; omega
            · simp only; omega
            · simp only; omega
          · exact ⟨_, rfl, rfl, h1, h2, h3⟩
    · -- home
      unfold handle_switch
      simp only
      exact ⟨_, rfl, rfl, h1, h2, le_refl _⟩
    · -- end
      unfold handle_switch
      simp only
      cases hu : update_row e with
      | none => exact ⟨_, rfl, rfl, h1, h2, h3⟩
      | some r =>
        simp only
        refine ⟨_, rfl, rfl, h1, h2, ?_⟩
        simp only; omega
  obtain ⟨e2, hs, hrows, hy1, hy2, hx⟩ := hsw
  rw [hs]
  refine ⟨_, rfl, ?_, ?_⟩
  · rw [clamp_x_rows, hrows]
  · exact clamp_x_valid _ _ (by rw [hrows]) hy1 (by rw [hrows]; exact hy2) hx

theorem pg_up_loop_bounds : ∀ (k y : Nat), 1 ≤ y →
    1 ≤ pg_up_loop k y ∧ pg_up_loop k y ≤ y := by
  intro k
  induction k with
  | zero => intro y hy; simp [pg_up_loop, hy]
  | succ k ih =>
    intro y hy
    rw [pg_up_loop]
    split
    · have h2 : 2 ≤ y := by omega
      rw [sz_sub_of_le hy]
      have := ih (y - 1) (by omega)
      omega
    · omega

theorem pg_down_loop_bounds : ∀ (k : Nat) (e : Editor), 1 ≤ e.cursor.y →
    e.cursor.y ≤ e.rows.length + 1 →
    e.cursor.y ≤ pg_down_loop k e ∧ pg_down_loop k e ≤ e.rows.length + 1 := by
  intro k
  induction k with
  | zero => intro e h1 h2; simp [pg_down_loop, h2]
  | succ k ih =>
    intro e h1 h2
    rw [pg_down_loop]
    cases hu : update_row e with
    | none => simp only; omega
    | some r =>
      have hy := (update_row_some_iff e h1).mp ⟨r, hu⟩
      simp only
      split
      · have := ih { e with cursor := { e.cursor with y := e.cursor.y + 1 } }
          (by simp only; omega) (by simp only; omega)
        simp only at this
        omega
      · omega

/-- Page up and page down keep the cursor valid in the states `scroll` leaves
behind.  For every valid cursor: when `row_offset ≤ row_count`,
`handle_ctrl(pg_up)` returns with the rows unchanged and a valid cursor; when
there is at least one row, `row_offset + height ≥ 2` and that sum fits a
`size_t`, so does `handle_ctrl(pg_down)`. -/
theorem pages_keep_cursor_valid (e : Editor) (hv : cursor_valid e) :
    (e.row_offset ≤ e.rows.length →
      ∃ e1, handle_ctrl .pg_up e = some e1 ∧ e1.rows = e.rows ∧ cursor_valid e1)
    ∧ (1 ≤ e.rows.length → 2 ≤ e.row_offset + e.height →
        e.row_offset + e.height < size_mod →
        ∃ e1, handle_ctrl .pg_down e = some e1 ∧ e1.rows = e.rows ∧ cursor_valid e1) := by
  obtain ⟨h1, h2, h3, h4⟩ := hv
  constructor
  · intro hro
    have hb := pg_up_loop_bounds (sz_sub e.height 1) (e.row_offset + 1) (by omega)
    refine ⟨_, rfl, ?_, ?_⟩
    · rw [clamp_x_rows]
    · apply clamp_x_valid _ _ rfl
      · simp only; omega
      · simp only; omega
      · exact h3
  · intro hn hsum hfit
    have hy0 : sz_sub (sz_add e.row_offset e.height) 1 = e.row_offset + e.height - 1 := by
      unfold sz_add
      rw [Nat.mod_eq_of_lt hfit, sz_sub_of_le (by omega)]
    have hb := pg_down_loop_bounds (sz_sub e.height 1)
      { e with cursor := { e.cursor with
          y := min (sz_sub (sz_add e.row_offset e.height) 1) e.rows.length } }
      (by simp only; rw [hy0]; omega) (by simp only; rw [hy0]; omega)
    simp only at hb
    refine ⟨_, rfl, ?_, ?_⟩
    · rw [clamp_x_rows]
    · apply clamp_x_valid _ _ rfl
      · simp only
        rw [hy0] at hb ⊢
        omega
      · simp only; omega
      · exact h3

theorem raw_at_set_self (rows : List row_t) (y : Nat) (v : row_t) (hlt : y - 1 < rows.length) :
    raw_at (rows.set (y - 1) v) y = v.1 := by
  unfold raw_at
  rw [List.getElem?_set_self hlt]
  rfl

theorem max_digits_of_length {rows rows1 : List row_t} (h : rows1.length = rows.length) :
    max_digits rows1 = max_digits rows := by
  unfold max_digits
  rw [h]

theorem insert_char_keeps_valid (e : Editor) (h : cursor_on_row e) (c : Char)
    (hc : c ≠ '\n') :
    ∃ e1, append c e = some e1 ∧ cursor_valid e1 ∧ e1.cursor.y = e.cursor.y
      ∧ e1.cursor.x = e.cursor.x + 1 ∧ e1.modified = true
      ∧ e1.rows = e.rows.set (e.cursor.y - 1)
          ((raw_at e.rows e.cursor.y).take (e.cursor.x - (max_digits e.rows + 1))
              ++ c :: (raw_at e.rows e.cursor.y).drop (e.cursor.x - (max_digits e.rows + 1)),
           getrline ((raw_at e.rows e.cursor.y).take (e.cursor.x - (max_digits e.rows + 1))
              ++ c :: (raw_at e.rows e.cursor.y).drop
                  (e.cursor.x - (max_digits e.rows + 1)))) := by
  obtain ⟨hs, hlt, row, hrow, hraw⟩ := cursor_on_row_get h
  obtain ⟨h1, h2, h3, h4⟩ := h
  have hpos : e.cursor.x - (max_digits e.rows + 1) ≤ row.1.length := by rw [hraw]; omega
  unfold append
  simp only [if_neg hc, hs, sz_sub_of_le h3, insert, hrow, str_insert, if_pos hpos]
  refine ⟨_, rfl, ?_, rfl, rfl, rfl, by rw [hraw]⟩
  have hg : max_digits (e.rows.set (e.cursor.y - 1)
      (List.take (e.cursor.x - (max_digits e.rows + 1)) row.1
          ++ c :: List.drop (e.cursor.x - (max_digits e.rows + 1)) row.1,
        getrline (List.take (e.cursor.x - (max_digits e.rows + 1)) row.1
          ++ c :: List.drop (e.cursor.x - (max_digits e.rows + 1)) row.1)))
      = max_digits e.rows := max_digits_of_length (by simp)
  refine ⟨h1, ?_, ?_, ?_⟩
  · simp only [List.length_set]; omega
  · simp only [hg]; omega
  · simp only [hg, raw_at_set_self _ _ _ hlt, List.length_append, List.length_take,
      List.length_cons, List.length_drop]
    omega

theorem cursor_valid_cases (e : Editor) (hv : cursor_valid e) :
    cursor_on_row e
      ∨ (e.cursor.y = e.rows.length + 1 ∧ e.cursor.x = max_digits e.rows + 1) := by
  obtain ⟨h1, h2, h3, h4⟩ := hv
  rcases Nat.lt_or_ge e.rows.length e.cursor.y with hy | hy
  · right
    have hy2 : e.cursor.y = e.rows.length + 1 := by omega
    rw [hy2, raw_at_virtual] at h4
    simp only [List.length_nil] at h4
    exact ⟨hy2, by omega⟩
  · exact Or.inl ⟨h1, hy, h3, h4⟩

theorem raw_at_merge (rows : List row_t) (y : Nat) (v : row_t) (hy : 2 ≤ y)
    (hlt : y - 2 < rows.length) :
    raw_at ((rows.set (y - 2) v).eraseIdx (y - 1)) (y - 1) = v.1 := by
  unfold raw_at
  have h2 : y - 1 - 1 = y - 2 := by omega
  rw [h2, List.getElem?_eraseIdx_of_lt _ _ _ (by omega), List.getElem?_set_self hlt]
  rfl

theorem deletec_valid_core (e : Editor) (hv : cursor_valid e) :
    ∃ e1, deletec e = some e1
      ∧ 1 ≤ e1.cursor.y ∧ e1.cursor.y ≤ e1.rows.length + 1
      ∧ max_digits e.rows + 1 ≤ e1.cursor.x
      ∧ e1.cursor.x ≤ (raw_at e1.rows e1.cursor.y).length + max_digits e.rows + 1 := by
  rcases cursor_valid_cases e hv with hrow | ⟨hy, hx⟩
  · obtain ⟨hs, hlt, row, hrowget, hraw⟩ := cursor_on_row_get hrow
    have hrow2 := hrow
    obtain ⟨h1, h2, h3, h4⟩ := hrow
    rcases Nat.lt_or_ge (max_digits e.rows + 1) e.cursor.x with hgt | hle
    · -- a character is removed
      rw [deletec_removes_char e hrow2 hgt]
      refine ⟨_, rfl, h1, ?_, ?_, ?_⟩
      · simp only [List.length_set]; omega
      · simp only; omega
      · simp only [raw_at_set_self _ _ _ hlt, List.length_append, List.length_take,
          List.length_drop]
        omega
    · have hx : e.cursor.x = max_digits e.rows + 1 := by omega
      rcases Nat.lt_or_ge 1 e.cursor.y with hy2 | hy1
      · -- the row is merged into the previous one
        rw [deletec_merges_rows e hrow2 hx hy2]
        have hlt2 : e.cursor.y - 2 < e.rows.length := by omega
        refine ⟨_, rfl, ?_, ?_, ?_, ?_⟩
        · simp only; omega
        · simp only [List.length_eraseIdx, List.length_set]
          split <;> omega
        · simp only; omega
        · simp only [raw_at_merge _ _ _ (show 2 ≤ e.cursor.y by omega) hlt2,
            List.length_append]
          omega
      · -- top left corner: nothing happens
        have hy : e.cursor.y = 1 := by omega
        have hd : deletec e = some e := by
          unfold deletec
          simp only
          rw [if_pos (Or.inr ⟨hx, hy⟩)]
        exact ⟨e, hd, h1, by omega, h3, h4⟩
  · -- virtual row: nothing happens
    have hd : deletec e = some e := by
      unfold deletec
      simp only
      rw [if_pos (Or.inl (by rw [hy, sz_sub_of_le (by omega)]; omega))]
    exact ⟨e, hd, hv.1, hv.2.1, hv.2.2.1, hv.2.2.2⟩

theorem newline_valid_core (e : Editor) (hv : cursor_valid e)
    (hroom : e.cursor.x ≠ max_digits e.rows + 1 →
      ¬ (e.cursor.y = e.rows.length
        ∧ e.cursor.x = (raw_at e.rows e.cursor.y).length + (max_digits e.rows + 1)) →
      e.rows.length < e.capacity) :
    ∃ e1, append '\n' e = some e1
      ∧ e1.cursor.y = e.cursor.y + 1 ∧ e1.cursor.x = max_digits e.rows + 1
      ∧ e1.cursor.y ≤ e1.rows.length + 1 := by
  rw [append_newline_eq]
  rcases cursor_valid_cases e hv with hrow | ⟨hy, hx⟩
  · obtain ⟨⟨rows1, cap1⟩, hr⟩ := newline_rows_some e hrow hroom
    rw [hr]
    have hl := (append_newline_rows_length hr).1
    refine ⟨_, rfl, rfl, rfl, ?_⟩
    simp only
    have := hrow.2.1
    omega
  · have hr : append_newline_rows e (max_digits e.rows)
        = some (e.rows.take e.rows.length ++ ([], []) :: e.rows.drop e.rows.length,
            vec_grow e.rows.length e.capacity) := by
      unfold append_newline_rows vec_emplace
      rw [if_pos hx, hy, sz_sub_of_le (by omega), Nat.add_sub_cancel, if_pos (le_refl _)]
    rw [hr]
    refine ⟨_, rfl, rfl, rfl, ?_⟩
    simp only [List.take_length, List.drop_length, List.length_append, List.length_cons,
      List.length_nil]
    omega

/-- Where the edits keep the cursor valid.  For every valid cursor:
`append(c)` for a character `c` on a real row returns with a valid cursor; and
`append('\n')` (with room in the storage of `rows` when the row has to be
split), `handle_ctrl(backspace)` and `handle_ctrl(del)` return, with a valid
cursor whenever the gutter width of the resulting document is the gutter width
of the document they started from. -/
theorem edits_keep_cursor_valid (e : Editor) (hv : cursor_valid e) :
    (∀ c : Char, c ≠ '\n' → e.cursor.y ≤ e.rows.length →
      ∃ e1, append c e = some e1 ∧ cursor_valid e1)
    ∧ ((e.cursor.x ≠ max_digits e.rows + 1 →
        ¬ (e.cursor.y = e.rows.length
          ∧ e.cursor.x = (raw_at e.rows e.cursor.y).length + (max_digits e.rows + 1)) →
        e.rows.length < e.capacity) →
      ∃ e1, append '\n' e = some e1
        ∧ (max_digits e1.rows = max_digits e.rows → cursor_valid e1))
    ∧ (∃ e1, handle_ctrl .backspace e = some e1
        ∧ (max_digits e1.rows = max_digits e.rows → cursor_valid e1))
    ∧ (∃ e1, handle_ctrl .del e = some e1
        ∧ (max_digits e1.rows = max_digits e.rows → cursor_valid e1)) := by
  refine ⟨?_, ?_, ?_, ?_⟩
  · intro c hc hy
    obtain ⟨e1, h1, h2, _⟩ := insert_char_keeps_valid e ⟨hv.1, hy, hv.2.2.1, hv.2.2.2⟩ c hc
    exact ⟨e1, h1, h2⟩
  · intro hroom
    obtain ⟨e1, h1, hy, hx, hle⟩ := newline_valid_core e hv hroom
    refine ⟨e1, h1, fun hg => ⟨by omega, hle, by omega, by omega⟩⟩
  · obtain ⟨e1, h1, hy1, hy2, hx1, hx2⟩ := deletec_valid_core e hv
    refine ⟨clamp_x (max_digits e.rows) e1, ?_, fun hg => ?_⟩
    · simp only [handle_ctrl, handle_ctrl_plain, handle_switch, h1, Option.map_some']
    · rw [clamp_x_rows] at hg
      exact clamp_x_valid _ _ hg.symm hy1 hy2 hx1
  · -- forward delete: the guard, then right, deletec and the final cut
    have hguard : ∃ b, del_guard e (max_digits e.rows) = some b := by
      unfold del_guard
      by_cases hy : e.cursor.y = e.rows.length
      · rw [if_neg (by simpa using hy)]
        obtain ⟨r, hr⟩ := (update_row_some_iff e hv.1).mpr (by omega)
        rw [hr]
        exact ⟨_, rfl⟩
      · rw [if_pos hy]
        exact ⟨_, rfl⟩
    obtain ⟨b, hb⟩ := hguard
    cases b with
    | false =>
      refine ⟨clamp_x (max_digits e.rows) e, ?_, fun _ => ?_⟩
      · simp only [handle_ctrl, hb]
      · exact clamp_x_valid _ _ rfl hv.1 hv.2.1 hv.2.2.1
    | true =>
      obtain ⟨er, hr, hrows, hvr⟩ := moves_keep_cursor_valid e hv .right
        (Or.inr (Or.inr (Or.inr (Or.inl rfl))))
      have hr2 : handle_ctrl_plain .right e = some er := hr
      obtain ⟨e2, h2, hy1, hy2, hx1, hx2⟩ := deletec_valid_core er hvr
      rw [hrows] at hx1
      refine ⟨clamp_x (max_digits e.rows) e2, ?_, fun hg => ?_⟩
      · simp only [handle_ctrl, hb, hr2, h2]
      · rw [clamp_x_rows] at hg
        exact clamp_x_valid _ _ hg.symm hy1 hy2 hx1

/-! ### Supporting facts: the storage of `rows` -/

theorem vec_grow_gt (size capacity : Nat) : size < vec_grow size capacity := by
  unfold vec_grow
  split <;> omega

theorem load_capacity_ge (n : Nat) : n ≤ load_capacity n := by
  cases n with
  | zero => exact Nat.zero_le _
  | succ k =>
    have := vec_grow_gt k (load_capacity k)
    simp only [load_capacity]
    omega

theorem append_newline_rows_store {e : Editor} {g : Nat} {rows1 : List row_t} {cap1 : Nat}
    (hinv : e.rows.length ≤ e.capacity)
    (h : append_newline_rows e g = some (rows1, cap1)) : rows1.length ≤ cap1 := by
  have hg := vec_grow_gt e.rows.length e.capacity
  unfold append_newline_rows at h
  split at h
  · split at h
    · simp at h
    · rename_i hemp
      simp only [Option.some.injEq, Prod.mk.injEq] at h
      have := vec_emplace_length hemp
      rw [← h.1, ← h.2]
      omega
  · split at h
    · simp at h
    · simp only [Option.some.injEq, Prod.mk.injEq] at h
      rw [← h.1, ← h.2]; exact hinv
    · split at h
      · simp at h
      · split at h
        · simp at h
        · split at h
          · simp at h
          · rename_i hemp
            split at h
            · split at h
              · simp at h
              · simp only [Option.some.injEq, Prod.mk.injEq] at h
                rw [← h.1, ← h.2]
                have := vec_emplace_length hemp
                simp only [List.length_set]
                omega
            · simp at h

theorem insert_capacity {e e1 : Editor} {idx pos : Nat} {c : Char}
    (h : insert e idx pos c = some e1) : e1.capacity = e.capacity := by
  unfold insert at h
  split at h
  · simp at h
  · split at h
    · simp at h
    · simp only [Option.some.injEq] at h
      subst h
      rfl

theorem append_store {e e1 : Editor} {c : Char} (hinv : e.rows.length ≤ e.capacity)
    (h : append c e = some e1) : e1.rows.length ≤ e1.capacity := by
  unfold append at h
  simp only at h
  split at h
  · split at h
    · simp at h
    · rename_i rows1 cap1 hr
      simp only [Option.some.injEq] at h
      subst h
      exact append_newline_rows_store hinv hr
  · split at h
    · simp at h
    · rename_i e2 hi
      simp only [Option.some.injEq] at h
      subst h
      have h1 := insert_length hi
      have h2 := insert_capacity hi
      simp only
      omega

theorem deletec_store {e e1 : Editor} (h : deletec e = some e1) :
    e1.capacity = e.capacity ∧ e1.rows.length ≤ e.rows.length := by
  unfold deletec at h
  simp only at h
  split at h
  · simp only [Option.some.injEq] at h
    subst h; exact ⟨rfl, le_refl _⟩
  · split at h
    · split at h
      · simp at h
      · split at h
        · simp at h
        · simp only [Option.some.injEq] at h
          subst h
          refine ⟨rfl, ?_⟩
          simp only [List.length_set]
          exact le_refl _
    · split at h
      · simp at h
      · rename_i prev hprev
        split at h
        · simp at h
        · split at h
          · simp at h
          · rename_i e2 ha
            simp only [Option.some.injEq] at h
            subst h
            unfold append_str at ha
            rw [hprev] at ha
            simp only [Option.some.injEq] at ha
            subst ha
            refine ⟨rfl, ?_⟩
            unfold deleter
            simp only
            split
            · simp
            · rw [List.length_eraseIdx]
              simp only [List.length_set]
              split <;> omega

theorem clamp_x_capacity (g : Nat) (e : Editor) : (clamp_x g e).capacity = e.capacity := by
  unfold clamp_x
  simp only
  split <;> rfl

theorem handle_switch_capacity {op : operation} {g : Nat} {e e1 : Editor}
    (hop : op ≠ .backspace) (h : handle_switch op g e = some e1) :
    e1.capacity = e.capacity := by
  unfold handle_switch at h
  cases op <;> simp only at h
  case backspace => exact absurd rfl hop
  all_goals
    repeat' split at h
    all_goals first
      | (simp only [Option.some.injEq] at h; subst h; rfl)
      | (simp at h)

theorem handle_ctrl_store {op : operation} {e e1 : Editor} (h : handle_ctrl op e = some e1) :
    e1.capacity = e.capacity ∧ e1.rows.length ≤ e.rows.length := by
  have hplain : ∀ (op : operation) (e0 e2 : Editor), handle_ctrl_plain op e0 = some e2 →
      e2.capacity = e0.capacity ∧ e2.rows.length ≤ e0.rows.length := by
    intro op e0 e2 h2
    unfold handle_ctrl_plain at h2
    simp only [Option.map_eq_some'] at h2
    obtain ⟨e3, h3, rfl⟩ := h2
    rw [clamp_x_rows, clamp_x_capacity]
    by_cases hop : op = .backspace
    · subst hop
      exact deletec_store h3
    · rw [handle_switch_rows hop h3, handle_switch_capacity hop h3]
      exact ⟨rfl, le_refl _⟩
  unfold handle_ctrl at h
  cases op
  case del =>
    simp only at h
    split at h
    · simp at h
    · simp only [Option.some.injEq] at h
      subst h; rw [clamp_x_rows, clamp_x_capacity]
      exact ⟨rfl, le_refl _⟩
    · split at h
      · simp at h
      · rename_i e2 h2
        split at h
        · simp at h
        · rename_i e3 h3
          simp only [Option.some.injEq] at h
          subst h
          rw [clamp_x_rows, clamp_x_capacity]
          have ha := hplain _ _ _ h2
          have hb := deletec_store h3
          exact ⟨by omega, by omega⟩
  all_goals exact hplain _ _ _ h

theorem scroll_capacity {e e1 : Editor} (he : scroll e = some e1) :
    e1.capacity = e.capacity := by
  unfold scroll at he
  simp only at he
  split at he
  · simp at he
  · simp only [Option.some.injEq] at he
    subst he; rfl

theorem drawscreenLoop_store (top ro : Nat) :
    ∀ (iters i : Nat) (rows : List row_t) (cap : Nat) (m : Bool) (rows1 : List row_t)
      (cap1 : Nat) (m1 : Bool),
      rows.length ≤ cap → drawscreenLoop top ro iters i rows cap m = some (rows1, cap1, m1) →
      rows1.length ≤ cap1 := by
  intro iters
  induction iters with
  | zero =>
    intro i rows cap m rows1 cap1 m1 h he
    simp only [drawscreenLoop, Option.some.injEq, Prod.mk.injEq] at he
    rw [← he.1, ← he.2.1]; exact h
  | succ n ih =>
    intro i rows cap m rows1 cap1 m1 h he
    have hg := vec_grow_gt rows.length cap
    have hpush : (rows ++ [(([], []) : row_t)]).length ≤ vec_grow rows.length cap := by
      simp only [List.length_append, List.length_singleton]
      omega
    simp only [drawscreenLoop] at he
    repeat' split at he
    all_goals first
      | (simp at he; done)
      | (simp only [Option.some.injEq, Prod.mk.injEq] at he; rw [← he.1, ← he.2.1]; exact h)
      | exact ih _ _ _ _ _ _ _ hpush he
      | exact ih _ _ _ _ _ _ _ h he

theorem drawscreen_store {e e1 : Editor} (hinv : e.rows.length ≤ e.capacity)
    (he : drawscreen e = some e1) : e1.rows.length ≤ e1.capacity := by
  unfold drawscreen at he
  simp only at he
  split at he
  · simp at he
  · rename_i rows1 cap1 m1 hl
    simp only [Option.some.injEq] at he
    subst he
    exact drawscreenLoop_store _ _ _ _ _ _ _ _ _ _ hinv hl

/-- The capacity model is consistent: the storage `main` builds holds the rows
it loaded, and every call that returns leaves `rows.size() <= rows.capacity()`.
In every state reached, "the vector is full" is `size == capacity`. -/
theorem capacity_covers_rows :
    (∀ n : Nat, n ≤ load_capacity n)
    ∧ ∀ (steps : List Step) (e e1 : Editor),
        e.rows.length ≤ e.capacity → run steps e = some e1 →
        e1.rows.length ≤ e1.capacity := by
  refine ⟨load_capacity_ge, ?_⟩
  intro steps
  induction steps with
  | nil =>
    intro e e1 h he
    simp only [run, Option.some.injEq] at he
    subst he; exact h
  | cons s rest ih =>
    intro e e1 h he
    simp only [run] at he
    split at he
    · simp at he
    · rename_i e2 h2
      refine ih e2 e1 ?_ he
      cases s with
      | key c => exact append_store h h2
      | ctrl op =>
        have := handle_ctrl_store (show handle_ctrl op e = some e2 from h2)
        omega
      | scroll =>
        have h3 : scroll e = some e2 := h2
        rw [scroll_rows h3, scroll_capacity h3]; exact h
      | drawscreen => exact drawscreen_store h h2

end TextEditor
